import Mathlib

set_option linter.unusedSectionVars false
set_option linter.unusedVariables false

/-
Verification of the kabuki hierarchical-model compiler and slice sampler.

This file gives a shallow embedding, in Lean 4, of the parts of the kabuki
source that the specification talks about:

  - the recursive data partitioner  Hierarchical._get_data_depend_rec
    (src/kabuki/hierarchical.py),
  - the node-graph compiler  Hierarchical.create_nodes  and its phase
    functions  _set_dependent_param, _set_independet_param, _set_subj_nodes,
    _set_bottom_nodes, _create_bottom_node,
  - the constructor-time configuration checks of  Hierarchical.__init__,
    Hierarchical._change_default_params  and  HNode.__init__,
  - the slice sampler  SliceSampling.step  (src/kabuki/slice.py).

Modelling conventions, chosen once and used throughout:

  - A data table (numpy recarray) is a list of rows; a row is an association
    list from column name to an integer cell value.  Integer cells are enough
    for every property at stake (partition structure, uniqueness counts,
    subject identity); numpy would also allow floats and strings.
  - numpy.unique is modelled by List.dedup.  numpy sorts the unique values,
    List.dedup keeps the last occurrence of each; none of the verified
    properties depend on the enumeration order, only on the set of values
    (both enumerations are duplicate-free and have the same members).
  - Python OrderedDict objects are association lists with
    insert-or-overwrite update (aupd below): overwriting an existing key
    keeps its position, a new key is appended at the end.  This matches
    OrderedDict semantics exactly.
  - pymc stochastic objects are opaque; the model represents a created node
    by a fresh natural-number identity drawn from a counter in the compiler
    state, so that object identity (which call created which node) is
    observable.  create_pymc_node returns None when the template has no
    knode for the tier; the model stores an Option accordingly.
  - Python float arithmetic in the slice sampler is modelled over ℚ.  The
    sampler uses only +, -, * and comparisons, so every trajectory on
    rational inputs stays rational.
  - Exceptions (KeyError, ValueError, AssertionError) are modelled with
    Except; code paths the claims do not exercise (KeyError on a genuinely
    absent dictionary key inside graph construction) are modelled with
    total lookups carrying a default, as noted at each definition.
-/

namespace Kabuki

/-! ### Association lists with OrderedDict update semantics -/

/-- Lookup in an association list (first binding wins, as in a dict). -/
def aget {κ α : Type} [DecidableEq κ] : List (κ × α) → κ → Option α
  | [], _ => none
  | (k', v) :: t, k => if k' = k then some v else aget t k

/-- Insert-or-overwrite, with OrderedDict semantics: an existing key keeps
its position, a new key is appended at the end. -/
def aupd {κ α : Type} [DecidableEq κ] (k : κ) (v : α) : List (κ × α) → List (κ × α)
  | [] => [(k, v)]
  | (k', v') :: t => if k' = k then (k, v) :: t else (k', v') :: aupd k v t

/-- The key list of an association list, in dictionary order. -/
def akeys {κ α : Type} (l : List (κ × α)) : List κ := l.map Prod.fst

/-- The value list of an association list, in dictionary order. -/
def avals {κ α : Type} (l : List (κ × α)) : List α := l.map Prod.snd

section AssocLemmas

variable {κ α β : Type} [DecidableEq κ]

@[simp] theorem aget_nil (k : κ) : aget ([] : List (κ × α)) k = none := rfl

theorem aget_cons (k' : κ) (v : α) (t : List (κ × α)) (k : κ) :
    aget ((k', v) :: t) k = if k' = k then some v else aget t k := rfl

@[simp] theorem aget_aupd_self (l : List (κ × α)) (k : κ) (v : α) :
    aget (aupd k v l) k = some v := by
  induction l with
  | nil => simp [aupd, aget]
  | cons p t ih =>
    obtain ⟨k', v'⟩ := p
    by_cases h : k' = k
    · simp [aupd, h, aget]
    · simp [aupd, h, aget, ih]

theorem aget_aupd_ne (l : List (κ × α)) (k k' : κ) (v : α) (h : k ≠ k') :
    aget (aupd k v l) k' = aget l k' := by
  induction l with
  | nil => simp [aupd, aget, h]
  | cons p t ih =>
    obtain ⟨k₀, v₀⟩ := p
    by_cases h₀ : k₀ = k
    · subst h₀; simp [aupd, aget, h, ih]
    · simp only [aupd, if_neg h₀, aget]
      by_cases h₁ : k₀ = k'
      · simp [h₁]
      · simp [h₁, ih]

@[simp] theorem akeys_nil : akeys ([] : List (κ × α)) = [] := rfl

@[simp] theorem akeys_cons (p : κ × α) (t : List (κ × α)) :
    akeys (p :: t) = p.1 :: akeys t := rfl

theorem akeys_aupd_mem (l : List (κ × α)) (k : κ) (v : α) (h : k ∈ akeys l) :
    akeys (aupd k v l) = akeys l := by
  induction l with
  | nil => simp at h
  | cons p t ih =>
    obtain ⟨k₀, v₀⟩ := p
    by_cases h₀ : k₀ = k
    · simp [aupd, h₀]
    · simp only [akeys_cons, List.mem_cons] at h
      rcases h with h | h
      · exact absurd h.symm h₀
      · simp [aupd, h₀, ih h]

theorem akeys_aupd_not_mem (l : List (κ × α)) (k : κ) (v : α) (h : k ∉ akeys l) :
    akeys (aupd k v l) = akeys l ++ [k] := by
  induction l with
  | nil => simp [aupd]
  | cons p t ih =>
    obtain ⟨k₀, v₀⟩ := p
    simp only [akeys_cons, List.mem_cons] at h
    push_neg at h
    simp [aupd, Ne.symm h.1, ih h.2]

theorem aget_isSome_iff_mem_akeys (l : List (κ × α)) (k : κ) :
    (aget l k).isSome = true ↔ k ∈ akeys l := by
  induction l with
  | nil => simp [aget]
  | cons p t ih =>
    obtain ⟨k₀, v₀⟩ := p
    by_cases h : k₀ = k
    · subst h; simp [aget]
    · simp only [aget, if_neg h, akeys_cons, List.mem_cons, ih]
      constructor
      · exact Or.inr
      · rintro (rfl | hm)
        · exact absurd rfl h
        · exact hm

theorem aget_eq_none_iff (l : List (κ × α)) (k : κ) :
    aget l k = none ↔ k ∉ akeys l := by
  rw [← aget_isSome_iff_mem_akeys]
  cases aget l k <;> simp

end AssocLemmas

/-! ### The data model: rows, tables, column projections -/

/-- One row of the data table: column name to cell value. -/
abbrev Row := List (String × Int)

/-- Cell access, `row[col]`.  Total with default 0: the compiler only reads
columns whose presence `__init__` has already checked. -/
def getCol (r : Row) (c : String) : Int := (aget r c).getD 0

/-- `data[cols]` for one row: the tuple of values of the dependency
columns, in column order. -/
def projCols (cols : List String) (r : Row) : List Int :=
  cols.map (fun c => getCol r c)

/-- The data table: named columns plus the list of rows
(a numpy recarray). -/
structure DataTable where
  colnames : List String
  rows : List Row
deriving DecidableEq

/-- A partition tag.  In the source a tag is a Python string: the empty
string when no dependency applies, `str(value)` of a single unique
value combination, or `str([v1, v2, ...])` of the accumulated path when the
bottom-node partitioner consumed more than one dependency entry.  The three
string shapes never collide for integer-valued cells, so the model keeps
them as separate constructors; `Tag.single` carries the tuple of values of
one dependency entry (a one-element tuple for a single column). -/
inductive Tag where
  | empty : Tag
  | single : List Int → Tag
  | multi : List (List Int) → Tag
deriving DecidableEq

/-- `dep_name_str` of `_get_data_depend_rec`: the empty tag for an empty
path, the single value for a one-entry path, the whole path otherwise. -/
def mkTag : List (List Int) → Tag
  | [] => Tag.empty
  | [v] => Tag.single v
  | p => Tag.multi p

/-! ### Parameter templates and the model

`HNodeT` is the parameter template `HNode` of hierarchical.py.  The knode
slots hold opaque node factories in the source; only their presence or
absence matters to graph structure, so they are Booleans here.  The
user-supplied `transform` receives the group and the dispersion node; its
output is an arbitrary function of that pair, so the model records the pair
that is fed to it (see `SubjNode`) rather than the opaque result. -/
structure HNodeT where
  name : String
  is_bottom_node : Bool := false
  group_knode : Bool := false
  var_knode : Bool := false
  subj_knode : Bool := false
  share_var : Bool := false
  optional : Bool := false
  default : Option Int := none
  group_label : Option String := none
  var_label : Option String := none
deriving DecidableEq

/-- `has_subj_nodes` as computed by `_init_params`: presence of a subject
knode, forced true for bottom parameters. -/
def hasSubj (p : HNodeT) : Bool := p.is_bottom_node || p.subj_knode

/-- A created per-subject node.  `id` is the creation identity (fresh from
the compiler counter).  For a subject-tier node of a non-bottom parameter,
`fedGroup`/`fedVar` record the parent binding passed through
`subj_knode.args`: `none` when the corresponding label is unset, otherwise
the content of `group_nodes[tag]` / `var_nodes[tag]` at creation time
(which is itself an Option, since `create_pymc_node` of an absent knode is
None).  For a bottom node, `resolved` records, per model parameter, the
branch taken by `_create_bottom_node` when resolving that parameter
(whether `subj_nodes.has_key(dep_name)` held). -/
structure SubjNode where
  id : Nat
  fedGroup : Option (Option Nat) := none
  fedVar : Option (Option Nat) := none
  resolved : List (String × Bool) := []
deriving DecidableEq

/-- `subj_nodes[tag]`: a per-subject array for group models
(`np.empty(num_subjs)`, entries None until filled), or a single slot for a
non-grouped bottom parameter. -/
inductive SubjCell where
  | arr : List (Option SubjNode) → SubjCell
  | single : Option SubjNode → SubjCell
deriving DecidableEq

/-- The three per-parameter node dictionaries of an `HNode` object
(`group_nodes`, `var_nodes`, `subj_nodes`).  They live on the template
object and persist across `create_nodes` calls. -/
structure PState where
  group_nodes : List (Tag × Option Nat) := []
  var_nodes : List (Tag × Option Nat) := []
  subj_nodes : List (Tag × SubjCell) := []
deriving DecidableEq

def PState.empty : PState := {}

/-- The immutable inputs of one `Hierarchical` model: data, dependency map
(ordered as declared), templates, the include set, and the group flag. -/
structure Model where
  data : DataTable
  depends_on : List (String × List String)
  params : List HNodeT
  includes : List String
  is_group_model : Bool
deriving DecidableEq

/-- The mutable compiler state: the node-identity counter and the
per-template node dictionaries, keyed by parameter name. -/
structure MState where
  counter : Nat
  pstates : List (String × PState)
deriving DecidableEq

def MState.pstate (st : MState) (n : String) : PState :=
  (aget st.pstates n).getD PState.empty

def MState.setP (st : MState) (n : String) (ps : PState) : MState :=
  { st with pstates := aupd n ps st.pstates }

/-- The state right after `__init__`: every template starts with empty node
dictionaries, no node exists yet. -/
def initState (m : Model) : MState :=
  { counter := 0, pstates := m.params.map (fun p => (p.name, PState.empty)) }

/-- `self._subjs`: the unique subject identifiers of the data. -/
def subjsOf (m : Model) : List Int :=
  ((m.data.rows.map (fun r => getCol r "subj_idx")).dedup)

/-- `self._num_subjs`. -/
def numSubjs (m : Model) : Nat := (subjsOf m).length

/-- `self.params_include`: non-optional parameters plus the explicitly
included optional ones, in declaration order. -/
def paramsInclude (m : Model) : List HNodeT :=
  m.params.filter (fun p => !p.optional || p.name ∈ m.includes)

/-- `create_pymc_node(knode, name)`: None for an absent knode, otherwise a
fresh node identity from the counter. -/
def createNode (knode : Bool) (st : MState) : Option Nat × MState :=
  if knode then (some st.counter, { st with counter := st.counter + 1 }) else (none, st)

/-! ### The recursive dependency partitioner

`_get_data_depend_rec` threads a `params` dictionary of resolved parent
bindings through the recursion; a binding is either a whole per-subject
cell (group model, parameter with subject tier) or a single group node. -/

inductive PVal where
  | cell : SubjCell → PVal
  | node : Option Nat → PVal
deriving DecidableEq

/-- Template lookup `self.params_include[param_name]`, total with a dummy
default (the source would raise KeyError on a dependency entry that names
no template; that configuration error is outside every claim). -/
def findParam (m : Model) (n : String) : HNodeT :=
  ((paramsInclude m).find? (fun p => p.name = n)).getD { name := n }

/-- `Hierarchical._get_data_depend_rec`.  Consumes the dependency entries in
order; at each level takes the unique value combinations of the entry
columns in the current slice, restricts the slice, rebinds the entry
parameter to the already-created node of that tag (subject-tier cell if the
model is grouped and the parameter has subject nodes, group node
otherwise), and recurses; at the bottom it emits the accumulated slice,
bindings and tag. -/
def getDataDependRec (m : Model) (st : MState) (data : List Row)
    (deps : List (String × List String)) (params : List (String × PVal))
    (path : List (List Int)) : List (List Row × List (String × PVal) × Tag) :=
  match deps with
  | [] => [(data, params, mkTag path)]
  | (pname, cols) :: rest =>
      ((data.map (projCols cols)).dedup).flatMap (fun u =>
        let dataDep := data.filter (fun r => projCols cols r = u)
        let p := findParam m pname
        let pv :=
          if m.is_group_model && hasSubj p then
            PVal.cell ((aget (st.pstate pname).subj_nodes (Tag.single u)).getD (SubjCell.arr []))
          else
            PVal.node ((aget (st.pstate pname).group_nodes (Tag.single u)).getD none)
        getDataDependRec m st dataDep rest (aupd pname pv params) (path ++ [u]))

/-! ### Partitioner combinatorics

Helper lemmas for the partition-completeness property: the slices emitted
by `getDataDependRec` cover the input rows exactly, and their number is the
number of distinct dependency-value tuples present in the input. -/

section GroupBy

variable {α β γ : Type} [DecidableEq α] [DecidableEq β] [DecidableEq γ]

theorem sum_map_ite (us : List β) (hnd : us.Nodup) (c : β) (A : Nat) :
    (us.map (fun v => if c = v then A else 0)).sum = if c ∈ us then A else 0 := by
  induction us with
  | nil => simp
  | cons u t ih =>
    rcases List.nodup_cons.mp hnd with ⟨hu, ht⟩
    by_cases h : c = u
    · subst h
      simp only [List.map_cons, List.sum_cons, if_pos rfl, List.mem_cons, true_or, if_pos]
      have hz : (t.map (fun v => if c = v then A else 0)).sum = 0 := by
        apply List.sum_eq_zero
        intro x hx
        rcases List.mem_map.mp hx with ⟨v, hv, rfl⟩
        rw [if_neg (fun h' : c = v => hu (h' ▸ hv))]
      rw [hz]
      omega
    · simp only [List.map_cons, List.sum_cons, if_neg h, ih ht, List.mem_cons]
      simp [h]

theorem count_filter_key (l : List α) (key : α → β) (v : β) (a : α) :
    (l.filter (fun r => decide (key r = v))).count a
      = if key a = v then l.count a else 0 := by
  by_cases h : key a = v
  · rw [if_pos h]
    exact List.count_filter (by simp [h])
  · rw [if_neg h, List.count_eq_zero]
    intro hmem
    exact h (of_decide_eq_true (List.mem_filter.mp hmem).2)

/-- Grouping a list by a key and concatenating the groups permutes the
list: every element lands in exactly the group of its own key. -/
theorem dedup_flatMap_filter_perm (l : List α) (key : α → β) :
    (((l.map key).dedup).flatMap
      (fun v => l.filter (fun r => decide (key r = v)))).Perm l := by
  rw [List.perm_iff_count]
  intro a
  rw [List.count_flatMap]
  have hterm : ((l.map key).dedup).map
      (List.count a ∘ fun v => l.filter (fun r => decide (key r = v)))
      = ((l.map key).dedup).map (fun v => if key a = v then l.count a else 0) := by
    apply List.map_congr_left
    intro v _
    exact count_filter_key l key v a
  rw [hterm, sum_map_ite _ (List.nodup_dedup _) _ _]
  by_cases hmem : a ∈ l
  · rw [if_pos (List.mem_dedup.mpr (List.mem_map_of_mem _ hmem))]
  · rw [List.count_eq_zero.mpr hmem]
    split <;> rfl

theorem flatMap_perm_of_forall (l : List α) (f g : α → List γ)
    (h : ∀ a ∈ l, (f a).Perm (g a)) : (l.flatMap f).Perm (l.flatMap g) := by
  induction l with
  | nil => simp
  | cons x t ih =>
    simp only [List.flatMap_cons]
    exact (h x (List.mem_cons_self x t)).append
      (ih (fun a ha => h a (List.mem_cons_of_mem x ha)))

theorem flatten_flatMap (l : List α) (f : α → List (List γ)) :
    (l.flatMap f).flatten = l.flatMap (fun a => (f a).flatten) := by
  induction l with
  | nil => rfl
  | cons x t ih => simp [List.flatMap_cons, ih]

theorem toFinset_dedup_list (l : List α) : l.dedup.toFinset = l.toFinset := by
  ext a
  simp [List.mem_toFinset, List.mem_dedup]

theorem toFinset_map_list (l : List α) (f : α → γ) :
    (l.map f).toFinset = l.toFinset.image f := by
  ext c
  simp [List.mem_toFinset, List.mem_map, Finset.mem_image]

theorem dedup_length_map_injective (l : List α) (f : α → γ)
    (hf : Function.Injective f) : ((l.map f).dedup).length = l.dedup.length := by
  rw [← List.card_toFinset, ← List.card_toFinset, toFinset_map_list,
    Finset.card_image_of_injective _ hf]

/-- Splitting the distinct pairs `(p a, q a)` of a list by their first
component: the number of distinct pairs is the sum, over the distinct
values of `p`, of the number of distinct `q`-values inside the fiber. -/
theorem dedup_length_key_split (l : List α) (p : α → β) (q : α → γ) :
    ((l.map (fun a => (p a, q a))).dedup).length
      = (((l.map p).dedup).map
          (fun v => (((l.filter (fun a => decide (p a = v))).map q).dedup).length)).sum := by
  have hcard : ∀ (l' : List (β × γ)), l'.dedup.length = l'.toFinset.card := by
    intro l'; rw [List.card_toFinset]
  have hcardγ : ∀ (l' : List γ), l'.dedup.length = l'.toFinset.card := by
    intro l'; rw [List.card_toFinset]
  rw [hcard]
  have hterm : (((l.map p).dedup).map
      (fun v => (((l.filter (fun a => decide (p a = v))).map q).dedup).length))
      = (((l.map p).dedup).map
          (fun v => (((l.filter (fun a => decide (p a = v))).map q).toFinset).card)) := by
    apply List.map_congr_left
    intro v _
    exact hcardγ _
  rw [hterm]
  rw [← List.sum_toFinset _ (List.nodup_dedup _), toFinset_dedup_list]
  have hfib : ∀ x ∈ (l.map (fun a => (p a, q a))).toFinset, x.1 ∈ (l.map p).toFinset := by
    intro x hx
    rcases List.mem_map.mp (List.mem_toFinset.mp hx) with ⟨a, ha, rfl⟩
    exact List.mem_toFinset.mpr (List.mem_map_of_mem _ ha)
  rw [Finset.card_eq_sum_card_fiberwise hfib]
  apply Finset.sum_congr rfl
  intro v _
  have himg : ((l.map (fun a => (p a, q a))).toFinset.filter (fun x => x.1 = v))
      = (((l.filter (fun a => decide (p a = v))).map q).toFinset).image (fun c => (v, c)) := by
    ext x
    obtain ⟨x1, x2⟩ := x
    simp only [Finset.mem_filter, List.mem_toFinset, List.mem_map, Finset.mem_image,
      List.mem_filter]
    constructor
    · rintro ⟨⟨a, ha, heq⟩, hfst⟩
      injection heq with hpa hqa
      refine ⟨x2, ⟨a, ⟨ha, decide_eq_true (hfst ▸ hpa)⟩, hqa⟩, ?_⟩
      rw [hfst]
    · rintro ⟨c, ⟨a, ⟨ha, hpa⟩, hqa⟩, heq⟩
      injection heq with h1 h2
      refine ⟨⟨a, ha, ?_⟩, h1.symm⟩
      rw [of_decide_eq_true hpa, hqa, h1, h2]
  rw [himg, Finset.card_image_of_injective]
  intro c₁ c₂ h
  injection h

end GroupBy

/-! ### Partition completeness for the partitioner -/

/-- The data slices emitted by the partitioner, in emission order. -/
def depSlices (m : Model) (st : MState) (data : List Row)
    (deps : List (String × List String)) (params : List (String × PVal))
    (path : List (List Int)) : List (List Row) :=
  (getDataDependRec m st data deps params path).map (fun t => t.1)

theorem depSlices_nil (m : Model) (st : MState) (data : List Row)
    (params : List (String × PVal)) (path : List (List Int)) :
    depSlices m st data [] params path = [data] := rfl

theorem depSlices_cons (m : Model) (st : MState) (data : List Row)
    (pname : String) (cols : List String) (rest : List (String × List String))
    (params : List (String × PVal)) (path : List (List Int)) :
    depSlices m st data ((pname, cols) :: rest) params path
      = ((data.map (projCols cols)).dedup).flatMap (fun u =>
          depSlices m st (data.filter (fun r => projCols cols r = u)) rest
            (aupd pname
              (if m.is_group_model && hasSubj (findParam m pname) then
                PVal.cell ((aget (st.pstate pname).subj_nodes (Tag.single u)).getD (SubjCell.arr []))
              else
                PVal.node ((aget (st.pstate pname).group_nodes (Tag.single u)).getD none))
              params)
            (path ++ [u])) := by
  simp only [depSlices, getDataDependRec, List.map_flatMap]

/-- The emitted slices concatenate to a permutation of the input rows:
nothing is lost, nothing is duplicated. -/
theorem depSlices_flatten_perm (m : Model) (st : MState)
    (deps : List (String × List String)) :
    ∀ (data : List Row) (params : List (String × PVal)) (path : List (List Int)),
      ((depSlices m st data deps params path).flatten).Perm data := by
  induction deps with
  | nil => intro data params path; simp [depSlices_nil]
  | cons d rest ih =>
    intro data params path
    obtain ⟨pname, cols⟩ := d
    rw [depSlices_cons, flatten_flatMap]
    refine (flatMap_perm_of_forall _ _
      (fun u => data.filter (fun r => decide (projCols cols r = u))) ?_).trans
      (dedup_flatMap_filter_perm data (projCols cols))
    intro u _
    exact ih _ _ _

/-- On duplicate-free input the emitted slices are pairwise disjoint. -/
theorem depSlices_pairwise_disjoint (m : Model) (st : MState)
    (deps : List (String × List String)) (data : List Row)
    (params : List (String × PVal)) (path : List (List Int))
    (hnd : data.Nodup) :
    (depSlices m st data deps params path).Pairwise List.Disjoint := by
  have hperm := depSlices_flatten_perm m st deps data params path
  have hflat : ((depSlices m st data deps params path).flatten).Nodup :=
    hperm.symm.nodup hnd
  exact (List.nodup_flatten.mp hflat).2

theorem dedup_map_const {α γ : Type} [DecidableEq γ] (l : List α) (c : γ)
    (h : l ≠ []) : (l.map (fun _ => c)).dedup = [c] := by
  induction l with
  | nil => exact absurd rfl h
  | cons x t ih =>
    cases t with
    | nil => rfl
    | cons y s =>
      have hmem : c ∈ (y :: s).map (fun _ => c) := by
        simp
      rw [List.map_cons, List.dedup_cons_of_mem hmem]
      exact ih (by simp)

theorem cons_pair_injective {β : Type} :
    Function.Injective (fun x : β × List β => x.1 :: x.2) := by
  rintro ⟨a, b⟩ ⟨c, d⟩ h
  injection h with h1 h2
  exact Prod.ext_iff.mpr ⟨h1, h2⟩

/-- The number of emitted partitions is the number of distinct tuples of
dependency values present in the input rows (one tuple component per
dependency entry, in declaration order). -/
theorem depSlices_length (m : Model) (st : MState)
    (deps : List (String × List String)) :
    ∀ (data : List Row) (params : List (String × PVal)) (path : List (List Int)),
      data ≠ [] →
      (depSlices m st data deps params path).length
        = ((data.map (fun r => deps.map (fun d => projCols d.2 r))).dedup).length := by
  induction deps with
  | nil =>
    intro data params path hne
    rw [depSlices_nil]
    simp only [List.map_nil]
    rw [dedup_map_const data ([] : List (List Int)) hne]
    rfl
  | cons d rest ih =>
    intro data params path hne
    obtain ⟨pname, cols⟩ := d
    rw [depSlices_cons, List.length_flatMap]
    have hterm : ((data.map (projCols cols)).dedup).map
          (List.length ∘ fun u => depSlices m st (data.filter (fun r => projCols cols r = u)) rest
            (aupd pname
              (if m.is_group_model && hasSubj (findParam m pname) then
                PVal.cell ((aget (st.pstate pname).subj_nodes (Tag.single u)).getD (SubjCell.arr []))
              else
                PVal.node ((aget (st.pstate pname).group_nodes (Tag.single u)).getD none))
              params)
            (path ++ [u]))
        = ((data.map (projCols cols)).dedup).map
            (fun u => (((data.filter (fun r => decide (projCols cols r = u))).map
                (fun r => rest.map (fun d => projCols d.2 r))).dedup).length) := by
      apply List.map_congr_left
      intro u hu
      have hne' : data.filter (fun r => projCols cols r = u) ≠ [] := by
        rcases List.mem_map.mp (List.mem_dedup.mp hu) with ⟨r, hr, rfl⟩
        have : r ∈ data.filter (fun r' => decide (projCols cols r' = projCols cols r)) :=
          List.mem_filter.mpr ⟨hr, by simp⟩
        intro hcontra
        rw [hcontra] at this
        exact absurd this (List.not_mem_nil r)
      simp only [Function.comp_apply]
      exact ih _ _ _ hne'
    rw [hterm]
    have hsplit := dedup_length_key_split data (projCols cols)
      (fun r => rest.map (fun d => projCols d.2 r))
    have hinj : ((data.map (fun r =>
          projCols cols r :: rest.map (fun d => projCols d.2 r))).dedup).length
        = ((data.map (fun r =>
            (projCols cols r, rest.map (fun d => projCols d.2 r)))).dedup).length := by
      have hcomp : (data.map (fun r =>
            projCols cols r :: rest.map (fun d => projCols d.2 r)))
          = ((data.map (fun r =>
              (projCols cols r, rest.map (fun d => projCols d.2 r)))).map
              (fun x => x.1 :: x.2)) := by
        rw [List.map_map]
        rfl
      rw [hcomp, dedup_length_map_injective _ _ cons_pair_injective]
    simp only [List.map_cons]
    rw [hinj, hsplit]

/-! ### The node-graph compiler phases -/

/-- The per-subject creation loop of `_set_subj_nodes` (lines 786-793 of
hierarchical.py): `subj_nodes[tag]` becomes an array with one entry per
element of `self._subjs`, each entry produced by
`create_pymc_node(param.subj_knode, ...)` - a fresh node when the subject
knode is present, None otherwise.  There is no emptiness test on the
per-subject data slice: the slice feeds only the initial value of the new
stochastic, never whether it is created.  The counter advances once per
created node. -/
def allocSubjSlots (subj_knode : Bool) (fedG fedV : Option (Option Nat)) :
    Nat → Nat → List (Option SubjNode) × Nat
  | 0, c => ([], c)
  | k + 1, c =>
      if subj_knode then
        let rest := allocSubjSlots subj_knode fedG fedV k (c + 1)
        (some { id := c, fedGroup := fedG, fedVar := fedV } :: rest.1, rest.2)
      else
        let rest := allocSubjSlots subj_knode fedG fedV k c
        (none :: rest.1, rest.2)

/-- `Hierarchical._set_subj_nodes(param, tag, data)`.  Creates the
dispersion node for the tag (reusing the first dictionary value when
`share_var` is set and a dispersion node already exists), then reads the
group and dispersion nodes of this same tag back from the dictionaries,
feeds them to the subject knode under the configured labels (the source
routes them through `param.transform` when set; the model records the pair
fed to the transform), and creates one subject node per subject.  The
`dataSlice` argument is the partition slice of the tag; it only seeds
initial values, so the model carries it for signature fidelity only. -/
def setSubjNodes (m : Model) (p : HNodeT) (tag : Tag) (dataSlice : List Row)
    (st : MState) : MState :=
  let ps := st.pstate p.name
  let vn : Option Nat × MState :=
    if ps.var_nodes.isEmpty || !p.share_var then createNode p.var_knode st
    else (((ps.var_nodes.head?).map Prod.snd).getD none, st)
  let ps1 := { ps with var_nodes := aupd tag vn.1 ps.var_nodes }
  let st1 := (vn.2).setP p.name ps1
  let g := (aget ps1.group_nodes tag).getD none
  let v := (aget ps1.var_nodes tag).getD none
  let fedG := if p.group_label.isSome then some g else none
  let fedV := if p.var_label.isSome then some v else none
  let slots := allocSubjSlots p.subj_knode fedG fedV (numSubjs m) st1.counter
  let ps2 := { ps1 with subj_nodes := aupd tag (SubjCell.arr slots.1) ps1.subj_nodes }
  { st1.setP p.name ps2 with counter := slots.2 }

/-- `Hierarchical._set_dependent_param(param)`: one group node per unique
value combination of the dependency columns over the full dataset, plus -
for a grouped model with a subject tier - the dispersion and subject nodes
of the tag, restricted to the matching rows. -/
def setDependentParam (m : Model) (p : HNodeT) (st : MState) : MState :=
  let cols := (aget m.depends_on p.name).getD []
  ((m.data.rows.map (projCols cols)).dedup).foldl (fun st u =>
    let dataSel := m.data.rows.filter (fun r => projCols cols r = u)
    let tag := Tag.single u
    let ps := st.pstate p.name
    let gn := createNode p.group_knode st
    let st1 := (gn.2).setP p.name { ps with group_nodes := aupd tag gn.1 ps.group_nodes }
    if m.is_group_model && hasSubj p then setSubjNodes m p tag dataSel st1 else st1) st

/-- `Hierarchical._set_independet_param(param)` (name as in the source):
a single group node tagged with the empty string, plus - for a grouped
model with a subject tier - the dispersion and subject nodes over the whole
dataset. -/
def setIndependetParam (m : Model) (p : HNodeT) (st : MState) : MState :=
  let ps := st.pstate p.name
  let gn := createNode p.group_knode st
  let st1 := (gn.2).setP p.name { ps with group_nodes := aupd Tag.empty gn.1 ps.group_nodes }
  if m.is_group_model && hasSubj p then setSubjNodes m p Tag.empty m.data.rows st1 else st1

/-- The parent-binding dictionary `_get_data_depend` seeds before the
recursion: for every included non-bottom parameter without a dependency
entry, its subject cell (grouped, subject tier) or its group node, at the
empty tag. -/
def initialParams (m : Model) (st : MState) : List (String × PVal) :=
  (paramsInclude m).foldl (fun acc p =>
    if (aget m.depends_on p.name).isSome || p.is_bottom_node then acc
    else
      let pv :=
        if m.is_group_model && hasSubj p then
          PVal.cell ((aget (st.pstate p.name).subj_nodes Tag.empty).getD (SubjCell.arr []))
        else
          PVal.node ((aget (st.pstate p.name).group_nodes Tag.empty).getD none)
      aupd p.name pv acc) []

/-- `Hierarchical._get_data_depend()`. -/
def getDataDepend (m : Model) (st : MState) : List (List Row × List (String × PVal) × Tag) :=
  getDataDependRec m st m.data.rows m.depends_on (initialParams m st) []

/-- The branch decision `_create_bottom_node` takes for each model
parameter when assembling the parent bindings of a new bottom node: whether
`selected_param.subj_nodes.has_key(dep_name)` held (true: resolved from
that parameter own entry for this tag; false: fell back to the binding the
partitioner threaded through `params`). -/
def resolveBranches (m : Model) (st : MState) (tag : Tag) : List (String × Bool) :=
  (paramsInclude m).map (fun sp =>
    (sp.name, (aget (st.pstate sp.name).subj_nodes tag).isSome))

/-- One turn of the per-subject loop of `_create_bottom_node` for the
subject at position `is.1` with identifier `is.2`: skip when the subject
has no row in the partition slice, otherwise create the bottom node and
store it in the slot of that subject. -/
def bottomSubjStep (m : Model) (p : HNodeT) (dataSlice : List Row) (tag : Tag)
    (st : MState) (is : Nat × Int) : MState :=
  let dataSubj := dataSlice.filter (fun r => getCol r "subj_idx" = is.2)
  if dataSubj.isEmpty then st
  else
    let node : SubjNode := { id := st.counter, resolved := resolveBranches m st tag }
    let ps := st.pstate p.name
    let cell1 := match (aget ps.subj_nodes tag).getD (SubjCell.arr []) with
      | SubjCell.arr slots => SubjCell.arr (slots.set is.1 (some node))
      | SubjCell.single s => SubjCell.single s
    { st.setP p.name { ps with subj_nodes := aupd tag cell1 ps.subj_nodes } with
        counter := st.counter + 1 }

/-- `Hierarchical._create_bottom_node(param, data, params, dep_name, idx)`.
Grouped model: one bottom node per subject with at least one row in the
partition slice - a subject with zero rows is skipped and keeps the None
slot that the init phase allocated.  Ungrouped model: a single bottom
node.  The user callback `get_bottom_node` returns an opaque likelihood
node; the model records its identity and its parent-resolution pattern. -/
def createBottomNode (m : Model) (p : HNodeT) (dataSlice : List Row)
    (params : List (String × PVal)) (tag : Tag) (st : MState) : MState :=
  if m.is_group_model then
    ((subjsOf m).enum).foldl (bottomSubjStep m p dataSlice tag) st
  else
    let node : SubjNode := { id := st.counter, resolved := resolveBranches m st tag }
    let ps := st.pstate p.name
    { st.setP p.name { ps with subj_nodes := aupd tag (SubjCell.single (some node)) ps.subj_nodes } with
        counter := st.counter + 1 }

/-- `Hierarchical._set_bottom_nodes(param, init)`: run the partitioner,
then either allocate the empty per-subject slots for every emitted tag
(init phase; `np.empty(num_subjs)` holds None in every entry) or create the
bottom nodes (create phase). -/
def setBottomNodes (m : Model) (p : HNodeT) (init : Bool) (st : MState) : MState :=
  (getDataDepend m st).foldl (fun st t =>
    if init then
      let ps := st.pstate p.name
      let cell :=
        if m.is_group_model && hasSubj p then SubjCell.arr (List.replicate (numSubjs m) none)
        else SubjCell.single none
      st.setP p.name { ps with subj_nodes := aupd t.2.2 cell ps.subj_nodes }
    else
      createBottomNode m p t.1 t.2.1 t.2.2 st) st

/-- The `_create` body of `Hierarchical.create_nodes`: the three strictly
ordered phases - non-bottom parameters (dependent or independent), bottom
placeholder initialization, bottom creation - each a pass over
`params_include` in declaration order. -/
def createNodesPhases (m : Model) (st : MState) : MState :=
  let st1 := (paramsInclude m).foldl (fun st p =>
    if p.is_bottom_node then st
    else if (aget m.depends_on p.name).isSome then setDependentParam m p st
    else setIndependetParam m p st) st
  let st2 := (paramsInclude m).foldl (fun st p =>
    if p.is_bottom_node then setBottomNodes m p true st else st) st1
  (paramsInclude m).foldl (fun st p =>
    if p.is_bottom_node then setBottomNodes m p false st else st) st2

/-! ### Graph topology

The topology of a compiled graph: which tags exist per parameter and tier,
in which order, whether each slot holds a node, the shape of every
per-subject array, and the parent-resolution pattern of every bottom node.
Node identities (which call created the node object) are erased: they are
the values that may differ between two rebuilds. -/

inductive CellTopo where
  | arr : List (Option (List (String × Bool))) → CellTopo
  | single : Option (List (String × Bool)) → CellTopo
deriving DecidableEq

def SubjCell.topo : SubjCell → CellTopo
  | SubjCell.arr slots => CellTopo.arr (slots.map (Option.map SubjNode.resolved))
  | SubjCell.single s => CellTopo.single (s.map SubjNode.resolved)

structure PTopo where
  groupT : List (Tag × Bool)
  varT : List (Tag × Bool)
  subjT : List (Tag × CellTopo)
deriving DecidableEq

def PState.topo (ps : PState) : PTopo :=
  { groupT := ps.group_nodes.map (fun kv => (kv.1, kv.2.isSome)),
    varT := ps.var_nodes.map (fun kv => (kv.1, kv.2.isSome)),
    subjT := ps.subj_nodes.map (fun kv => (kv.1, kv.2.topo)) }

def MState.topo (st : MState) : List (String × PTopo) :=
  st.pstates.map (fun kv => (kv.1, kv.2.topo))

/-! ### The slice sampler (src/kabuki/slice.py)

`SliceSampling.step` runs three bounded loops, each of the shape
`iter = 0; while cond and iter < maxiter: body; iter += 1` followed by
`assert iter < self.maxiter`.  `loopAux` is that loop: it returns the final
state together with the number of body executions; the assert fails
exactly when that number reaches `maxiter` (the fuel ran out after
`maxiter` positive condition checks).

Randomness enters through three inputs fixed before the step runs: the
unit-exponential draw for the vertical level, the uniform draw positioning
the initial interval, and the stream `u` of uniform draws for the
shrink-in phase (`u 0` is the first draw, `u k` the draw of the k-th
shrink iteration).  `logp_plus_loglike` is the function `L` of the value
currently assigned to the stochastic. -/

def loopAux {σ : Type} (cond : σ → Bool) (f : σ → σ) : Nat → σ → σ × Nat
  | 0, s => (s, 0)
  | k + 1, s =>
      if cond s then
        let r := loopAux cond f k (f s)
        (r.1, r.2 + 1)
      else (s, 0)

structure SliceIn where
  L : ℚ → ℚ
  width : ℚ
  maxiter : Nat
  x0 : ℚ
  eDraw : ℚ
  rDraw : ℚ
  u : Nat → ℚ
  neval0 : Nat

/-- The result of a successful step: the final value of the stochastic
(the last accepted draw), the final interval, the vertical level, the
updated evaluation counter, and the number of assignments the step
performed on `stoch.value`. -/
structure SliceOut where
  value : ℚ
  xl : ℚ
  xr : ℚ
  z : ℚ
  neval : Nat
  assigns : Nat
deriving DecidableEq

/-- `z = self.logp_plus_loglike - np.random.exponential()`, drawn at the
current value. -/
def sliceZ (inp : SliceIn) : ℚ := inp.L inp.x0 - inp.eDraw

/-- `xl = value - self.width * np.random.rand()`. -/
def sliceXl0 (inp : SliceIn) : ℚ := inp.x0 - inp.width * inp.rDraw

/-- `xr = xl + self.width`. -/
def sliceXr0 (inp : SliceIn) : ℚ := sliceXl0 inp + inp.width

/-- The step-out-left loop: starting from the initial left edge, while
`L(xl) > z`, move left by one width (`stoch.value` tracks `xl`). -/
def leftRes (inp : SliceIn) : ℚ × Nat :=
  loopAux (fun x => decide (sliceZ inp < inp.L x)) (fun x => x - inp.width)
    inp.maxiter (sliceXl0 inp)

/-- The step-out-right loop. -/
def rightRes (inp : SliceIn) : ℚ × Nat :=
  loopAux (fun x => decide (sliceZ inp < inp.L x)) (fun x => x + inp.width)
    inp.maxiter (sliceXr0 inp)

/-- The shrink-in loop state: current interval, the point just drawn (and
assigned to the stochastic), and the number of draws already consumed. -/
structure ShrinkSt where
  xl : ℚ
  xr : ℚ
  xp : ℚ
  k : Nat
deriving DecidableEq

/-- `xp = rand() * (xr - xl) + xl`, the draw made before the shrink loop. -/
def shrinkInit (inp : SliceIn) : ShrinkSt :=
  { xl := (leftRes inp).1, xr := (rightRes inp).1,
    xp := inp.u 0 * ((rightRes inp).1 - (leftRes inp).1) + (leftRes inp).1, k := 0 }

/-- The shrink loop condition `self.logp_plus_loglike < z` at the current
value `xp`. -/
def shrinkCond (inp : SliceIn) (s : ShrinkSt) : Bool :=
  decide (inp.L s.xp < sliceZ inp)

/-- One shrink iteration: pull the edge on the side of the rejected point
(`xr = xp` when `xp > value`, else `xl = xp`), redraw, reassign. -/
def shrinkBody (inp : SliceIn) (s : ShrinkSt) : ShrinkSt :=
  let xr1 := if inp.x0 < s.xp then s.xp else s.xr
  let xl1 := if inp.x0 < s.xp then s.xl else s.xp
  { xl := xl1, xr := xr1, xp := inp.u (s.k + 1) * (xr1 - xl1) + xl1, k := s.k + 1 }

def shrinkRes (inp : SliceIn) : ShrinkSt × Nat :=
  loopAux (shrinkCond inp) (shrinkBody inp) inp.maxiter (shrinkInit inp)

/-- `SliceSampling.step`.  The three loops run in order; each is followed
by `assert iter < self.maxiter` whose failure abandons the step with the
given message, and by `self.neval += iter`.  `assigns` counts every
`stoch.value = ...` assignment the step performs: one positioning
assignment before each loop phase (lines 47, 60, 73 of slice.py) plus one
per loop iteration. -/
def sliceStep (inp : SliceIn) : Except String SliceOut :=
  if inp.maxiter ≤ (leftRes inp).2 then Except.error "Step-out procedure failed"
  else if inp.maxiter ≤ (rightRes inp).2 then Except.error "Step-out procedure failed"
  else if inp.maxiter ≤ (shrinkRes inp).2 then Except.error "Shrink-in procedure failed."
  else Except.ok
    { value := (shrinkRes inp).1.xp,
      xl := (shrinkRes inp).1.xl,
      xr := (shrinkRes inp).1.xr,
      z := sliceZ inp,
      neval := inp.neval0 + (leftRes inp).2 + (rightRes inp).2 + (shrinkRes inp).2,
      assigns := ((leftRes inp).2 + 1) + ((rightRes inp).2 + 1) + ((shrinkRes inp).2 + 1) }

/-! #### Generic facts about the bounded loop -/

section LoopAux

variable {σ : Type} (cond : σ → Bool) (f : σ → σ)

theorem loopAux_le (k : Nat) (s : σ) : (loopAux cond f k s).2 ≤ k := by
  induction k generalizing s with
  | zero => simp [loopAux]
  | succ k ih =>
    by_cases h : cond s
    · simp only [loopAux, if_pos h]
      exact Nat.succ_le_succ (ih (f s))
    · simp [loopAux, if_neg h]

theorem loopAux_fst (k : Nat) (s : σ) :
    (loopAux cond f k s).1 = f^[(loopAux cond f k s).2] s := by
  induction k generalizing s with
  | zero => simp [loopAux]
  | succ k ih =>
    by_cases h : cond s
    · simp only [loopAux, if_pos h]
      rw [ih (f s), Function.iterate_succ_apply]
    · simp [loopAux, if_neg h]

theorem loopAux_exit (k : Nat) (s : σ) (h : (loopAux cond f k s).2 < k) :
    cond (loopAux cond f k s).1 = false := by
  induction k generalizing s with
  | zero => exact absurd h (by simp)
  | succ k ih =>
    by_cases hc : cond s
    · simp only [loopAux, if_pos hc] at h ⊢
      exact ih (f s) (Nat.lt_of_succ_lt_succ h)
    · simp [loopAux, if_neg hc]
      simpa using hc

/-- The loop stops short of its fuel exactly when the condition fails at
some iterate strictly inside the fuel bound. -/
theorem loopAux_lt_iff (k : Nat) (s : σ) :
    (loopAux cond f k s).2 < k ↔ ∃ j < k, cond (f^[j] s) = false := by
  induction k generalizing s with
  | zero => simp
  | succ k ih =>
    by_cases hc : cond s
    · simp only [loopAux, if_pos hc]
      constructor
      · intro h
        rcases (ih (f s)).mp (Nat.lt_of_succ_lt_succ h) with ⟨j, hj, hcond⟩
        exact ⟨j + 1, Nat.succ_lt_succ hj, by rwa [Function.iterate_succ_apply]⟩
      · rintro ⟨j, hj, hcond⟩
        cases j with
        | zero => rw [Function.iterate_zero_apply] at hcond; rw [hc] at hcond; cases hcond
        | succ j =>
            rw [Function.iterate_succ_apply] at hcond
            exact Nat.succ_lt_succ ((ih (f s)).mpr ⟨j, Nat.lt_of_succ_lt_succ hj, hcond⟩)
    · simp only [loopAux, if_neg hc]
      refine ⟨fun _ => ⟨0, Nat.succ_pos k, ?_⟩, fun _ => Nat.succ_pos k⟩
      rw [Function.iterate_zero_apply]
      simpa using hc

/-- Loop-invariant preservation: a property that the body preserves while
the condition holds is carried to the final state. -/
theorem loopAux_inv (P : σ → Prop) (k : Nat) (s : σ) (h0 : P s)
    (hstep : ∀ t, P t → cond t = true → P (f t)) :
    P (loopAux cond f k s).1 := by
  induction k generalizing s with
  | zero => exact h0
  | succ k ih =>
    by_cases hc : cond s
    · simp only [loopAux, if_pos hc]
      exact ih (f s) (hstep s h0 hc)
    · simpa [loopAux, if_neg hc] using h0

end LoopAux

/-! ### Constructor-time configuration checks

`Hierarchical.__init__` (with `_init_params` and `_change_default_params`)
validates the configuration before any graph work; `create_nodes` operates
on the `Model` that only a successful validation produces. -/

/-- The attribute names an `HNode` object carries after its `__init__`
(the constructor setattr-s every entry of `locals()`, including `self`,
then adds `knodes`, the three node dictionaries and the working fields
`group`, `tag`, `data`, `idx`).  The `update_params` validation tests
membership with `hasattr`. -/
def hnodeFields : List String :=
  ["self", "name", "is_bottom_node", "vars", "default", "optional",
   "subj_knode", "group_knode", "var_knode", "group_label", "var_label",
   "var_type", "transform", "share_var", "use_spx", "verbose",
   "knodes", "group_nodes", "var_nodes", "subj_nodes",
   "group", "tag", "data", "idx"]

/-- `HNode.__init__`: an optional parameter must carry a default value. -/
def mkHNode (p : HNodeT) : Except String HNodeT :=
  if p.optional && p.default.isNone then
    Except.error "Optional parameters have to have a default value."
  else Except.ok p

/-- The `is_group_model` decision of `Hierarchical.__init__`: when not
supplied, grouped iff a subj_idx column exists and
`len(np.unique(data[subj_idx])) != 1`; when supplied as True, the subj_idx
column is required. -/
def decideGroupModel (data : DataTable) (igm : Option Bool) : Except String Bool :=
  match igm with
  | none =>
      if "subj_idx" ∈ data.colnames then
        Except.ok (decide (((data.rows.map (fun r => getCol r "subj_idx")).dedup).length ≠ 1))
      else Except.ok false
  | some b =>
      if b then
        if "subj_idx" ∈ data.colnames then Except.ok true
        else Except.error "Group models require subj_idx column in input data."
      else Except.ok false

/-- The dependency-column existence check of `Hierarchical.__init__`:
every column named in depends_on must be a column of the data. -/
def checkDependsCols (data : DataTable) (depends : List (String × List String)) :
    Except String Unit :=
  if depends.all (fun d => d.2.all (fun c => c ∈ data.colnames)) then Except.ok ()
  else Except.error "Column named in depends_on not found in data."

/-- `replace_params` application: each user template replaces the default
template of the same name. -/
def applyReplace (params : List HNodeT) (repl : List HNodeT) : List HNodeT :=
  repl.foldl (fun ps np => ps.map (fun p => if p.name = np.name then np else p)) params

/-- The `update_params` validation of `_change_default_params`: every
named parameter must exist, and every key must be an attribute of the
template (the updated values are arbitrary Python objects applied with
setattr; only the validity checks are graph-relevant, so the model keeps
the templates unchanged). -/
def checkUpdate (params : List HNodeT) (update : List (String × List String)) :
    Except String Unit :=
  update.foldlM (fun _ pu =>
    if (params.find? (fun p => p.name = pu.1)).isSome then
      if pu.2.all (fun k => k ∈ hnodeFields) then Except.ok ()
      else Except.error ("An invalid key was found in update_params for Parameter " ++ pu.1)
    else Except.error ("An invalid parameter (" ++ pu.1 ++ ") was found in update_params")) ()

/-- `Hierarchical.__init__` followed by `_init_params`: the configuration
checks in source order - dependency columns, the group-model decision and
requirement, template construction (each `HNode.__init__`), user
replacement, `update_params` validation.  Every configuration error of the
claims surfaces here; `createNodesPhases` consumes the `Model` that only a
successful validation yields, so no node exists before these checks run. -/
def hierarchicalInit (data : DataTable) (igm : Option Bool)
    (depends : List (String × List String)) (includes : List String)
    (specs : List HNodeT) (repl : List HNodeT)
    (update : List (String × List String)) : Except String Model := do
  let _ ← checkDependsCols data depends
  let g ← decideGroupModel data igm
  let params ← specs.mapM mkHNode
  let params1 := applyReplace params repl
  let _ ← checkUpdate params1 update
  Except.ok { data := data, depends_on := depends, params := params1,
              includes := includes, is_group_model := g }

theorem mapM_mkHNode_ok (specs : List HNodeT) (l : List HNodeT)
    (h : specs.mapM mkHNode = Except.ok l) :
    l = specs ∧ ∀ p ∈ specs, ¬(p.optional = true ∧ p.default = none) := by
  induction specs generalizing l with
  | nil =>
    simp only [List.mapM_nil, pure, Except.pure, Except.ok.injEq] at h
    exact ⟨h.symm, by simp⟩
  | cons p t ih =>
    rw [List.mapM_cons] at h
    by_cases hp : (p.optional && p.default.isNone) = true
    · rw [mkHNode, if_pos hp] at h
      simp [Bind.bind, Except.bind] at h
    · rw [mkHNode, if_neg hp] at h
      cases ht : t.mapM mkHNode with
      | error e =>
          rw [show (Except.ok p >>= fun b => t.mapM mkHNode >>= fun bs =>
                pure (b :: bs) : Except String (List HNodeT))
              = (t.mapM mkHNode >>= fun bs => pure (p :: bs)) from rfl, ht] at h
          simp [Bind.bind, Except.bind] at h
      | ok l' =>
          rw [show (Except.ok p >>= fun b => t.mapM mkHNode >>= fun bs =>
                pure (b :: bs) : Except String (List HNodeT))
              = (t.mapM mkHNode >>= fun bs => pure (p :: bs)) from rfl, ht] at h
          simp only [Bind.bind, Except.bind, pure, Except.pure, Except.ok.injEq] at h
          rcases ih l' ht with ⟨rfl, hall⟩
          refine ⟨h.symm, ?_⟩
          intro q hq
          rcases List.mem_cons.mp hq with rfl | hq'
          · rintro ⟨ho, hd⟩
            exact hp (by simp [ho, hd])
          · exact hall q hq'

theorem checkUpdate_ok (params : List HNodeT) (update : List (String × List String)) :
    checkUpdate params update = Except.ok () →
    ∀ pu ∈ update, (∃ p ∈ params, p.name = pu.1) ∧ ∀ k ∈ pu.2, k ∈ hnodeFields := by
  induction update with
  | nil => simp
  | cons pu t ih =>
    intro h
    simp only [checkUpdate, List.foldlM_cons] at h
    by_cases hfind : (params.find? (fun p => p.name = pu.1)).isSome
    · by_cases hkeys : (pu.2.all (fun k => k ∈ hnodeFields)) = true
      · rw [if_pos hfind, if_pos hkeys] at h
        have ht : checkUpdate params t = Except.ok () := h
        intro q hq
        rcases List.mem_cons.mp hq with rfl | hq'
        · constructor
          · rcases Option.isSome_iff_exists.mp hfind with ⟨p, hp⟩
            have hps := List.find?_some hp
            exact ⟨p, List.mem_of_find?_eq_some hp, of_decide_eq_true hps⟩
          · intro k hk
            exact of_decide_eq_true (List.all_eq_true.mp hkeys k hk)
        · exact ih ht q hq'
      · rw [if_pos hfind, if_neg hkeys] at h
        simp [Bind.bind, Except.bind] at h
    · rw [if_neg hfind] at h
      simp [Bind.bind, Except.bind] at h

/-! ### Facts about one slice-sampler step -/

theorem iterate_sub_width (w x : ℚ) (j : Nat) :
    (fun y => y - w)^[j] x = x - j * w := by
  induction j with
  | zero => simp
  | succ j ih =>
    rw [Function.iterate_succ_apply', ih]
    push_cast
    ring

theorem iterate_add_width (w x : ℚ) (j : Nat) :
    (fun y => y + w)^[j] x = x + j * w := by
  induction j with
  | zero => simp
  | succ j ih =>
    rw [Function.iterate_succ_apply', ih]
    push_cast
    ring

theorem sliceStep_ok_iff (inp : SliceIn) :
    (sliceStep inp).isOk = true ↔
      (leftRes inp).2 < inp.maxiter ∧ (rightRes inp).2 < inp.maxiter
        ∧ (shrinkRes inp).2 < inp.maxiter := by
  unfold sliceStep
  split_ifs with h1 h2 h3 <;> simp [Except.isOk, Except.toBool] <;> omega

theorem sliceStep_ok_spec (inp : SliceIn) (out : SliceOut)
    (h : sliceStep inp = Except.ok out) :
    (leftRes inp).2 < inp.maxiter ∧ (rightRes inp).2 < inp.maxiter
    ∧ (shrinkRes inp).2 < inp.maxiter
    ∧ out.value = (shrinkRes inp).1.xp ∧ out.xl = (shrinkRes inp).1.xl
    ∧ out.xr = (shrinkRes inp).1.xr ∧ out.z = sliceZ inp
    ∧ out.neval = inp.neval0 + (leftRes inp).2 + (rightRes inp).2 + (shrinkRes inp).2
    ∧ out.assigns = ((leftRes inp).2 + 1) + ((rightRes inp).2 + 1) + ((shrinkRes inp).2 + 1) := by
  unfold sliceStep at h
  split_ifs at h with h1 h2 h3
  rcases Except.ok.injEq .. ▸ h with rfl
  refine ⟨by omega, by omega, by omega, rfl, rfl, rfl, rfl, rfl, rfl⟩

/-- The geometric invariant carried through the shrink loop: the interval
brackets the starting value and the drawn point stays inside it. -/
def ShrinkInv (inp : SliceIn) (s : ShrinkSt) : Prop :=
  s.xl ≤ inp.x0 ∧ inp.x0 < s.xr ∧ s.xl ≤ s.xp ∧ s.xp < s.xr

theorem shrinkInv_init (inp : SliceIn) (hw : 0 < inp.width)
    (hr0 : 0 ≤ inp.rDraw) (hr1 : inp.rDraw < 1)
    (hu : ∀ k, 0 ≤ inp.u k ∧ inp.u k < 1) :
    ShrinkInv inp (shrinkInit inp) := by
  have hxl : (leftRes inp).1 ≤ inp.x0 := by
    have h0 : sliceXl0 inp ≤ inp.x0 := by
      rw [sliceXl0]
      have : 0 ≤ inp.width * inp.rDraw := mul_nonneg hw.le hr0
      linarith
    exact loopAux_inv _ _ (fun x => x ≤ inp.x0) _ _ h0
      (fun t ht _ => by linarith)
  have hxr : inp.x0 < (rightRes inp).1 := by
    have h0 : inp.x0 < sliceXr0 inp := by
      rw [sliceXr0, sliceXl0]
      have : 0 < inp.width * (1 - inp.rDraw) := mul_pos hw (by linarith)
      nlinarith
    exact loopAux_inv _ _ (fun x => inp.x0 < x) _ _ h0
      (fun t ht _ => by linarith)
  have hd : 0 < (rightRes inp).1 - (leftRes inp).1 := by linarith
  refine ⟨hxl, hxr, ?_, ?_⟩
  · show (leftRes inp).1 ≤ inp.u 0 * ((rightRes inp).1 - (leftRes inp).1) + (leftRes inp).1
    have : 0 ≤ inp.u 0 * ((rightRes inp).1 - (leftRes inp).1) :=
      mul_nonneg (hu 0).1 hd.le
    linarith
  · show inp.u 0 * ((rightRes inp).1 - (leftRes inp).1) + (leftRes inp).1 < (rightRes inp).1
    have : inp.u 0 * ((rightRes inp).1 - (leftRes inp).1)
        < 1 * ((rightRes inp).1 - (leftRes inp).1) :=
      mul_lt_mul_of_pos_right (hu 0).2 hd
    linarith

theorem loopAux_stop {σ : Type} (cond : σ → Bool) (f : σ → σ) (k : Nat) (s : σ)
    (h : cond s = false) : loopAux cond f (k + 1) s = (s, 0) := by
  simp [loopAux, h]

theorem loopAux_one {σ : Type} (cond : σ → Bool) (f : σ → σ) (s : σ)
    (h : cond s = true) : loopAux cond f 1 s = (f s, 1) := by
  simp [loopAux, h]

theorem shrinkInv_step (inp : SliceIn) (hu : ∀ k, 0 ≤ inp.u k ∧ inp.u k < 1)
    (s : ShrinkSt) (h : ShrinkInv inp s) : ShrinkInv inp (shrinkBody inp s) := by
  obtain ⟨h1, h2, h3, h4⟩ := h
  unfold shrinkBody ShrinkInv
  by_cases hc : inp.x0 < s.xp
  · simp only [if_pos hc]
    have hd : 0 < s.xp - s.xl := by linarith
    refine ⟨h1, hc, ?_, ?_⟩
    · have : 0 ≤ inp.u (s.k + 1) * (s.xp - s.xl) := mul_nonneg (hu _).1 hd.le
      linarith
    · have : inp.u (s.k + 1) * (s.xp - s.xl) < 1 * (s.xp - s.xl) :=
        mul_lt_mul_of_pos_right (hu _).2 hd
      linarith
  · simp only [if_neg hc]
    push_neg at hc
    have hd : 0 < s.xr - s.xp := by linarith
    refine ⟨by linarith, h2, ?_, ?_⟩
    · have : 0 ≤ inp.u (s.k + 1) * (s.xr - s.xp) := mul_nonneg (hu _).1 hd.le
      linarith
    · have : inp.u (s.k + 1) * (s.xr - s.xp) < 1 * (s.xr - s.xp) :=
        mul_lt_mul_of_pos_right (hu _).2 hd
      linarith

/-! ### Claim C3 -/

/-- C3: the claim states that the step proceeds without raising whenever
the loop exit condition is met within `maxiter` iterations.  The code
raises exactly when the final loop counter reaches `maxiter`; the amended
statement proved here: the step succeeds iff, in each of the three loops
(step-out left, step-out right, shrink-in), the log-density exit condition
holds at some iterate at index strictly below `maxiter` - a condition
first met at the `maxiter`-th iterate still raises. -/
theorem C3_amended_loop_bounds (inp : SliceIn) :
    (sliceStep inp).isOk = true ↔
      ((∃ j < inp.maxiter, ¬ sliceZ inp < inp.L (sliceXl0 inp - (j : ℚ) * inp.width))
        ∧ (∃ j < inp.maxiter, ¬ sliceZ inp < inp.L (sliceXr0 inp + (j : ℚ) * inp.width))
        ∧ (∃ j < inp.maxiter,
            ¬ inp.L ((shrinkBody inp)^[j] (shrinkInit inp)).xp < sliceZ inp)) := by
  rw [sliceStep_ok_iff]
  refine and_congr ?_ (and_congr ?_ ?_)
  · rw [leftRes, loopAux_lt_iff]
    refine exists_congr (fun j => and_congr_right (fun _ => ?_))
    rw [iterate_sub_width, decide_eq_false_iff_not]
  · rw [rightRes, loopAux_lt_iff]
    refine exists_congr (fun j => and_congr_right (fun _ => ?_))
    rw [iterate_add_width, decide_eq_false_iff_not]
  · rw [shrinkRes, loopAux_lt_iff]
    refine exists_congr (fun j => and_congr_right (fun _ => ?_))
    rw [shrinkCond, decide_eq_false_iff_not]

/-- The concrete step that falsifies C3 as stated: a target whose
log-density drops below the level exactly at the first step-out move, with
`maxiter = 1`. -/
def inpC3 : SliceIn :=
  { L := fun x => -(x * x), width := 1, maxiter := 1, x0 := 0,
    eDraw := 1, rDraw := 0, u := fun _ => 0, neval0 := 0 }

/-- C3 counterexample: in `inpC3` the left step-out exit condition is met
within `maxiter = 1` iterations (at the first moved point, `j = 1`), yet
the step raises the step-out failure instead of proceeding - the claim
that meeting the condition within `maxiter` iterations prevents the raise
is false on the code. -/
theorem C3_counterexample :
    sliceStep inpC3 = Except.error "Step-out procedure failed"
    ∧ (1 ≤ inpC3.maxiter
        ∧ ¬ sliceZ inpC3 < inpC3.L (sliceXl0 inpC3 - (1 : ℚ) * inpC3.width)) := by
  have hcond : (fun x => decide (sliceZ inpC3 < inpC3.L x)) (sliceXl0 inpC3) = true := by
    norm_num [sliceZ, sliceXl0, inpC3]
  have hleft : leftRes inpC3 = (sliceXl0 inpC3 - inpC3.width, 1) :=
    loopAux_one _ _ _ hcond
  refine ⟨?_, le_refl 1, ?_⟩
  · unfold sliceStep
    rw [hleft]
    norm_num [inpC3]
  · norm_num [sliceZ, sliceXl0, inpC3]

/-! ### Claim C5 -/

/-- C5: after a slice-sampler step that completes without raising, the
node value is the last drawn point, it lies in the final interval
`[xl, xr)`, and its log density is at least the auxiliary level `z` drawn
at the start of the step. -/
theorem C5_successful_step (inp : SliceIn) (out : SliceOut)
    (hw : 0 < inp.width) (hr0 : 0 ≤ inp.rDraw) (hr1 : inp.rDraw < 1)
    (hu : ∀ k, 0 ≤ inp.u k ∧ inp.u k < 1)
    (hok : sliceStep inp = Except.ok out) :
    out.value = (shrinkRes inp).1.xp
    ∧ out.xl ≤ out.value ∧ out.value < out.xr
    ∧ out.z = sliceZ inp ∧ out.z ≤ inp.L out.value := by
  obtain ⟨hl, hr, hs, hval, hxl, hxr, hz, _, _⟩ := sliceStep_ok_spec inp out hok
  have hinv : ShrinkInv inp (shrinkRes inp).1 := by
    rw [shrinkRes]
    exact loopAux_inv _ _ (ShrinkInv inp) _ _
      (shrinkInv_init inp hw hr0 hr1 hu)
      (fun t ht _ => shrinkInv_step inp hu t ht)
  have hexit : shrinkCond inp (shrinkRes inp).1 = false := by
    rw [shrinkRes]
    exact loopAux_exit _ _ _ _ (by rw [← shrinkRes]; exact hs)
  rw [shrinkCond, decide_eq_false_iff_not, not_lt] at hexit
  refine ⟨hval, ?_, ?_, hz, ?_⟩
  · rw [hval, hxl]; exact hinv.2.2.1
  · rw [hval, hxr]; exact hinv.2.2.2
  · rw [hval, hz]; exact hexit

/-- The concrete successful step used to witness C5 and to refute C9 as
stated: both step-outs stop immediately, the first draw is accepted. -/
def inpC5 : SliceIn :=
  { L := fun x => -4 * (x * x), width := 1, maxiter := 2, x0 := 0,
    eDraw := 1, rDraw := 1/2, u := fun _ => 1/2, neval0 := 0 }

def outC5 : SliceOut :=
  { value := 0, xl := -(1/2), xr := 1/2, z := -1, neval := 0, assigns := 3 }

theorem leftRes_inpC5 : leftRes inpC5 = (-(1/2 : ℚ), 0) := by
  have hxl0 : sliceXl0 inpC5 = -(1/2 : ℚ) := by norm_num [sliceXl0, inpC5]
  rw [leftRes, hxl0]
  exact loopAux_stop _ _ 1 _ (by norm_num [sliceZ, inpC5])

theorem rightRes_inpC5 : rightRes inpC5 = ((1/2 : ℚ), 0) := by
  have hxr0 : sliceXr0 inpC5 = (1/2 : ℚ) := by norm_num [sliceXr0, sliceXl0, inpC5]
  rw [rightRes, hxr0]
  exact loopAux_stop _ _ 1 _ (by norm_num [sliceZ, inpC5])

theorem shrinkRes_inpC5 :
    shrinkRes inpC5 = ({ xl := -(1/2), xr := 1/2, xp := 0, k := 0 }, 0) := by
  have hinit : shrinkInit inpC5 = { xl := -(1/2), xr := 1/2, xp := 0, k := 0 } := by
    rw [shrinkInit, leftRes_inpC5, rightRes_inpC5]
    simp only [ShrinkSt.mk.injEq]
    norm_num [inpC5]
  rw [shrinkRes, hinit]
  exact loopAux_stop _ _ 1 _ (by norm_num [shrinkCond, sliceZ, inpC5])

theorem sliceStep_inpC5 : sliceStep inpC5 = Except.ok outC5 := by
  unfold sliceStep
  rw [leftRes_inpC5, rightRes_inpC5, shrinkRes_inpC5]
  norm_num [inpC5, outC5, sliceZ]

/-- C5 witness: the successful-step theorem applied to the concrete step
`inpC5`, with every hypothesis discharged on concrete rationals. -/
theorem C5_witness :
    outC5.xl ≤ outC5.value ∧ outC5.value < outC5.xr
    ∧ outC5.z = sliceZ inpC5 ∧ outC5.z ≤ inpC5.L outC5.value := by
  have h := C5_successful_step inpC5 outC5 (by norm_num [inpC5])
    (by norm_num [inpC5]) (by norm_num [inpC5])
    (fun k => by norm_num [inpC5]) sliceStep_inpC5
  exact ⟨h.2.1, h.2.2.1, h.2.2.2.1, h.2.2.2.2⟩

/-! ### Claim C9 -/

/-- C9: the claim states that `neval` grows by the number of value
reassignments of the step.  The code adds only the three loop iteration
counts; the step additionally reassigns the value once before each loop
phase (set to `xl` before stepping left, to `xr` before stepping right,
and the first draw of `xp`), so the amended statement proved here: on a
successful step, `neval` grows by the number of value reassignments minus
exactly three. -/
theorem C9_amended_neval (inp : SliceIn) (out : SliceOut)
    (hok : sliceStep inp = Except.ok out) :
    out.neval = inp.neval0 + (out.assigns - 3) ∧ 3 ≤ out.assigns := by
  obtain ⟨_, _, _, _, _, _, _, hneval, hassigns⟩ := sliceStep_ok_spec inp out hok
  omega

/-- C9 witness: the amended accounting at the concrete step `inpC5`. -/
theorem C9_witness : outC5.neval = inpC5.neval0 + (outC5.assigns - 3) := by
  exact (C9_amended_neval inpC5 outC5 sliceStep_inpC5).1

/-- C9 counterexample: in the concrete step `inpC5` the sampler reassigns
the node value three times (the two step-out positioning assignments and
the first draw) but `neval` grows by zero, so the claimed equality between
the `neval` increase and the number of reassignments fails. -/
theorem C9_counterexample :
    sliceStep inpC5 = Except.ok outC5
    ∧ outC5.assigns = 3 ∧ outC5.neval = 0 ∧ inpC5.neval0 = 0
    ∧ outC5.neval - inpC5.neval0 ≠ outC5.assigns := by
  exact ⟨sliceStep_inpC5, rfl, rfl, rfl, by norm_num [inpC5, outC5]⟩

/-! ### Claim C10 -/

/-- A data table with a subject column and no rows. -/
def emptySubjData : DataTable := { colnames := ["subj_idx"], rows := [] }

/-- C10 counterexample: on a table that has a subj_idx column but no rows
there is no subject identifier at all - certainly not more than one
distinct value - yet the default decision makes the model a group model,
because the code tests `len(unique) != 1` rather than `> 1`. -/
theorem C10_counterexample :
    decideGroupModel emptySubjData none = Except.ok true
    ∧ ((emptySubjData.rows.map (fun r => getCol r "subj_idx")).dedup).length = 0 := by
  constructor
  · rfl
  · rfl

/-- C10: the claim states group iff more than one distinct subj_idx value;
the code tests `len(np.unique(..)) != 1`, so the amended statement proved
here: with `is_group_model` unsupplied the model is grouped iff a subj_idx
column exists and the number of distinct subject identifiers differs from
one (zero distinct identifiers - an empty table - also yields a group
model); otherwise it is not grouped, and the decision never errors. -/
theorem C10_amended_group_default (data : DataTable) :
    (decideGroupModel data none = Except.ok true ↔
      ("subj_idx" ∈ data.colnames
        ∧ ((data.rows.map (fun r => getCol r "subj_idx")).dedup).length ≠ 1))
    ∧ (decideGroupModel data none = Except.ok false ↔
      ("subj_idx" ∉ data.colnames
        ∨ ((data.rows.map (fun r => getCol r "subj_idx")).dedup).length = 1)) := by
  unfold decideGroupModel
  by_cases hmem : "subj_idx" ∈ data.colnames
  · rw [if_pos hmem]
    by_cases hlen : ((data.rows.map (fun r => getCol r "subj_idx")).dedup).length = 1
    · simp [hlen, hmem]
    · simp [hlen, hmem]
  · rw [if_neg hmem]
    simp [hmem]

/-! ### Claim C8 -/

theorem checkDependsCols_ok (data : DataTable) (depends : List (String × List String))
    (h : checkDependsCols data depends = Except.ok ()) :
    ∀ d ∈ depends, ∀ c ∈ d.2, c ∈ data.colnames := by
  unfold checkDependsCols at h
  split_ifs at h with hall
  intro d hd c hc
  have h1 := List.all_eq_true.mp hall d hd
  exact of_decide_eq_true (List.all_eq_true.mp h1 c hc)

theorem decideGroupModel_some_true (data : DataTable) (b : Bool)
    (h : decideGroupModel data (some true) = Except.ok b) :
    "subj_idx" ∈ data.colnames := by
  by_cases hmem : "subj_idx" ∈ data.colnames
  · exact hmem
  · exfalso
    have herr : decideGroupModel data (some true)
        = Except.error "Group models require subj_idx column in input data." := by
      unfold decideGroupModel
      simp [hmem]
    rw [herr] at h
    cases h

/-- C8: every configuration error listed by the claim - a depends_on
column absent from the table, an update_params key that is no template
attribute, an update_params entry naming an unknown parameter, a group
model requested on data without a subject column, an optional parameter
without a default - is rejected by the constructor-time validation, so a
`Model` (the only input `createNodesPhases` accepts) never carries any of
them: construction succeeds only on configurations free of all five. -/
theorem C8_config_errors (data : DataTable) (igm : Option Bool)
    (depends : List (String × List String)) (includes : List String)
    (specs repl : List HNodeT) (update : List (String × List String)) (m : Model)
    (h : hierarchicalInit data igm depends includes specs repl update = Except.ok m) :
    (∀ d ∈ depends, ∀ c ∈ d.2, c ∈ data.colnames)
    ∧ (igm = some true → "subj_idx" ∈ data.colnames)
    ∧ (∀ p ∈ specs, ¬(p.optional = true ∧ p.default = none))
    ∧ (∀ pu ∈ update, (∃ p ∈ applyReplace specs repl, p.name = pu.1)
        ∧ ∀ k ∈ pu.2, k ∈ hnodeFields) := by
  unfold hierarchicalInit at h
  cases hc : checkDependsCols data depends with
  | error e => rw [hc] at h; simp [Bind.bind, Except.bind] at h
  | ok u =>
    obtain rfl : u = () := rfl
    rw [hc] at h
    cases hg : decideGroupModel data igm with
    | error e => rw [hg] at h; simp [Bind.bind, Except.bind] at h
    | ok g =>
      rw [hg] at h
      cases hm : specs.mapM mkHNode with
      | error e => rw [hm] at h; simp [Bind.bind, Except.bind] at h
      | ok ps0 =>
        rw [hm] at h
        obtain ⟨heq, hspecs⟩ := mapM_mkHNode_ok specs ps0 hm
        rw [heq] at h
        simp only [Bind.bind, Except.bind] at h
        cases hup : checkUpdate (applyReplace specs repl) update with
        | error e => rw [hup] at h; simp [Bind.bind, Except.bind] at h
        | ok u' =>
          obtain rfl : u' = () := rfl
          refine ⟨checkDependsCols_ok data depends hc, ?_,
            fun p hp => hspecs p hp, checkUpdate_ok _ _ hup⟩
          rintro rfl
          exact decideGroupModel_some_true data g hg

/-- A configuration free of all five errors, for the C8 witness. -/
def dataC8 : DataTable :=
  { colnames := ["subj_idx", "c"], rows := [[("subj_idx", 0), ("c", 1)]] }

def specC8 : HNodeT := { name := "a" }

def mC8 : Model :=
  { data := dataC8, depends_on := [("a", ["c"])], params := [specC8],
    includes := [], is_group_model := false }

/-- C8 witness: the validation theorem applied to a concrete configuration
that passes all checks. -/
theorem C8_witness :
    (∀ d ∈ [("a", ["c"])], ∀ c ∈ d.2, c ∈ dataC8.colnames)
    ∧ (∀ pu ∈ [("a", ["share_var"])],
        (∃ p ∈ applyReplace [specC8] [], p.name = pu.1)
        ∧ ∀ k ∈ pu.2, k ∈ hnodeFields) := by
  have h := C8_config_errors dataC8 none [("a", ["c"])] [] [specC8] []
    [("a", ["share_var"])] mC8 (by rfl)
  exact ⟨h.1, h.2.2.2⟩

/-! ### State-access lemmas for the compiler phases -/

@[simp] theorem pstate_setP_self (st : MState) (n : String) (ps : PState) :
    (st.setP n ps).pstate n = ps := by
  simp [MState.pstate, MState.setP]

theorem pstate_setP_ne (st : MState) (n n' : String) (ps : PState) (h : n ≠ n') :
    (st.setP n ps).pstate n' = st.pstate n' := by
  simp [MState.pstate, MState.setP, aget_aupd_ne _ _ _ _ h]

@[simp] theorem pstate_counter (st : MState) (c : Nat) (n : String) :
    ({ st with counter := c }).pstate n = st.pstate n := rfl

theorem allocSubjSlots_length (sk : Bool) (g v : Option (Option Nat)) (k c : Nat) :
    (allocSubjSlots sk g v k c).1.length = k := by
  induction k generalizing c with
  | zero => rfl
  | succ k ih => cases sk <;> simp [allocSubjSlots, ih]

theorem allocSubjSlots_mem (sk : Bool) (g v : Option (Option Nat)) (k c : Nat) :
    ∀ s ∈ (allocSubjSlots sk g v k c).1,
      s.isSome = sk ∧ ∀ n, s = some n → n.fedGroup = g ∧ n.fedVar = v := by
  induction k generalizing c with
  | zero => simp [allocSubjSlots]
  | succ k ih =>
    cases sk with
    | false =>
      simp only [allocSubjSlots, Bool.false_eq_true, if_false, List.mem_cons]
      rintro s (rfl | hs)
      · exact ⟨rfl, by rintro n ⟨⟩⟩
      · exact ih (c) s hs
    | true =>
      simp only [allocSubjSlots, if_true, List.mem_cons]
      rintro s (rfl | hs)
      · refine ⟨rfl, ?_⟩
        rintro n hn
        cases hn
        exact ⟨rfl, rfl⟩
      · exact ih (c + 1) s hs

/-! ### Claim C7 -/

/-- C7: every subject node `_set_subj_nodes` creates for a tag receives as
its group and dispersion parent bindings exactly the content of
`group_nodes[tag]` and `var_nodes[tag]` of that same tag in the resulting
state (the pair fed to the transform when one is set, passed under the
configured labels), never a node stored under a different tag. -/
theorem C7_subject_parent_wiring (m : Model) (p : HNodeT) (tag : Tag)
    (dsl : List Row) (st : MState) :
    ∃ slots,
      aget (((setSubjNodes m p tag dsl st).pstate p.name).subj_nodes) tag
        = some (SubjCell.arr slots)
      ∧ slots.length = numSubjs m
      ∧ ∀ s ∈ slots, ∀ n, s = some n →
          n.fedGroup = (if p.group_label.isSome then
              some ((aget (((setSubjNodes m p tag dsl st).pstate p.name).group_nodes) tag).getD none)
            else none)
          ∧ n.fedVar = (if p.var_label.isSome then
              some ((aget (((setSubjNodes m p tag dsl st).pstate p.name).var_nodes) tag).getD none)
            else none) := by
  have hfinal : (setSubjNodes m p tag dsl st).pstate p.name
      = (let ps := st.pstate p.name
         let vn : Option Nat × MState :=
           if ps.var_nodes.isEmpty || !p.share_var then createNode p.var_knode st
           else (((ps.var_nodes.head?).map Prod.snd).getD none, st)
         let ps1 : PState := { ps with var_nodes := aupd tag vn.1 ps.var_nodes }
         let g := (aget ps1.group_nodes tag).getD none
         let v := (aget ps1.var_nodes tag).getD none
         let fedG := if p.group_label.isSome then some g else none
         let fedV := if p.var_label.isSome then some v else none
         { ps1 with
            subj_nodes := aupd tag
              (SubjCell.arr (allocSubjSlots p.subj_knode fedG fedV (numSubjs m)
                ((vn.2.setP p.name ps1).counter)).1)
              ps1.subj_nodes }) := by
    unfold setSubjNodes
    simp only [pstate_counter, pstate_setP_self]
  rw [hfinal]
  simp only []
  refine ⟨_, aget_aupd_self _ _ _, allocSubjSlots_length _ _ _ _ _, ?_⟩
  intro s hs n hn
  have hmem := (allocSubjSlots_mem _ _ _ _ _ s hs).2 n hn
  rw [aget_aupd_self]
  refine ⟨?_, ?_⟩
  · rw [hmem.1]
  · rw [hmem.2]
    simp

/-- A concrete model and template to witness C7: one independent parameter
with all three tiers, two subjects. -/
def pW : HNodeT :=
  { name := "a", group_knode := true, var_knode := true, subj_knode := true,
    group_label := some "g", var_label := some "v" }

def mW : Model :=
  { data := { colnames := ["subj_idx"], rows := [[("subj_idx", 0)], [("subj_idx", 1)]] },
    depends_on := [], params := [pW], includes := [], is_group_model := true }

/-- C7 witness: the same-tag parent wiring at a concrete model, tag and
state. -/
theorem C7_witness :
    ∃ slots,
      aget (((setSubjNodes mW pW Tag.empty mW.data.rows (initState mW)).pstate pW.name).subj_nodes)
          Tag.empty = some (SubjCell.arr slots)
      ∧ slots.length = numSubjs mW
      ∧ ∀ s ∈ slots, ∀ n, s = some n →
          n.fedGroup = (if pW.group_label.isSome then
              some ((aget (((setSubjNodes mW pW Tag.empty mW.data.rows (initState mW)).pstate
                pW.name).group_nodes) Tag.empty).getD none)
            else none)
          ∧ n.fedVar = (if pW.var_label.isSome then
              some ((aget (((setSubjNodes mW pW Tag.empty mW.data.rows (initState mW)).pstate
                pW.name).var_nodes) Tag.empty).getD none)
            else none) :=
  C7_subject_parent_wiring mW pW Tag.empty mW.data.rows (initState mW)

/-! ### Claim C1 -/

/-- The per-subject slot filling of `_create_bottom_node`: the loop only
ever touches the slot of each processed subject, fills it exactly when
the subject has at least one row in the partition slice, and leaves it
untouched otherwise. -/
theorem bottomFold_cell (m : Model) (p : HNodeT) (dataSlice : List Row) (tag : Tag) :
    ∀ (L : List (Nat × Int)) (st : MState) (slots : List (Option SubjNode)),
      aget ((st.pstate p.name).subj_nodes) tag = some (SubjCell.arr slots) →
      (∀ q ∈ L, q.1 < slots.length) →
      (L.map Prod.fst).Nodup →
      ∃ slots1,
        aget (((L.foldl (bottomSubjStep m p dataSlice tag) st).pstate p.name).subj_nodes) tag
          = some (SubjCell.arr slots1)
        ∧ slots1.length = slots.length
        ∧ (∀ j, j ∉ L.map Prod.fst → slots1[j]? = slots[j]?)
        ∧ (∀ q ∈ L,
            if (dataSlice.filter (fun r => getCol r "subj_idx" = q.2)).isEmpty
            then slots1[q.1]? = slots[q.1]?
            else ∃ n, slots1[q.1]? = some (some n)) := by
  intro L
  induction L with
  | nil =>
    intro st slots hcell hrange hnd
    exact ⟨slots, hcell, rfl, fun j _ => rfl, by simp⟩
  | cons q T ih =>
    intro st slots hcell hrange hnd
    simp only [List.map_cons, List.nodup_cons] at hnd
    obtain ⟨hq_notin, hnd'⟩ := hnd
    rw [List.foldl_cons]
    by_cases hqe : (dataSlice.filter (fun r => getCol r "subj_idx" = q.2)).isEmpty
    · have hstep : bottomSubjStep m p dataSlice tag st q = st := by
        unfold bottomSubjStep
        rw [if_pos hqe]
      rw [hstep]
      obtain ⟨slots1, h1, hlen, huntouched, hforall⟩ :=
        ih st slots hcell (fun q' hq' => hrange q' (List.mem_cons_of_mem q hq')) hnd'
      refine ⟨slots1, h1, hlen, ?_, ?_⟩
      · intro j hj
        exact huntouched j (fun hmem => hj (List.mem_cons_of_mem _ hmem))
      · intro q' hq'
        rcases List.mem_cons.mp hq' with rfl | hq'mem
        · rw [if_pos hqe]
          exact huntouched q'.1 hq_notin
        · exact hforall q' hq'mem
    · have hrangeq : q.1 < slots.length := hrange q (List.mem_cons_self q T)
      set node : SubjNode := { id := st.counter, resolved := resolveBranches m st tag }
      have hstep : bottomSubjStep m p dataSlice tag st q
          = { st.setP p.name
                { st.pstate p.name with
                  subj_nodes := aupd tag (SubjCell.arr (slots.set q.1 (some node)))
                    ((st.pstate p.name).subj_nodes) } with
              counter := st.counter + 1 } := by
        unfold bottomSubjStep
        rw [if_neg hqe]
        simp only [hcell, Option.getD_some]
      rw [hstep]
      have hcell' : aget ((({ st.setP p.name
            { st.pstate p.name with
              subj_nodes := aupd tag (SubjCell.arr (slots.set q.1 (some node)))
                ((st.pstate p.name).subj_nodes) } with
          counter := st.counter + 1 } : MState).pstate p.name).subj_nodes) tag
          = some (SubjCell.arr (slots.set q.1 (some node))) := by
        rw [pstate_counter, pstate_setP_self]
        exact aget_aupd_self _ _ _
      obtain ⟨slots1, h1, hlen, huntouched, hforall⟩ := ih _ (slots.set q.1 (some node)) hcell'
        (fun q' hq' => by rw [List.length_set]; exact hrange q' (List.mem_cons_of_mem q hq'))
        hnd'
      refine ⟨slots1, h1, by rw [hlen, List.length_set], ?_, ?_⟩
      · intro j hj
        simp only [List.map_cons, List.mem_cons] at hj
        push_neg at hj
        rw [huntouched j hj.2, List.getElem?_set_ne (Ne.symm hj.1)]
      · intro q' hq'
        rcases List.mem_cons.mp hq' with rfl | hq'mem
        · rw [if_neg hqe, huntouched q'.1 hq_notin,
            List.getElem?_set_self hrangeq]
          exact ⟨node, rfl⟩
        · have := hforall q' hq'mem
          by_cases hq'e : (dataSlice.filter (fun r => getCol r "subj_idx" = q'.2)).isEmpty
          · rw [if_pos hq'e] at this ⊢
            rw [this]
            have hne : q.1 ≠ q'.1 := by
              intro hcontra
              exact hq_notin (hcontra ▸ List.mem_map_of_mem Prod.fst hq'mem)
            exact List.getElem?_set_ne hne
          · rw [if_neg hq'e] at this ⊢
            exact this

/-- C1: the claim states that for every parameter with a subject tier a
subject node exists only for subjects with rows in the tag's slice.  On
the code this holds for bottom (likelihood) nodes only, so the amended
statement proved here is in two parts.  First, `_set_subj_nodes` creates a
subject node for every subject of the model, with no test on the
per-subject rows of the slice (the slice feeds only initial values).
Second, `_create_bottom_node` fills, inside the slot array allocated by
the init phase, exactly the slots of subjects with at least one row in the
partition slice; a subject with zero rows keeps the absent (None) slot, so
querying it yields None rather than a node. -/
theorem C1_amended_zero_row_subjects :
    (∀ (m : Model) (p : HNodeT) (tag : Tag) (dsl : List Row) (st : MState),
      ∃ slots,
        aget (((setSubjNodes m p tag dsl st).pstate p.name).subj_nodes) tag
          = some (SubjCell.arr slots)
        ∧ slots.length = numSubjs m
        ∧ ∀ s ∈ slots, s.isSome = p.subj_knode)
    ∧ (∀ (m : Model) (p : HNodeT) (dsl : List Row) (params : List (String × PVal))
        (tag : Tag) (st : MState),
        m.is_group_model = true →
        aget ((st.pstate p.name).subj_nodes) tag
          = some (SubjCell.arr (List.replicate (numSubjs m) none)) →
        ∃ slots1,
          aget (((createBottomNode m p dsl params tag st).pstate p.name).subj_nodes) tag
            = some (SubjCell.arr slots1)
          ∧ slots1.length = numSubjs m
          ∧ ∀ i, ∀ hi : i < (subjsOf m).length,
              (slots1.getD i none).isSome
                = !(dsl.filter (fun r => getCol r "subj_idx" = (subjsOf m)[i])).isEmpty) := by
  constructor
  · intro m p tag dsl st
    have hfinal : (setSubjNodes m p tag dsl st).pstate p.name
        = (let ps := st.pstate p.name
           let vn : Option Nat × MState :=
             if ps.var_nodes.isEmpty || !p.share_var then createNode p.var_knode st
             else (((ps.var_nodes.head?).map Prod.snd).getD none, st)
           let ps1 : PState := { ps with var_nodes := aupd tag vn.1 ps.var_nodes }
           let g := (aget ps1.group_nodes tag).getD none
           let v := (aget ps1.var_nodes tag).getD none
           let fedG := if p.group_label.isSome then some g else none
           let fedV := if p.var_label.isSome then some v else none
           { ps1 with
              subj_nodes := aupd tag
                (SubjCell.arr (allocSubjSlots p.subj_knode fedG fedV (numSubjs m)
                  ((vn.2.setP p.name ps1).counter)).1)
                ps1.subj_nodes }) := by
      unfold setSubjNodes
      simp only [pstate_counter, pstate_setP_self]
    rw [hfinal]
    refine ⟨_, aget_aupd_self _ _ _, allocSubjSlots_length _ _ _ _ _, ?_⟩
    intro s hs
    exact (allocSubjSlots_mem _ _ _ _ _ s hs).1
  · intro m p dsl params tag st hg hcell
    have hbody : createBottomNode m p dsl params tag st
        = ((subjsOf m).enum).foldl (bottomSubjStep m p dsl tag) st := by
      unfold createBottomNode
      rw [if_pos hg]
    rw [hbody]
    have hrange : ∀ q ∈ (subjsOf m).enum, q.1 < (List.replicate (numSubjs m)
        (none : Option SubjNode)).length := by
      intro q hq
      rw [List.length_replicate]
      have : q.1 ∈ List.map Prod.fst (subjsOf m).enum := List.mem_map_of_mem _ hq
      rw [List.enum_map_fst] at this
      exact List.mem_range.mp this
    have hnd : ((List.map Prod.fst (subjsOf m).enum)).Nodup := by
      rw [List.enum_map_fst]
      exact List.nodup_range _
    obtain ⟨slots1, h1, hlen, huntouched, hforall⟩ :=
      bottomFold_cell m p dsl tag (subjsOf m).enum st _ hcell hrange hnd
    refine ⟨slots1, h1, by rw [hlen, List.length_replicate], ?_⟩
    intro i hi
    have hqmem : (i, (subjsOf m)[i]) ∈ (subjsOf m).enum := by
      have h' : i < (subjsOf m).enum.length := by rw [List.enum_length]; exact hi
      have hm := List.getElem_mem h'
      rwa [List.getElem_enum] at hm
    have hq := hforall (i, (subjsOf m)[i]) hqmem
    rw [List.getD_eq_getElem?_getD]
    by_cases he : (dsl.filter (fun r => getCol r "subj_idx" = (subjsOf m)[i])).isEmpty
    · rw [if_pos he] at hq
      rw [hq, List.getElem?_replicate]
      simp [numSubjs, hi, he]
    · rw [if_neg he] at hq
      obtain ⟨n, hn⟩ := hq
      rw [hn, eq_comm, Bool.eq_iff_iff]
      simp [he]

/-- The concrete model refuting C1 as stated: a grouped model, one
non-bottom parameter `a` with a full subject tier depending on column `c`,
and a subject (identifier 1) that has no row with `c = 1`. -/
def dataC1 : DataTable :=
  { colnames := ["subj_idx", "c"],
    rows := [[("subj_idx", 0), ("c", 0)], [("subj_idx", 0), ("c", 1)],
      [("subj_idx", 1), ("c", 0)]] }

def pC1 : HNodeT :=
  { name := "a", group_knode := true, var_knode := true, subj_knode := true,
    group_label := some "g", var_label := some "v" }

def mC1 : Model :=
  { data := dataC1, depends_on := [("a", ["c"])], params := [pC1],
    includes := [], is_group_model := true }

/-- After compiling `mC1`, does parameter `a` hold a subject node for the
subject at position 1 under the tag of value `c = 1`? -/
def c1SlotCheck : Bool :=
  match aget (((createNodesPhases mC1 (initState mC1)).pstate "a").subj_nodes)
      (Tag.single [1]) with
  | some (SubjCell.arr slots) => (slots.getD 1 none).isSome
  | _ => false

/-- C1 counterexample: in the compiled graph of `mC1` the non-bottom
parameter `a` holds a subject node for subject 1 under tag `c = 1`
(`c1SlotCheck` is true) although subject 1 has zero rows in that
partition slice - the claim that a subject node is created only for
subjects with at least one row in the slice is false on the code for
non-bottom parameters. -/
theorem C1_counterexample :
    c1SlotCheck = true
    ∧ subjsOf mC1 = [0, 1]
    ∧ ((mC1.data.rows.filter (fun r => projCols ["c"] r = [1])).filter
        (fun r => getCol r "subj_idx" = 1)) = [] := by
  refine ⟨by decide, by decide, by decide⟩

/-- A state holding the freshly initialized all-None bottom slot array for
the tag of value 1, as the init phase of `_set_bottom_nodes` leaves it. -/
def stB : MState :=
  (initState mC1).setP "a"
    { subj_nodes := [(Tag.single [1], SubjCell.arr (List.replicate (numSubjs mC1) none))] }

/-- C1 witness: the amended statement applied at the concrete model `mC1`:
the subject array of the non-bottom dependent parameter (part one) and a
bottom-creation call on a concrete all-None slot array (part two), with
the hypotheses discharged by computation. -/
theorem C1_witness :
    (∃ slots,
      aget (((setSubjNodes mC1 pC1 (Tag.single [1])
          (dataC1.rows.filter (fun r => projCols ["c"] r = [1]))
          (initState mC1)).pstate pC1.name).subj_nodes) (Tag.single [1])
        = some (SubjCell.arr slots)
      ∧ slots.length = numSubjs mC1
      ∧ ∀ s ∈ slots, s.isSome = pC1.subj_knode)
    ∧ (∃ slots1,
      aget (((createBottomNode mC1 pC1
          (dataC1.rows.filter (fun r => projCols ["c"] r = [1])) [] (Tag.single [1])
          stB).pstate pC1.name).subj_nodes) (Tag.single [1])
        = some (SubjCell.arr slots1)
      ∧ slots1.length = numSubjs mC1
      ∧ ∀ i, ∀ hi : i < (subjsOf mC1).length,
          (slots1.getD i none).isSome
            = !((dataC1.rows.filter (fun r => projCols ["c"] r = [1])).filter
                (fun r => getCol r "subj_idx" = (subjsOf mC1)[i])).isEmpty) := by
  constructor
  · exact C1_amended_zero_row_subjects.1 mC1 pC1 (Tag.single [1])
      (dataC1.rows.filter (fun r => projCols ["c"] r = [1])) (initState mC1)
  · exact C1_amended_zero_row_subjects.2 mC1 pC1
      (dataC1.rows.filter (fun r => projCols ["c"] r = [1])) [] (Tag.single [1]) stB
      (by decide) (by decide)

/-! ### Claim C2 -/

/-- C2: the claim states partition disjointness and exact cover (which
hold) and that the partition count is the product of the per-entry
unique-value counts (which fails, because the recursion takes the unique
values of each entry inside the current slice, not the full dataset).
The amended statement proved here: on a duplicate-free, nonempty dataset
the emitted slices are pairwise disjoint, concatenate to a permutation of
the input rows, and their number equals the number of distinct
dependency-value tuples present in the input rows (taking the entries in
declaration order). -/
theorem C2_amended_partition (m : Model) (st : MState) (data : List Row)
    (deps : List (String × List String)) (params : List (String × PVal))
    (path : List (List Int)) (hnd : data.Nodup) (hne : data ≠ []) :
    ((depSlices m st data deps params path).flatten).Perm data
    ∧ (depSlices m st data deps params path).Pairwise List.Disjoint
    ∧ (depSlices m st data deps params path).length
        = ((data.map (fun r => deps.map (fun d => projCols d.2 r))).dedup).length :=
  ⟨depSlices_flatten_perm m st deps data params path,
   depSlices_pairwise_disjoint m st deps data params path hnd,
   depSlices_length m st deps data params path hne⟩

/-- The dataset refuting the product formula of C2: column c1 with values
0, 1 and column c2 nested so that the slice of c1 = 0 holds one c2 value
and the slice of c1 = 1 holds two. -/
def dataC2 : DataTable :=
  { colnames := ["c1", "c2"],
    rows := [[("c1", 0), ("c2", 0)], [("c1", 1), ("c2", 0)], [("c1", 1), ("c2", 1)]] }

def depsC2 : List (String × List String) := [("a", ["c1"]), ("b", ["c2"])]

def mC2 : Model :=
  { data := dataC2, depends_on := depsC2,
    params := [{ name := "a" }, { name := "b" }], includes := [], is_group_model := false }

/-- C2 counterexample: on `dataC2` the recursion emits 3 partitions while
the product of the unique-value counts of the consumed dependency columns
over the dataset is 2 * 2 = 4 - the partition count is not that product. -/
theorem C2_counterexample :
    (depSlices mC2 (initState mC2) dataC2.rows depsC2 [] []).length = 3
    ∧ ((dataC2.rows.map (projCols ["c1"])).dedup).length
        * ((dataC2.rows.map (projCols ["c2"])).dedup).length = 4 := by
  refine ⟨by decide, by decide⟩

/-- C2 witness: the amended partition statement at the concrete dataset
`dataC2`, hypotheses discharged by computation. -/
theorem C2_witness :
    ((depSlices mC2 (initState mC2) dataC2.rows depsC2 [] []).flatten).Perm dataC2.rows
    ∧ (depSlices mC2 (initState mC2) dataC2.rows depsC2 [] []).Pairwise List.Disjoint
    ∧ (depSlices mC2 (initState mC2) dataC2.rows depsC2 [] []).length
        = ((dataC2.rows.map (fun r => depsC2.map (fun d => projCols d.2 r))).dedup).length :=
  C2_amended_partition mC2 (initState mC2) dataC2.rows depsC2 [] []
    (by decide) (by decide)

/-! ### The topology plan

The graph topology `createNodesPhases` produces is a function of the model
inputs alone.  The functions below compute it directly; the plan lemmas
then show that a compiler run from any suitably prepared state (a fresh
state, or the state a previous run left behind) realizes exactly this
plan, which settles both the tag-count claim and the idempotent
reconstruction claim. -/

/-- Whether the parameter gets a dispersion and subject tier in this
model. -/
def usesSubjTier (m : Model) (p : HNodeT) : Bool := m.is_group_model && hasSubj p

/-- The tags of a non-bottom parameter: one per unique dependency value
combination over the full dataset, or the single empty tag. -/
def depTagsP (m : Model) (p : HNodeT) : List Tag :=
  match aget m.depends_on p.name with
  | some cols => ((m.data.rows.map (projCols cols)).dedup).map Tag.single
  | none => [Tag.empty]

/-- The pure slice-and-path recursion underlying `_get_data_depend_rec`
(the threaded parent bindings do not influence slices or tags). -/
def pureParts (data : List Row) (deps : List (String × List String))
    (path : List (List Int)) : List (List Row × List (List Int)) :=
  match deps with
  | [] => [(data, path)]
  | (_, cols) :: rest =>
      ((data.map (projCols cols)).dedup).flatMap (fun u =>
        pureParts (data.filter (fun r => projCols cols r = u)) rest (path ++ [u]))

/-- The partitions of the bottom-node phase: slice and tag per branch. -/
def partitionsP (m : Model) : List (List Row × Tag) :=
  (pureParts m.data.rows m.depends_on []).map (fun q => (q.1, mkTag q.2))

/-- The subject-dictionary key set every parameter ends up with. -/
def planSubjKeys (m : Model) (p : HNodeT) : List Tag :=
  if p.is_bottom_node then (partitionsP m).map (fun q => q.2)
  else if usesSubjTier m p then depTagsP m p else []

/-- The parent-resolution pattern every bottom node of a tag records:
per included parameter, whether its subject dictionary has the tag. -/
def resolvedPlanP (m : Model) (tag : Tag) : List (String × Bool) :=
  (paramsInclude m).map (fun sp => (sp.name, decide (tag ∈ planSubjKeys m sp)))

/-- The final cell of a bottom parameter for one partition. -/
def planCellB (m : Model) (slice : List Row) (tag : Tag) : CellTopo :=
  if m.is_group_model then
    CellTopo.arr ((subjsOf m).map (fun s =>
      if (slice.filter (fun r => getCol r "subj_idx" = s)).isEmpty then none
      else some (resolvedPlanP m tag)))
  else CellTopo.single (some (resolvedPlanP m tag))

def PTopo.emptyT : PTopo := { groupT := [], varT := [], subjT := [] }

/-- The planned per-parameter topology. -/
def planPT (m : Model) (p : HNodeT) : PTopo :=
  if p.is_bottom_node then
    { groupT := [], varT := [],
      subjT := (partitionsP m).map (fun q => (q.2, planCellB m q.1 q.2)) }
  else
    { groupT := (depTagsP m p).map (fun t => (t, p.group_knode)),
      varT := if usesSubjTier m p then (depTagsP m p).map (fun t => (t, p.var_knode)) else [],
      subjT := if usesSubjTier m p then
          (depTagsP m p).map (fun t => (t, CellTopo.arr (List.replicate (numSubjs m)
            (if p.subj_knode then some [] else none))))
        else [] }

/-- The planned whole-model topology. -/
def planTopo (m : Model) : List (String × PTopo) :=
  m.params.map (fun p => (p.name,
    if !p.optional || p.name ∈ m.includes then planPT m p else PTopo.emptyT))

/-- The slice and tag components of the partitioner do not depend on the
compiler state or the threaded bindings. -/
theorem getDataDependRec_pure (m : Model) (st : MState) :
    ∀ (deps : List (String × List String)) (data : List Row)
      (params : List (String × PVal)) (path : List (List Int)),
      (getDataDependRec m st data deps params path).map (fun t => (t.1, t.2.2))
        = (pureParts data deps path).map (fun q => (q.1, mkTag q.2)) := by
  intro deps
  induction deps with
  | nil => intro data params path; rfl
  | cons d rest ih =>
    intro data params path
    obtain ⟨pname, cols⟩ := d
    simp only [getDataDependRec, pureParts, List.map_flatMap]
    apply List.flatMap_congr
    intro u hu
    exact ih _ _ _

theorem getDataDepend_pure (m : Model) (st : MState) :
    (getDataDepend m st).map (fun t => (t.1, t.2.2)) = partitionsP m := by
  unfold getDataDepend partitionsP
  exact getDataDependRec_pure m st m.depends_on m.data.rows (initialParams m st) []

/-- Every emitted path extends the input path by one value per consumed
dependency entry. -/
theorem pureParts_path_shape (deps : List (String × List String)) :
    ∀ (data : List Row) (path : List (List Int)),
      ∀ q ∈ pureParts data deps path,
        ∃ suffix, q.2 = path ++ suffix ∧ suffix.length = deps.length := by
  induction deps with
  | nil =>
    intro data path q hq
    simp only [pureParts, List.mem_singleton] at hq
    subst hq
    exact ⟨[], by simp⟩
  | cons d rest ih =>
    intro data path q hq
    obtain ⟨pname, cols⟩ := d
    simp only [pureParts, List.mem_flatMap] at hq
    obtain ⟨u, hu, hq'⟩ := hq
    obtain ⟨suffix, hs, hlen⟩ := ih _ (path ++ [u]) q hq'
    exact ⟨u :: suffix, by simp [hs, hlen], by simp [hlen]⟩

/-- The emitted paths are pairwise distinct. -/
theorem pureParts_paths_nodup (deps : List (String × List String)) :
    ∀ (data : List Row) (path : List (List Int)),
      ((pureParts data deps path).map (fun q => q.2)).Nodup := by
  induction deps with
  | nil => intro data path; simp [pureParts]
  | cons d rest ih =>
    intro data path
    obtain ⟨pname, cols⟩ := d
    have hinj : ∀ (u : List Int) q, q ∈ pureParts (data.filter
        (fun r => projCols cols r = u)) rest (path ++ [u]) →
        q.2[path.length]? = some u := by
      intro u q hq
      obtain ⟨suffix, hs, hlen⟩ := pureParts_path_shape rest _ (path ++ [u]) q hq
      rw [hs, List.append_assoc, List.getElem?_append_right (le_refl path.length)]
      simp
    simp only [pureParts, List.map_flatMap]
    rw [List.nodup_flatMap]
    refine ⟨fun u hu => ih _ _, ?_⟩
    have hdn : ((data.map (projCols cols)).dedup).Nodup := List.nodup_dedup _
    refine hdn.imp ?_
    intro u v huv x hxu hxv
    rcases List.mem_map.mp hxu with ⟨q, hq, rfl⟩
    rcases List.mem_map.mp hxv with ⟨q', hq', heq⟩
    have h1 := hinj u q hq
    have h2 := hinj v q' hq'
    rw [heq, h1] at h2
    exact huv (Option.some_injective _ h2)

/-- `mkTag` never identifies two distinct paths of equal length. -/
theorem mkTag_inj_same_length : ∀ (sx sy : List (List Int)),
    sx.length = sy.length → mkTag sx = mkTag sy → sx = sy
  | [], [], _, _ => rfl
  | [], _ :: _, hlen, _ => by simp at hlen
  | _ :: _, [], hlen, _ => by simp at hlen
  | [v], [w], _, h => by
      injection h with h'
      rw [h']
  | [_], _ :: _ :: _, hlen, _ => by simp at hlen
  | _ :: _ :: _, [_], hlen, _ => by simp at hlen
  | v :: x :: sx, w :: y :: sy, _, h => by
      injection h

/-- The partition tags are pairwise distinct: the paths are distinct, all
of the same length, and `mkTag` is injective on paths of one length. -/
theorem partitionsP_tags_nodup (m : Model) :
    ((partitionsP m).map (fun q => q.2)).Nodup := by
  unfold partitionsP
  rw [List.map_map]
  have hshape := pureParts_path_shape m.depends_on m.data.rows []
  have hnd := pureParts_paths_nodup m.depends_on m.data.rows []
  have hmapped : (pureParts m.data.rows m.depends_on []).map
      ((fun q : List Row × Tag => q.2) ∘ (fun q : List Row × List (List Int) => (q.1, mkTag q.2)))
      = ((pureParts m.data.rows m.depends_on []).map (fun q => q.2)).map mkTag := by
    rw [List.map_map]
    rfl
  rw [hmapped]
  apply List.Nodup.map_on ?_ hnd
  intro x hx y hy hxy
  obtain ⟨qx, hqx, hx2⟩ := List.mem_map.mp hx
  obtain ⟨qy, hqy, hy2⟩ := List.mem_map.mp hy
  obtain ⟨sx, hsx, hlx⟩ := hshape qx hqx
  obtain ⟨sy, hsy, hly⟩ := hshape qy hqy
  rw [List.nil_append] at hsx hsy
  have hxsx : x = sx := by rw [← hx2, hsx]
  have hysy : y = sy := by rw [← hy2, hsy]
  rw [hxsx, hysy] at hxy ⊢
  exact mkTag_inj_same_length sx sy (by rw [hlx, hly]) hxy

/-! ### Batch-update toolkit

`create_nodes` mutates the per-template OrderedDicts by repeated
insert-or-overwrite.  The lemmas below describe what a batch of updates
does to a dictionary whose key list is either empty (a fresh template) or
exactly the planned key list (a template left behind by a previous run).
In both cases the batch resets the dictionary to the batch itself. -/

section AupdAll

variable {κ α γ : Type} [DecidableEq κ]

/-- Overwriting a key with the value it already holds is a no-op. -/
theorem aupd_self_eq (l : List (κ × α)) (k : κ) (v : α) (h : aget l k = some v) :
    aupd k v l = l := by
  induction l with
  | nil => simp [aget] at h
  | cons p t ih =>
    obtain ⟨k0, v0⟩ := p
    by_cases h0 : k0 = k
    · subst h0
      rw [aget_cons, if_pos rfl] at h
      cases h
      simp [aupd]
    · rw [aget_cons, if_neg h0] at h
      simp [aupd, h0, ih h]

/-- A second overwrite of the same key supersedes the first. -/
theorem aupd_aupd_self (l : List (κ × α)) (k : κ) (v w : α) :
    aupd k w (aupd k v l) = aupd k w l := by
  induction l with
  | nil => simp [aupd]
  | cons p t ih =>
    obtain ⟨k0, v0⟩ := p
    by_cases h0 : k0 = k
    · subst h0; simp [aupd]
    · simp [aupd, h0, ih]

/-- Updating an absent key appends the binding. -/
theorem aupd_not_mem (l : List (κ × α)) (k : κ) (v : α) (h : k ∉ akeys l) :
    aupd k v l = l ++ [(k, v)] := by
  induction l with
  | nil => simp [aupd]
  | cons p t ih =>
    obtain ⟨k0, v0⟩ := p
    simp only [akeys_cons, List.mem_cons] at h
    push_neg at h
    simp [aupd, Ne.symm h.1, ih h.2]

/-- Updating below an entry with a different key. -/
theorem aupd_cons_ne (k : κ) (v : α) (p : κ × α) (t : List (κ × α)) (h : p.1 ≠ k) :
    aupd k v (p :: t) = p :: aupd k v t := by
  obtain ⟨k0, v0⟩ := p
  simp only at h
  simp [aupd, h]

/-- Projecting the values of a dictionary commutes with an update. -/
theorem map_snd_aupd (proj : α → γ) (k : κ) (v : α) (l : List (κ × α)) :
    (aupd k v l).map (fun kv => (kv.1, proj kv.2))
      = aupd k (proj v) (l.map (fun kv => (kv.1, proj kv.2))) := by
  induction l with
  | nil => simp [aupd]
  | cons p t ih =>
    obtain ⟨k0, v0⟩ := p
    by_cases h0 : k0 = k
    · subst h0; simp [aupd]
    · simp [aupd, h0, ih]

/-- Projecting values keeps the key list. -/
theorem akeys_map_snd (proj : α → γ) (l : List (κ × α)) :
    akeys (l.map (fun kv => (kv.1, proj kv.2))) = akeys l := by
  unfold akeys
  rw [List.map_map]
  rfl

/-- Lookup through a value projection. -/
theorem aget_map_snd (proj : α → γ) (l : List (κ × α)) (k : κ) :
    aget (l.map (fun kv => (kv.1, proj kv.2))) k = (aget l k).map proj := by
  induction l with
  | nil => rfl
  | cons p t ih =>
    obtain ⟨k0, v0⟩ := p
    by_cases h0 : k0 = k
    · simp [aget, h0]
    · simp [aget, h0, ih]

/-- Looking up a key present in a constant-valued dictionary. -/
theorem aget_map_key (ks : List κ) (c : α) (k : κ) (h : k ∈ ks) :
    aget (ks.map (fun x => (x, c))) k = some c := by
  induction ks with
  | nil => simp at h
  | cons a t ih =>
    by_cases h0 : a = k
    · simp [aget, h0]
    · rcases List.mem_cons.mp h with rfl | hm
      · exact absurd rfl h0
      · simp [aget, h0, ih hm]

/-- With pairwise-distinct keys, the entry at any position is the lookup
of its key. -/
theorem aget_of_nodup_getElem (l : List (κ × α)) (hnd : (akeys l).Nodup) (j : Nat)
    (kv : κ × α) (h : l[j]? = some kv) : aget l kv.1 = some kv.2 := by
  induction l generalizing j with
  | nil => simp at h
  | cons p t ih =>
    simp only [akeys_cons, List.nodup_cons] at hnd
    cases j with
    | zero =>
      simp only [List.getElem?_cons_zero, Option.some.injEq] at h
      subst h
      obtain ⟨k0, v0⟩ := p
      simp [aget]
    | succ j =>
      simp only [List.getElem?_cons_succ] at h
      have hkv := ih hnd.2 j h
      have hmem : kv ∈ t := List.getElem?_mem h
      have hne : p.1 ≠ kv.1 := by
        intro he
        exact hnd.1 (he ▸ List.mem_map_of_mem Prod.fst hmem)
      obtain ⟨k0, v0⟩ := p
      rw [aget_cons, if_neg hne]
      exact hkv

@[simp] theorem avals_nil : avals ([] : List (κ × α)) = [] := rfl

@[simp] theorem avals_cons (p : κ × α) (t : List (κ × α)) :
    avals (p :: t) = p.2 :: avals t := rfl

/-- A value-wise property survives an update whose value has it. -/
theorem avals_aupd_forall (P : α → Prop) (l : List (κ × α)) (k : κ) (v : α)
    (hl : ∀ x ∈ avals l, P x) (hv : P v) : ∀ x ∈ avals (aupd k v l), P x := by
  induction l with
  | nil =>
    intro x hx
    rcases List.mem_cons.mp hx with h | h
    · subst h; exact hv
    · simp at h
  | cons p t ih =>
    obtain ⟨k0, v0⟩ := p
    by_cases h0 : k0 = k
    · intro x hx
      rw [show aupd k v ((k0, v0) :: t) = (k, v) :: t from by simp [aupd, h0]] at hx
      rcases List.mem_cons.mp hx with h | h
      · subst h; exact hv
      · exact hl x (by rw [avals_cons]; exact List.mem_cons_of_mem _ h)
    · intro x hx
      rw [aupd_cons_ne k v (k0, v0) t h0] at hx
      rcases List.mem_cons.mp hx with h | h
      · subst h
        exact hl x (by rw [avals_cons]; exact List.mem_cons_self _ _)
      · exact ih (fun y hy => hl y (by rw [avals_cons]; exact List.mem_cons_of_mem _ hy)) x h

/-- Fold a batch of updates over a dictionary, first to last. -/
def aupdAll (ws : List (κ × α)) (d : List (κ × α)) : List (κ × α) :=
  ws.foldl (fun d kv => aupd kv.1 kv.2 d) d

@[simp] theorem aupdAll_nil (d : List (κ × α)) : aupdAll [] d = d := rfl

theorem aupdAll_cons (w : κ × α) (ws : List (κ × α)) (d : List (κ × α)) :
    aupdAll (w :: ws) d = aupdAll ws (aupd w.1 w.2 d) := rfl

/-- A batch below an entry whose key it never touches. -/
theorem aupdAll_cons_untouched (ws : List (κ × α)) :
    ∀ (p : κ × α) (t : List (κ × α)), (∀ k ∈ ws.map Prod.fst, p.1 ≠ k) →
    aupdAll ws (p :: t) = p :: aupdAll ws t := by
  induction ws with
  | nil => intro p t _; rfl
  | cons w ws ih =>
    intro p t h
    rw [aupdAll_cons, aupd_cons_ne _ _ _ _ (h w.1 (by simp)), aupdAll_cons]
    exact ih p _ (fun k hk => h k (by simp [hk]))

/-- A batch whose keys are all fresh appends itself. -/
theorem aupdAll_fresh (ws : List (κ × α)) : ∀ (d : List (κ × α)),
    (∀ k ∈ ws.map Prod.fst, k ∉ akeys d) → (ws.map Prod.fst).Nodup →
    aupdAll ws d = d ++ ws := by
  induction ws with
  | nil => intro d _ _; simp
  | cons w ws ih =>
    intro d hfresh hnd
    simp only [List.map_cons, List.nodup_cons] at hnd
    rw [aupdAll_cons, aupd_not_mem d w.1 w.2 (hfresh w.1 (by simp)),
      ih (d ++ [(w.1, w.2)]) ?_ hnd.2]
    · simp
    · intro k hk
      have hknd : k ≠ w.1 := fun he => hnd.1 (he ▸ hk)
      have hkd : k ∉ akeys d := hfresh k (by simp [hk])
      unfold akeys
      rw [List.map_append]
      simp only [List.map_cons, List.map_nil, List.mem_append, List.mem_cons,
        List.not_mem_nil, or_false]
      rintro (hmem | hmem)
      · exact hkd hmem
      · exact hknd hmem

/-- A batch matching the dictionary keys exactly replaces the values in
place. -/
theorem aupdAll_keys_exact (ws : List (κ × α)) : ∀ (d : List (κ × α)),
    akeys d = ws.map Prod.fst → (ws.map Prod.fst).Nodup →
    aupdAll ws d = ws := by
  induction ws with
  | nil =>
    intro d hk _
    cases d with
    | nil => rfl
    | cons p t => simp [akeys] at hk
  | cons w ws ih =>
    intro d hk hnd
    cases d with
    | nil => simp [akeys] at hk
    | cons p t =>
      simp only [akeys_cons, List.map_cons, List.cons.injEq] at hk
      simp only [List.map_cons, List.nodup_cons] at hnd
      rw [aupdAll_cons]
      have hstep : aupd w.1 w.2 (p :: t) = w :: t := by
        obtain ⟨k0, v0⟩ := p
        simp only at hk
        simp [aupd, hk.1]
      rw [hstep, aupdAll_cons_untouched ws w t ?_, ih t hk.2 hnd.2]
      intro k hkmem he
      exact hnd.1 (he ▸ hkmem)

/-- The two admissible stale shapes (fresh template, template of a previous
run) both reset to the batch. -/
theorem aupdAll_reset (ws d : List (κ × α))
    (hd : akeys d = [] ∨ akeys d = ws.map Prod.fst)
    (hnd : (ws.map Prod.fst).Nodup) : aupdAll ws d = ws := by
  rcases hd with hd | hd
  · have hdnil : d = [] := by
      cases d with
      | nil => rfl
      | cons p t => simp [akeys] at hd
    subst hdnil
    rw [aupdAll_fresh ws [] (by simp) hnd]
    simp
  · exact aupdAll_keys_exact ws d hd hnd

end AupdAll

/-! ### The planned shape of a compiled state -/

/-- The group tier of a template at topology level. -/
def gT (ps : PState) : List (Tag × Bool) :=
  ps.group_nodes.map (fun kv => (kv.1, kv.2.isSome))

/-- The dispersion tier of a template at topology level. -/
def vT (ps : PState) : List (Tag × Bool) :=
  ps.var_nodes.map (fun kv => (kv.1, kv.2.isSome))

/-- The subject tier of a template at topology level. -/
def sT (ps : PState) : List (Tag × CellTopo) :=
  ps.subj_nodes.map (fun kv => (kv.1, kv.2.topo))

theorem pstopo_eq (ps : PState) :
    ps.topo = { groupT := gT ps, varT := vT ps, subjT := sT ps } := rfl

/-- The subject-array cell `_set_subj_nodes` leaves, at topology level. -/
def arrRep (m : Model) (p : HNodeT) : CellTopo :=
  CellTopo.arr (List.replicate (numSubjs m) (if p.subj_knode then some [] else none))

/-- The group-dictionary key set every template ends up with. -/
def planGroupKeys (m : Model) (p : HNodeT) : List Tag :=
  if p.is_bottom_node then [] else depTagsP m p

/-- The dispersion-dictionary key set every template ends up with. -/
def planVarKeys (m : Model) (p : HNodeT) : List Tag :=
  if !p.is_bottom_node && usesSubjTier m p then depTagsP m p else []

/-- Every stored dispersion node is present iff the template has a
dispersion knode (in particular the reused shared node is). -/
def VarInv (p : HNodeT) (ps : PState) : Prop :=
  ∀ x ∈ avals ps.var_nodes, x.isSome = p.var_knode

/-- A template state `create_nodes` accepts: each dictionary is either
fresh or holds exactly its planned keys, and stored dispersion nodes match
the knode.  Holds after `__init__` and after every completed run. -/
def ReadyP (m : Model) (p : HNodeT) (ps : PState) : Prop :=
  (akeys ps.group_nodes = [] ∨ akeys ps.group_nodes = planGroupKeys m p)
  ∧ (akeys ps.var_nodes = [] ∨ akeys ps.var_nodes = planVarKeys m p)
  ∧ (akeys ps.subj_nodes = [] ∨ akeys ps.subj_nodes = planSubjKeys m p)
  ∧ VarInv p ps

/-- A model state `create_nodes` accepts: the template dictionary holds
every template in declaration order, each template is acceptable, and a
template excluded from `params_include` is untouched (empty, as
`__init__` leaves it - no phase ever writes to it). -/
def Ready (m : Model) (st : MState) : Prop :=
  akeys st.pstates = m.params.map (fun p => p.name)
  ∧ (∀ p ∈ m.params, ReadyP m p (st.pstate p.name))
  ∧ (∀ p ∈ m.params, (!p.optional || p.name ∈ m.includes) = false →
      st.pstate p.name = PState.empty)

/-- Every included template's subject dictionary holds exactly its planned
keys; this is what the bottom-creation phase reads through
`subj_nodes.has_key`. -/
def KeysPlan (m : Model) (st : MState) : Prop :=
  ∀ sp ∈ paramsInclude m, akeys ((st.pstate sp.name).subj_nodes) = planSubjKeys m sp

/-- The tags of the bottom partitions. -/
def partitionTags (m : Model) : List Tag := (partitionsP m).map (fun q => q.2)

/-- The placeholder cell the bottom init phase stores at every partition
tag. -/
def initCellB (m : Model) : SubjCell :=
  if m.is_group_model then SubjCell.arr (List.replicate (numSubjs m) none)
  else SubjCell.single none

theorem depTagsP_nodup (m : Model) (p : HNodeT) : (depTagsP m p).Nodup := by
  unfold depTagsP
  cases aget m.depends_on p.name with
  | none => simp
  | some cols => exact (List.nodup_dedup _).map (fun a b h => by injection h)

theorem partitionTags_nodup (m : Model) : (partitionTags m).Nodup :=
  partitionsP_tags_nodup m

theorem planSubjKeys_nodup (m : Model) (p : HNodeT) : (planSubjKeys m p).Nodup := by
  unfold planSubjKeys
  split_ifs
  · exact partitionsP_tags_nodup m
  · exact depTagsP_nodup m p
  · exact List.nodup_nil

/-! ### Elementary state-evolution lemmas -/

/-- Every slot array `_set_subj_nodes` allocates carries, at topology
level, one entry per subject: present iff the subject knode is, with the
empty resolution pattern. -/
theorem allocSubjSlots_topo (sk : Bool) (g v : Option (Option Nat)) :
    ∀ (k c : Nat), (allocSubjSlots sk g v k c).1.map (Option.map SubjNode.resolved)
      = List.replicate k (if sk then some [] else none) := by
  intro k
  induction k with
  | zero => intro c; rfl
  | succ k ih =>
    intro c
    rcases Bool.eq_false_or_eq_true sk with hsk | hsk <;> subst hsk
    · simp [allocSubjSlots, List.replicate_succ, ih]
    · simp [allocSubjSlots, List.replicate_succ, ih]


theorem createNode_pstates (b : Bool) (st : MState) :
    (createNode b st).2.pstates = st.pstates := by
  unfold createNode
  split_ifs <;> rfl

theorem createNode_pstate (b : Bool) (st : MState) (n : String) :
    (createNode b st).2.pstate n = st.pstate n := by
  unfold MState.pstate
  rw [createNode_pstates]

theorem createNode_isSome (b : Bool) (st : MState) :
    (createNode b st).1.isSome = b := by
  unfold createNode
  cases b with
  | true => rfl
  | false => rfl

theorem setP_akeys (st : MState) (n : String) (ps : PState)
    (h : n ∈ akeys st.pstates) :
    akeys (st.setP n ps).pstates = akeys st.pstates :=
  akeys_aupd_mem _ _ _ h
/-! ### Phase 1: the non-bottom parameter pass -/

/-- The dispersion-node choice of `_set_subj_nodes`: a fresh knode unless
`share_var` is set and a dispersion node already exists, in which case the
first stored dictionary value is reused. -/
def ssnVn (m : Model) (p : HNodeT) (st : MState) : Option Nat × MState :=
  if (st.pstate p.name).var_nodes.isEmpty || !p.share_var then createNode p.var_knode st
  else ((((st.pstate p.name).var_nodes.head?).map Prod.snd).getD none, st)

theorem ssnVn_pstates (m : Model) (p : HNodeT) (st : MState) :
    (ssnVn m p st).2.pstates = st.pstates := by
  unfold ssnVn
  split_ifs
  · exact createNode_pstates _ _
  · rfl

/-- The chosen dispersion node is present iff the template has a
dispersion knode - also in the reuse branch, by the stored-value
invariant. -/
theorem ssnVn_isSome (m : Model) (p : HNodeT) (st : MState)
    (hvar : VarInv p (st.pstate p.name)) :
    (ssnVn m p st).1.isSome = p.var_knode := by
  unfold ssnVn
  split_ifs with h
  · exact createNode_isSome _ _
  · cases hv : (st.pstate p.name).var_nodes with
    | nil =>
      rw [hv] at h
      simp at h
    | cons hd t =>
      simp only [hv, List.head?_cons, Option.map_some', Option.getD_some]
      exact hvar hd.2 (by rw [hv, avals_cons]; exact List.mem_cons_self _ _)

theorem setSubjNodes_eq (m : Model) (p : HNodeT) (tag : Tag) (dsl : List Row)
    (st : MState) :
    setSubjNodes m p tag dsl st
      = (let vn := ssnVn m p st
         let ps1 : PState := { st.pstate p.name with
           var_nodes := aupd tag vn.1 (st.pstate p.name).var_nodes }
         let st1 := vn.2.setP p.name ps1
         let slots := allocSubjSlots p.subj_knode
           (if p.group_label.isSome then some ((aget ps1.group_nodes tag).getD none) else none)
           (if p.var_label.isSome then some ((aget ps1.var_nodes tag).getD none) else none)
           (numSubjs m) st1.counter
         { st1.setP p.name
             { ps1 with subj_nodes := aupd tag (SubjCell.arr slots.1) ps1.subj_nodes }
           with counter := slots.2 }) := rfl

/-- `_set_subj_nodes` updates the state dictionaries of its template by a
single dispersion write and a single subject-array write, both at the tag
it was given. -/
theorem setSubjNodes_pstates_eq (m : Model) (p : HNodeT) (tag : Tag) (dsl : List Row)
    (st : MState) :
    ∃ sl : List (Option SubjNode),
      sl.map (Option.map SubjNode.resolved)
        = List.replicate (numSubjs m) (if p.subj_knode then some [] else none)
      ∧ (setSubjNodes m p tag dsl st).pstates
          = aupd p.name
              { st.pstate p.name with
                var_nodes := aupd tag (ssnVn m p st).1 (st.pstate p.name).var_nodes,
                subj_nodes := aupd tag (SubjCell.arr
                    (allocSubjSlots p.subj_knode
                      (if p.group_label.isSome then
                        some ((aget (st.pstate p.name).group_nodes tag).getD none) else none)
                      (if p.var_label.isSome then
                        some ((aget (aupd tag (ssnVn m p st).1
                          (st.pstate p.name).var_nodes) tag).getD none) else none)
                      (numSubjs m)
                      (((ssnVn m p st).2.setP p.name
                        { st.pstate p.name with
                          var_nodes := aupd tag (ssnVn m p st).1
                            (st.pstate p.name).var_nodes }).counter)).1)
                  (st.pstate p.name).subj_nodes }
              st.pstates := by
  refine ⟨(allocSubjSlots p.subj_knode
      (if p.group_label.isSome then
        some ((aget (st.pstate p.name).group_nodes tag).getD none) else none)
      (if p.var_label.isSome then
        some ((aget (aupd tag (ssnVn m p st).1
          (st.pstate p.name).var_nodes) tag).getD none) else none)
      (numSubjs m)
      (((ssnVn m p st).2.setP p.name
        { st.pstate p.name with
          var_nodes := aupd tag (ssnVn m p st).1
            (st.pstate p.name).var_nodes }).counter)).1,
    allocSubjSlots_topo _ _ _ _ _, ?_⟩
  rw [setSubjNodes_eq]
  simp only [MState.setP]
  rw [ssnVn_pstates, aupd_aupd_self]

/-- What `_set_subj_nodes` does, at topology level: the group dictionary
is untouched, the dispersion and subject dictionaries get one entry at the
tag (present per the respective knode; subject slots carry the empty
resolution pattern), all other templates are untouched. -/
theorem setSubjNodes_summary (m : Model) (p : HNodeT) (tag : Tag) (dsl : List Row)
    (st : MState) (hvar : VarInv p (st.pstate p.name)) (hmem : p.name ∈ akeys st.pstates) :
    ((setSubjNodes m p tag dsl st).pstate p.name).group_nodes
        = (st.pstate p.name).group_nodes
    ∧ vT ((setSubjNodes m p tag dsl st).pstate p.name)
        = aupd tag p.var_knode (vT (st.pstate p.name))
    ∧ sT ((setSubjNodes m p tag dsl st).pstate p.name)
        = aupd tag (arrRep m p) (sT (st.pstate p.name))
    ∧ VarInv p ((setSubjNodes m p tag dsl st).pstate p.name)
    ∧ (∀ n, n ≠ p.name → (setSubjNodes m p tag dsl st).pstate n = st.pstate n)
    ∧ akeys (setSubjNodes m p tag dsl st).pstates = akeys st.pstates := by
  obtain ⟨sl, hsl, hpst⟩ := setSubjNodes_pstates_eq m p tag dsl st
  have hself : (setSubjNodes m p tag dsl st).pstate p.name
      = { st.pstate p.name with
            var_nodes := aupd tag (ssnVn m p st).1 (st.pstate p.name).var_nodes,
            subj_nodes := aupd tag (SubjCell.arr
                (allocSubjSlots p.subj_knode
                  (if p.group_label.isSome then
                    some ((aget (st.pstate p.name).group_nodes tag).getD none) else none)
                  (if p.var_label.isSome then
                    some ((aget (aupd tag (ssnVn m p st).1
                      (st.pstate p.name).var_nodes) tag).getD none) else none)
                  (numSubjs m)
                  (((ssnVn m p st).2.setP p.name
                    { st.pstate p.name with
                      var_nodes := aupd tag (ssnVn m p st).1
                        (st.pstate p.name).var_nodes }).counter)).1)
              (st.pstate p.name).subj_nodes } := by
    unfold MState.pstate
    rw [hpst, aget_aupd_self, Option.getD_some]
    rfl
  refine ⟨?_, ?_, ?_, ?_, ?_, ?_⟩
  · rw [hself]
  · rw [hself]
    show (aupd tag (ssnVn m p st).1 (st.pstate p.name).var_nodes).map
        (fun kv => (kv.1, kv.2.isSome)) = _
    rw [map_snd_aupd, ssnVn_isSome m p st hvar]
    rfl
  · rw [hself]
    show (aupd tag (SubjCell.arr _) (st.pstate p.name).subj_nodes).map
        (fun kv => (kv.1, kv.2.topo)) = _
    rw [map_snd_aupd]
    have htopo : (SubjCell.arr
        (allocSubjSlots p.subj_knode
          (if p.group_label.isSome then
            some ((aget (st.pstate p.name).group_nodes tag).getD none) else none)
          (if p.var_label.isSome then
            some ((aget (aupd tag (ssnVn m p st).1
              (st.pstate p.name).var_nodes) tag).getD none) else none)
          (numSubjs m)
          (((ssnVn m p st).2.setP p.name
            { st.pstate p.name with
              var_nodes := aupd tag (ssnVn m p st).1
                (st.pstate p.name).var_nodes }).counter)).1).topo = arrRep m p := by
      rw [SubjCell.topo, allocSubjSlots_topo]
      rfl
    rw [htopo]
    rfl
  · rw [hself]
    show VarInv p _
    unfold VarInv
    exact avals_aupd_forall _ _ _ _ hvar (ssnVn_isSome m p st hvar)
  · intro n hn
    unfold MState.pstate
    rw [hpst, aget_aupd_ne _ _ _ _ (Ne.symm hn)]
  · rw [hpst]
    exact akeys_aupd_mem _ _ _ hmem

/-- One non-bottom turn: create the group node of one tag, then - with a
subject tier - the dispersion and subject nodes of the tag.  One turn of
the `_set_dependent_param` loop is this at `Tag.single u` with the
matching rows; `_set_independet_param` is this at the empty tag with the
whole dataset. -/
def nbTurn (m : Model) (p : HNodeT) (tag : Tag) (dsl : List Row) (st : MState) : MState :=
  let ps := st.pstate p.name
  let gn := createNode p.group_knode st
  let st1 := (gn.2).setP p.name { ps with group_nodes := aupd tag gn.1 ps.group_nodes }
  if m.is_group_model && hasSubj p then setSubjNodes m p tag dsl st1 else st1

/-- One turn of the `_set_dependent_param` loop, for one unique value
combination `u` of the dependency columns. -/
def depStep (m : Model) (p : HNodeT) (cols : List String) (st : MState)
    (u : List Int) : MState :=
  nbTurn m p (Tag.single u) (m.data.rows.filter (fun r => projCols cols r = u)) st

theorem setDependentParam_eq (m : Model) (p : HNodeT) (st : MState) :
    setDependentParam m p st
      = ((m.data.rows.map (projCols ((aget m.depends_on p.name).getD []))).dedup).foldl
          (depStep m p ((aget m.depends_on p.name).getD [])) st := rfl

theorem setIndependetParam_eq (m : Model) (p : HNodeT) (st : MState) :
    setIndependetParam m p st = nbTurn m p Tag.empty m.data.rows st := rfl

/-- The topology effect of one non-bottom turn: one group write at the
tag, plus - with a subject tier - one dispersion and one subject write at
the same tag. -/
theorem nbTurn_summary (m : Model) (p : HNodeT) (tag : Tag) (dsl : List Row)
    (st : MState) (hvar : VarInv p (st.pstate p.name)) (hmem : p.name ∈ akeys st.pstates) :
    gT ((nbTurn m p tag dsl st).pstate p.name)
        = aupd tag p.group_knode (gT (st.pstate p.name))
    ∧ (usesSubjTier m p = true →
        vT ((nbTurn m p tag dsl st).pstate p.name)
          = aupd tag p.var_knode (vT (st.pstate p.name))
        ∧ sT ((nbTurn m p tag dsl st).pstate p.name)
          = aupd tag (arrRep m p) (sT (st.pstate p.name)))
    ∧ (usesSubjTier m p = false →
        ((nbTurn m p tag dsl st).pstate p.name).var_nodes = (st.pstate p.name).var_nodes
        ∧ ((nbTurn m p tag dsl st).pstate p.name).subj_nodes = (st.pstate p.name).subj_nodes)
    ∧ VarInv p ((nbTurn m p tag dsl st).pstate p.name)
    ∧ (∀ n, n ≠ p.name → (nbTurn m p tag dsl st).pstate n = st.pstate n)
    ∧ akeys (nbTurn m p tag dsl st).pstates = akeys st.pstates := by
  have hstep : nbTurn m p tag dsl st
      = (let st1 := ((createNode p.group_knode st).2).setP p.name
            { st.pstate p.name with
              group_nodes := aupd tag (createNode p.group_knode st).1
                (st.pstate p.name).group_nodes }
         if m.is_group_model && hasSubj p then
           setSubjNodes m p tag dsl st1
         else st1) := rfl
  have h1ps : (((createNode p.group_knode st).2).setP p.name
      { st.pstate p.name with
        group_nodes := aupd tag (createNode p.group_knode st).1
          (st.pstate p.name).group_nodes }).pstate p.name
      = { st.pstate p.name with
          group_nodes := aupd tag (createNode p.group_knode st).1
            (st.pstate p.name).group_nodes } := by
    unfold MState.pstate MState.setP
    rw [aget_aupd_self, Option.getD_some]
  have h1other : ∀ n, n ≠ p.name → (((createNode p.group_knode st).2).setP p.name
      { st.pstate p.name with
        group_nodes := aupd tag (createNode p.group_knode st).1
          (st.pstate p.name).group_nodes }).pstate n = st.pstate n := by
    intro n hn
    unfold MState.pstate MState.setP
    simp only
    rw [aget_aupd_ne _ _ _ _ (Ne.symm hn), createNode_pstates]
  have h1keys : akeys (((createNode p.group_knode st).2).setP p.name
      { st.pstate p.name with
        group_nodes := aupd tag (createNode p.group_knode st).1
          (st.pstate p.name).group_nodes }).pstates = akeys st.pstates := by
    unfold MState.setP
    simp only
    rw [akeys_aupd_mem, createNode_pstates]
    rw [createNode_pstates]
    exact hmem
  have h1var : VarInv p ((((createNode p.group_knode st).2).setP p.name
      { st.pstate p.name with
        group_nodes := aupd tag (createNode p.group_knode st).1
          (st.pstate p.name).group_nodes }).pstate p.name) := by
    rw [h1ps]
    exact hvar
  have h1gT : gT ((((createNode p.group_knode st).2).setP p.name
      { st.pstate p.name with
        group_nodes := aupd tag (createNode p.group_knode st).1
          (st.pstate p.name).group_nodes }).pstate p.name)
      = aupd tag p.group_knode (gT (st.pstate p.name)) := by
    rw [h1ps]
    show (aupd tag (createNode p.group_knode st).1
        (st.pstate p.name).group_nodes).map (fun kv => (kv.1, kv.2.isSome)) = _
    rw [map_snd_aupd, createNode_isSome]
    rfl
  rw [hstep]
  simp only
  by_cases hU : (m.is_group_model && hasSubj p) = true
  · rw [if_pos hU]
    obtain ⟨hgrp, hvT, hsT, hvi, hother, hkeys⟩ :=
      setSubjNodes_summary m p tag
        dsl _ h1var (by rw [h1keys]; exact hmem)
    refine ⟨?_, ?_, ?_, hvi, ?_, ?_⟩
    · show gT _ = _
      unfold gT
      unfold gT at h1gT
      rw [hgrp]
      rw [h1ps]
      rw [h1ps] at h1gT
      exact h1gT
    · intro _
      rw [hvT, hsT, h1ps]
      exact ⟨rfl, rfl⟩
    · intro hUf
      rw [show usesSubjTier m p = (m.is_group_model && hasSubj p) from rfl, hU] at hUf
      simp at hUf
    · intro n hn
      rw [hother n hn, h1other n hn]
    · rw [hkeys, h1keys]
  · rw [if_neg hU]
    have hUf : usesSubjTier m p = false := by
      unfold usesSubjTier
      exact Bool.not_eq_true _ ▸ Bool.of_not_eq_true hU
    refine ⟨h1gT, ?_, ?_, h1var, h1other, h1keys⟩
    · intro hUt
      rw [show usesSubjTier m p = (m.is_group_model && hasSubj p) from rfl] at hUt
      exact absurd hUt hU
    · intro _
      rw [h1ps]
      exact ⟨rfl, rfl⟩
theorem eq_nil_of_akeys_nil {κ α : Type} (l : List (κ × α)) (h : akeys l = []) :
    l = [] := by
  cases l with
  | nil => rfl
  | cons p t => simp [akeys] at h

/-- The planned shape of a non-bottom template after its phase-1 turn: one
group entry per dependency tag (present per the group knode) and - with a
subject tier - matching dispersion and subject entries; without a subject
tier those dictionaries stay empty. -/
def NBDesc (m : Model) (p : HNodeT) (ps : PState) : Prop :=
  gT ps = (depTagsP m p).map (fun t => (t, p.group_knode))
  ∧ (usesSubjTier m p = true →
      vT ps = (depTagsP m p).map (fun t => (t, p.var_knode))
      ∧ sT ps = (depTagsP m p).map (fun t => (t, arrRep m p)))
  ∧ (usesSubjTier m p = false → ps.var_nodes = [] ∧ ps.subj_nodes = [])
  ∧ VarInv p ps

/-- The `_set_dependent_param` loop as a whole: one batched write per
dictionary over the unique value combinations, in order. -/
theorem depFold_summary (m : Model) (p : HNodeT) (cols : List String) :
    ∀ (us : List (List Int)) (st : MState),
      VarInv p (st.pstate p.name) → p.name ∈ akeys st.pstates →
      gT ((us.foldl (depStep m p cols) st).pstate p.name)
          = aupdAll (us.map (fun u => (Tag.single u, p.group_knode)))
              (gT (st.pstate p.name))
      ∧ (usesSubjTier m p = true →
          vT ((us.foldl (depStep m p cols) st).pstate p.name)
            = aupdAll (us.map (fun u => (Tag.single u, p.var_knode)))
                (vT (st.pstate p.name))
          ∧ sT ((us.foldl (depStep m p cols) st).pstate p.name)
            = aupdAll (us.map (fun u => (Tag.single u, arrRep m p)))
                (sT (st.pstate p.name)))
      ∧ (usesSubjTier m p = false →
          ((us.foldl (depStep m p cols) st).pstate p.name).var_nodes
            = (st.pstate p.name).var_nodes
          ∧ ((us.foldl (depStep m p cols) st).pstate p.name).subj_nodes
            = (st.pstate p.name).subj_nodes)
      ∧ VarInv p ((us.foldl (depStep m p cols) st).pstate p.name)
      ∧ (∀ n, n ≠ p.name → (us.foldl (depStep m p cols) st).pstate n = st.pstate n)
      ∧ akeys (us.foldl (depStep m p cols) st).pstates = akeys st.pstates := by
  intro us
  induction us with
  | nil =>
    intro st hvar hmem
    exact ⟨rfl, fun _ => ⟨rfl, rfl⟩, fun _ => ⟨rfl, rfl⟩, hvar, fun n _ => rfl, rfl⟩
  | cons u us ih =>
    intro st hvar hmem
    obtain ⟨hg1, htier1, hnot1, hvar1, hoth1, hk1⟩ :=
      nbTurn_summary m p (Tag.single u)
        (m.data.rows.filter (fun r => projCols cols r = u)) st hvar hmem
    rw [show nbTurn m p (Tag.single u)
        (m.data.rows.filter (fun r => projCols cols r = u)) st
        = depStep m p cols st u from rfl] at hg1 htier1 hnot1 hvar1 hoth1 hk1
    obtain ⟨hg2, htier2, hnot2, hvar2, hoth2, hk2⟩ :=
      ih (depStep m p cols st u) hvar1 (by rw [hk1]; exact hmem)
    refine ⟨?_, ?_, ?_, hvar2, ?_, ?_⟩
    · rw [List.foldl_cons, hg2, List.map_cons, aupdAll_cons, hg1]
    · intro hU
      obtain ⟨hv1, hs1⟩ := htier1 hU
      obtain ⟨hv2, hs2⟩ := htier2 hU
      constructor
      · rw [List.foldl_cons, hv2, List.map_cons, aupdAll_cons, hv1]
      · rw [List.foldl_cons, hs2, List.map_cons, aupdAll_cons, hs1]
    · intro hU
      obtain ⟨hv1, hs1⟩ := hnot1 hU
      obtain ⟨hv2, hs2⟩ := hnot2 hU
      constructor
      · rw [List.foldl_cons, hv2]
        exact hv1
      · rw [List.foldl_cons, hs2]
        exact hs1
    · intro n hn
      rw [List.foldl_cons, hoth2 n hn]
      exact hoth1 n hn
    · rw [List.foldl_cons, hk2]
      exact hk1

/-- `_set_dependent_param` leaves the template in its planned shape, from
any acceptable starting template. -/
theorem setDependentParam_planned (m : Model) (p : HNodeT) (st : MState)
    (hpr : ReadyP m p (st.pstate p.name)) (hmem : p.name ∈ akeys st.pstates)
    (hnb : p.is_bottom_node = false) (cols : List String)
    (hcols : aget m.depends_on p.name = some cols) :
    NBDesc m p ((setDependentParam m p st).pstate p.name)
    ∧ (∀ n, n ≠ p.name → (setDependentParam m p st).pstate n = st.pstate n)
    ∧ akeys (setDependentParam m p st).pstates = akeys st.pstates := by
  have htags : depTagsP m p = ((m.data.rows.map (projCols cols)).dedup).map Tag.single := by
    unfold depTagsP
    rw [hcols]
  have hcols' : (aget m.depends_on p.name).getD [] = cols := by rw [hcols]; rfl
  have hfold := depFold_summary m p cols ((m.data.rows.map (projCols cols)).dedup) st
    hpr.2.2.2 hmem
  obtain ⟨hg, htier, hnontier, hvar, hoth, hk⟩ := hfold
  have heq : setDependentParam m p st
      = ((m.data.rows.map (projCols cols)).dedup).foldl (depStep m p cols) st := by
    rw [setDependentParam_eq, hcols']
  have hndtags : ((depTagsP m p).Nodup) := depTagsP_nodup m p
  have hwfst : ∀ (c : Bool), ((((m.data.rows.map (projCols cols)).dedup).map
      (fun u => (Tag.single u, c))).map Prod.fst)
      = depTagsP m p := by
    intro c
    rw [htags, List.map_map]
    rfl
  have hwfstC : ∀ (c : CellTopo), ((((m.data.rows.map (projCols cols)).dedup).map
      (fun u => (Tag.single u, c))).map Prod.fst)
      = depTagsP m p := by
    intro c
    rw [htags, List.map_map]
    rfl
  have hwr : ∀ (c : Bool), (((m.data.rows.map (projCols cols)).dedup).map
      (fun u => (Tag.single u, c)))
      = (depTagsP m p).map (fun t => (t, c)) := by
    intro c
    rw [htags, List.map_map]
    rfl
  have hwrC : ∀ (c : CellTopo), (((m.data.rows.map (projCols cols)).dedup).map
      (fun u => (Tag.single u, c)))
      = (depTagsP m p).map (fun t => (t, c)) := by
    intro c
    rw [htags, List.map_map]
    rfl
  have hgkeys : akeys (gT (st.pstate p.name)) = [] ∨
      akeys (gT (st.pstate p.name))
        = (((m.data.rows.map (projCols cols)).dedup).map
            (fun u => (Tag.single u, p.group_knode))).map Prod.fst := by
    unfold gT
    rw [akeys_map_snd, hwfst]
    rcases hpr.1 with h | h
    · exact Or.inl h
    · refine Or.inr ?_
      rw [h]
      unfold planGroupKeys
      rw [hnb]
      rfl
  refine ⟨⟨?_, ?_, ?_, ?_⟩, ?_, ?_⟩
  · rw [heq, hg, aupdAll_reset _ _ hgkeys (by rw [hwfst]; exact hndtags), hwr]
  · intro hU
    obtain ⟨hv, hs⟩ := htier hU
    constructor
    · have hvkeys : akeys (vT (st.pstate p.name)) = [] ∨
          akeys (vT (st.pstate p.name))
            = (((m.data.rows.map (projCols cols)).dedup).map
                (fun u => (Tag.single u, p.var_knode))).map Prod.fst := by
        unfold vT
        rw [akeys_map_snd, hwfst]
        rcases hpr.2.1 with h | h
        · exact Or.inl h
        · refine Or.inr ?_
          rw [h]
          unfold planVarKeys
          rw [hnb, hU]
          rfl
      rw [heq, hv, aupdAll_reset _ _ hvkeys (by rw [hwfst]; exact hndtags), hwr]
    · have hskeys : akeys (sT (st.pstate p.name)) = [] ∨
          akeys (sT (st.pstate p.name))
            = (((m.data.rows.map (projCols cols)).dedup).map
                (fun u => (Tag.single u, arrRep m p))).map Prod.fst := by
        unfold sT
        rw [akeys_map_snd, hwfstC]
        rcases hpr.2.2.1 with h | h
        · exact Or.inl h
        · refine Or.inr ?_
          rw [h]
          unfold planSubjKeys
          rw [hnb, hU]
          rfl
      rw [heq, hs, aupdAll_reset _ _ hskeys (by rw [hwfstC]; exact hndtags), hwrC]
  · intro hU
    obtain ⟨hv, hs⟩ := hnontier hU
    constructor
    · rw [heq, hv]
      refine eq_nil_of_akeys_nil _ ?_
      rcases hpr.2.1 with h | h
      · exact h
      · rw [h]
        unfold planVarKeys
        rw [hnb, hU]
        rfl
    · rw [heq, hs]
      refine eq_nil_of_akeys_nil _ ?_
      rcases hpr.2.2.1 with h | h
      · exact h
      · rw [h]
        unfold planSubjKeys
        rw [hnb, hU]
        rfl
  · rw [heq]
    exact hvar
  · intro n hn
    rw [heq]
    exact hoth n hn
  · rw [heq]
    exact hk

/-- `_set_independet_param` leaves the template in its planned shape (the
single empty tag), from any acceptable starting template. -/
theorem setIndependetParam_planned (m : Model) (p : HNodeT) (st : MState)
    (hpr : ReadyP m p (st.pstate p.name)) (hmem : p.name ∈ akeys st.pstates)
    (hnb : p.is_bottom_node = false)
    (hcols : aget m.depends_on p.name = none) :
    NBDesc m p ((setIndependetParam m p st).pstate p.name)
    ∧ (∀ n, n ≠ p.name → (setIndependetParam m p st).pstate n = st.pstate n)
    ∧ akeys (setIndependetParam m p st).pstates = akeys st.pstates := by
  have htags : depTagsP m p = [Tag.empty] := by
    unfold depTagsP
    rw [hcols]
  obtain ⟨hg1, htier1, hnot1, hvar1, hoth1, hk1⟩ :=
    nbTurn_summary m p Tag.empty m.data.rows st hpr.2.2.2 hmem
  have heq : setIndependetParam m p st = nbTurn m p Tag.empty m.data.rows st :=
    setIndependetParam_eq m p st
  have haupd : ∀ {γ : Type} [inst : DecidableEq γ] (c : γ) (d : List (Tag × γ)),
      (akeys d = [] ∨ akeys d = [Tag.empty]) →
      aupd Tag.empty c d = [Tag.empty].map (fun t => (t, c)) := by
    intro γ hγ c d hd
    have h2 := aupdAll_reset [(Tag.empty, c)] d hd (by simp)
    show aupd Tag.empty c d = [(Tag.empty, c)]
    exact h2
  refine ⟨⟨?_, ?_, ?_, ?_⟩, ?_, ?_⟩
  · rw [heq, hg1, htags]
    refine haupd _ _ ?_
    unfold gT
    rw [akeys_map_snd]
    rcases hpr.1 with h | h
    · exact Or.inl h
    · refine Or.inr ?_
      rw [h]
      unfold planGroupKeys
      rw [hnb, htags]
      rfl
  · intro hU
    obtain ⟨hv, hs⟩ := htier1 hU
    constructor
    · rw [heq, hv, htags]
      refine haupd _ _ ?_
      unfold vT
      rw [akeys_map_snd]
      rcases hpr.2.1 with h | h
      · exact Or.inl h
      · refine Or.inr ?_
        rw [h]
        unfold planVarKeys
        rw [hnb, hU, htags]
        rfl
    · rw [heq, hs, htags]
      refine haupd _ _ ?_
      unfold sT
      rw [akeys_map_snd]
      rcases hpr.2.2.1 with h | h
      · exact Or.inl h
      · refine Or.inr ?_
        rw [h]
        unfold planSubjKeys
        rw [hnb, hU, htags]
        rfl
  · intro hU
    obtain ⟨hv, hs⟩ := hnot1 hU
    constructor
    · rw [heq, hv]
      refine eq_nil_of_akeys_nil _ ?_
      rcases hpr.2.1 with h | h
      · exact h
      · rw [h]
        unfold planVarKeys
        rw [hnb, hU]
        rfl
    · rw [heq, hs]
      refine eq_nil_of_akeys_nil _ ?_
      rcases hpr.2.2.1 with h | h
      · exact h
      · rw [h]
        unfold planSubjKeys
        rw [hnb, hU]
        rfl
  · rw [heq]
    exact hvar1
  · intro n hn
    rw [heq]
    exact hoth1 n hn
  · rw [heq]
    exact hk1
/-! ### The three passes of `create_nodes` -/

/-- Phase-1 turn of one parameter of `params_include`. -/
def phase1Step (m : Model) (st : MState) (p : HNodeT) : MState :=
  if p.is_bottom_node then st
  else if (aget m.depends_on p.name).isSome then setDependentParam m p st
  else setIndependetParam m p st

/-- Phase-2 turn (bottom placeholder init). -/
def phase2Step (m : Model) (st : MState) (p : HNodeT) : MState :=
  if p.is_bottom_node then setBottomNodes m p true st else st

/-- Phase-3 turn (bottom creation). -/
def phase3Step (m : Model) (st : MState) (p : HNodeT) : MState :=
  if p.is_bottom_node then setBottomNodes m p false st else st

theorem createNodesPhases_eq (m : Model) (st : MState) :
    createNodesPhases m st
      = (paramsInclude m).foldl (phase3Step m)
          ((paramsInclude m).foldl (phase2Step m)
            ((paramsInclude m).foldl (phase1Step m) st)) := rfl

/-- The phase-1 pass: every included non-bottom template reaches its
planned shape; every other template is untouched. -/
theorem phase1_fold (m : Model) : ∀ (PL : List HNodeT) (st : MState),
    (∀ p ∈ PL, ReadyP m p (st.pstate p.name)) →
    ((PL.map (fun p => p.name)).Nodup) →
    (∀ p ∈ PL, p.name ∈ akeys st.pstates) →
    (∀ p ∈ PL, p.is_bottom_node = false →
        NBDesc m p ((PL.foldl (phase1Step m) st).pstate p.name))
    ∧ (∀ n, (∀ p ∈ PL, p.is_bottom_node = false → n ≠ p.name) →
        (PL.foldl (phase1Step m) st).pstate n = st.pstate n)
    ∧ akeys (PL.foldl (phase1Step m) st).pstates = akeys st.pstates := by
  intro PL
  induction PL with
  | nil =>
    intro st _ _ _
    exact ⟨by simp, fun n _ => rfl, rfl⟩
  | cons p PL ih =>
    intro st hready hnd hmem
    simp only [List.map_cons, List.nodup_cons] at hnd
    by_cases hb : p.is_bottom_node = true
    · have hstep : phase1Step m st p = st := by
        unfold phase1Step
        rw [if_pos hb]
      obtain ⟨ha, hfr, hk⟩ := ih st
        (fun q hq => hready q (List.mem_cons_of_mem _ hq)) hnd.2
        (fun q hq => hmem q (List.mem_cons_of_mem _ hq))
      refine ⟨?_, ?_, ?_⟩
      · intro q hq hqb
        rcases List.mem_cons.mp hq with rfl | hq'
        · rw [hqb] at hb
          cases hb
        · rw [List.foldl_cons, hstep]
          exact ha q hq' hqb
      · intro n hn
        rw [List.foldl_cons, hstep]
        exact hfr n (fun q hq hqb => hn q (List.mem_cons_of_mem _ hq) hqb)
      · rw [List.foldl_cons, hstep]
        exact hk
    · have hb' : p.is_bottom_node = false := Bool.of_not_eq_true hb
      have hsum : NBDesc m p ((phase1Step m st p).pstate p.name)
          ∧ (∀ n, n ≠ p.name → (phase1Step m st p).pstate n = st.pstate n)
          ∧ akeys (phase1Step m st p).pstates = akeys st.pstates := by
        unfold phase1Step
        rw [if_neg hb]
        cases hdep : aget m.depends_on p.name with
        | some cols =>
          rw [if_pos (by rfl)]
          exact setDependentParam_planned m p st (hready p (List.mem_cons_self _ _))
            (hmem p (List.mem_cons_self _ _)) hb' cols hdep
        | none =>
          rw [if_neg (by simp)]
          exact setIndependetParam_planned m p st (hready p (List.mem_cons_self _ _))
            (hmem p (List.mem_cons_self _ _)) hb' hdep
      obtain ⟨hdesc, hfr1, hk1⟩ := hsum
      obtain ⟨ha, hfr, hk⟩ := ih (phase1Step m st p)
        (fun q hq => by
          rw [hfr1 q.name (fun he => hnd.1 (he ▸ List.mem_map_of_mem _ hq))]
          exact hready q (List.mem_cons_of_mem _ hq))
        hnd.2
        (fun q hq => by
          rw [hk1]
          exact hmem q (List.mem_cons_of_mem _ hq))
      refine ⟨?_, ?_, ?_⟩
      · intro q hq hqb
        rcases List.mem_cons.mp hq with heq | hq'
        · subst heq
          rw [List.foldl_cons,
            hfr q.name (fun r hr hrb he => hnd.1 (he ▸ List.mem_map_of_mem _ hr))]
          exact hdesc
        · rw [List.foldl_cons]
          exact ha q hq' hqb
      · intro n hn
        rw [List.foldl_cons,
          hfr n (fun q hq hqb => hn q (List.mem_cons_of_mem _ hq) hqb)]
        exact hfr1 n (hn p (List.mem_cons_self _ _) hb')
      · rw [List.foldl_cons, hk, hk1]

/-! ### Phase 2: bottom placeholder initialization -/

/-- One turn of the init fold of `_set_bottom_nodes(param, init=True)`. -/
def initStep (m : Model) (p : HNodeT) (st : MState)
    (t : List Row × List (String × PVal) × Tag) : MState :=
  st.setP p.name { st.pstate p.name with
    subj_nodes := aupd t.2.2
      (if m.is_group_model && hasSubj p then
        SubjCell.arr (List.replicate (numSubjs m) none)
      else SubjCell.single none)
      (st.pstate p.name).subj_nodes }

theorem setBottomNodes_true_eq (m : Model) (p : HNodeT) (st : MState) :
    setBottomNodes m p true st = (getDataDepend m st).foldl (initStep m p) st := rfl

theorem initFold (m : Model) (p : HNodeT) :
    ∀ (L : List (List Row × List (String × PVal) × Tag)) (st : MState),
      p.name ∈ akeys st.pstates →
      (L.foldl (initStep m p) st).pstate p.name
        = { st.pstate p.name with
            subj_nodes := aupdAll (L.map (fun t => (t.2.2,
                if m.is_group_model && hasSubj p then
                  SubjCell.arr (List.replicate (numSubjs m) none)
                else SubjCell.single none)))
              ((st.pstate p.name).subj_nodes) }
      ∧ (∀ n, n ≠ p.name → (L.foldl (initStep m p) st).pstate n = st.pstate n)
      ∧ akeys (L.foldl (initStep m p) st).pstates = akeys st.pstates
      ∧ (L.foldl (initStep m p) st).counter = st.counter := by
  intro L
  induction L with
  | nil =>
    intro st hmem
    exact ⟨rfl, fun n _ => rfl, rfl, rfl⟩
  | cons t L ihl =>
    intro st hmem
    have hself : (initStep m p st t).pstate p.name
        = { st.pstate p.name with
            subj_nodes := aupd t.2.2
              (if m.is_group_model && hasSubj p then
                SubjCell.arr (List.replicate (numSubjs m) none)
              else SubjCell.single none)
              (st.pstate p.name).subj_nodes } := by
      unfold initStep
      exact pstate_setP_self _ _ _
    have hones : ∀ n, n ≠ p.name → (initStep m p st t).pstate n = st.pstate n := by
      intro n hn
      unfold initStep
      exact pstate_setP_ne _ _ _ _ (Ne.symm hn)
    have hkeys1 : akeys (initStep m p st t).pstates = akeys st.pstates := by
      unfold initStep
      exact setP_akeys _ _ _ hmem
    have hcnt1 : (initStep m p st t).counter = st.counter := rfl
    obtain ⟨h1, h2, h3, h4⟩ := ihl (initStep m p st t) (by rw [hkeys1]; exact hmem)
    refine ⟨?_, ?_, ?_, ?_⟩
    · rw [List.foldl_cons, h1, hself, List.map_cons, aupdAll_cons]
    · intro n hn
      rw [List.foldl_cons, h2 n hn]
      exact hones n hn
    · rw [List.foldl_cons, h3]
      exact hkeys1
    · rw [List.foldl_cons, h4]
      exact hcnt1

/-- `_set_bottom_nodes(param, init=True)` resets the subject dictionary of
a bottom template to one placeholder cell per partition tag, in partition
order: an all-None slot array per subject for a grouped model, a single
None for an ungrouped one. -/
theorem setBottomNodes_init_summary (m : Model) (p : HNodeT) (st : MState)
    (hb : p.is_bottom_node = true)
    (hkeys : akeys ((st.pstate p.name).subj_nodes) = [] ∨
             akeys ((st.pstate p.name).subj_nodes) = planSubjKeys m p)
    (hmem : p.name ∈ akeys st.pstates) :
    (setBottomNodes m p true st).pstate p.name
      = { st.pstate p.name with
          subj_nodes := (partitionTags m).map (fun t => (t, initCellB m)) }
    ∧ (∀ n, n ≠ p.name → (setBottomNodes m p true st).pstate n = st.pstate n)
    ∧ akeys (setBottomNodes m p true st).pstates = akeys st.pstates
    ∧ (setBottomNodes m p true st).counter = st.counter := by
  rw [setBottomNodes_true_eq]
  obtain ⟨h1, h2, h3, h4⟩ := initFold m p (getDataDepend m st) st hmem
  have hcell : (if m.is_group_model && hasSubj p then
      SubjCell.arr (List.replicate (numSubjs m) none)
    else SubjCell.single none) = initCellB m := by
    simp [initCellB, hasSubj, hb]
  have hplan : planSubjKeys m p = partitionTags m := by
    unfold planSubjKeys
    rw [hb]
    rfl
  have hwrites : (getDataDepend m st).map (fun t => (t.2.2, initCellB m))
      = (partitionTags m).map (fun t => (t, initCellB m)) := by
    have hp := getDataDepend_pure m st
    calc (getDataDepend m st).map (fun t => (t.2.2, initCellB m))
        = ((getDataDepend m st).map (fun t => (t.1, t.2.2))).map
            (fun q => (q.2, initCellB m)) := by
          rw [List.map_map]
          rfl
      _ = (partitionsP m).map (fun q => (q.2, initCellB m)) := by rw [hp]
      _ = ((partitionsP m).map (fun q => q.2)).map (fun t => (t, initCellB m)) := by
          rw [List.map_map]
          rfl
      _ = (partitionTags m).map (fun t => (t, initCellB m)) := rfl
  have hwfst : ((partitionTags m).map (fun t => (t, initCellB m))).map Prod.fst
      = partitionTags m := by
    rw [List.map_map]
    exact List.map_id _
  refine ⟨?_, h2, h3, h4⟩
  rw [h1]
  simp only [hcell]
  rw [hwrites, aupdAll_reset _ _ ?_ ?_]
  · rw [hwfst]
    rcases hkeys with h | h
    · exact Or.inl h
    · rw [hplan] at h
      exact Or.inr h
  · rw [hwfst]
    exact partitionTags_nodup m

/-- The phase-2 pass: every included bottom template gets its placeholder
dictionary; everything else, including the counter, is untouched. -/
theorem phase2_fold (m : Model) : ∀ (PL : List HNodeT) (st : MState),
    ((PL.map (fun p => p.name)).Nodup) →
    (∀ p ∈ PL, p.name ∈ akeys st.pstates) →
    (∀ p ∈ PL, p.is_bottom_node = true →
        akeys ((st.pstate p.name).subj_nodes) = [] ∨
        akeys ((st.pstate p.name).subj_nodes) = planSubjKeys m p) →
    (∀ p ∈ PL, p.is_bottom_node = true →
        (PL.foldl (phase2Step m) st).pstate p.name
          = { st.pstate p.name with
              subj_nodes := (partitionTags m).map (fun t => (t, initCellB m)) })
    ∧ (∀ n, (∀ p ∈ PL, p.is_bottom_node = true → n ≠ p.name) →
        (PL.foldl (phase2Step m) st).pstate n = st.pstate n)
    ∧ akeys (PL.foldl (phase2Step m) st).pstates = akeys st.pstates
    ∧ (PL.foldl (phase2Step m) st).counter = st.counter := by
  intro PL
  induction PL with
  | nil =>
    intro st _ _ _
    exact ⟨by simp, fun n _ => rfl, rfl, rfl⟩
  | cons p PL ih =>
    intro st hnd hmem hsub
    simp only [List.map_cons, List.nodup_cons] at hnd
    by_cases hb : p.is_bottom_node = true
    · have hstep : phase2Step m st p = setBottomNodes m p true st := by
        unfold phase2Step
        rw [if_pos hb]
      obtain ⟨hs1, hs2, hs3, hs4⟩ := setBottomNodes_init_summary m p st hb
        (hsub p (List.mem_cons_self _ _) hb) (hmem p (List.mem_cons_self _ _))
      rw [← hstep] at hs1 hs2 hs3 hs4
      obtain ⟨ha, hfr, hk, hc⟩ := ih (phase2Step m st p)
        hnd.2
        (fun q hq => by rw [hs3]; exact hmem q (List.mem_cons_of_mem _ hq))
        (fun q hq hqb => by
          rw [hs2 q.name (fun he => hnd.1 (he ▸ List.mem_map_of_mem _ hq))]
          exact hsub q (List.mem_cons_of_mem _ hq) hqb)
      refine ⟨?_, ?_, ?_, ?_⟩
      · intro q hq hqb
        rcases List.mem_cons.mp hq with heq | hq'
        · subst heq
          rw [List.foldl_cons,
            hfr q.name (fun r hr hrb he => hnd.1 (he ▸ List.mem_map_of_mem _ hr))]
          exact hs1
        · rw [List.foldl_cons]
          have hres := ha q hq' hqb
          rw [hs2 q.name (fun he => hnd.1 (he ▸ List.mem_map_of_mem _ hq'))] at hres
          exact hres
      · intro n hn
        rw [List.foldl_cons,
          hfr n (fun q hq hqb => hn q (List.mem_cons_of_mem _ hq) hqb)]
        exact hs2 n (hn p (List.mem_cons_self _ _) hb)
      · rw [List.foldl_cons, hk]
        exact hs3
      · rw [List.foldl_cons, hc]
        exact hs4
    · have hstep : phase2Step m st p = st := by
        unfold phase2Step
        rw [if_neg hb]
      obtain ⟨ha, hfr, hk, hc⟩ := ih st hnd.2
        (fun q hq => hmem q (List.mem_cons_of_mem _ hq))
        (fun q hq hqb => hsub q (List.mem_cons_of_mem _ hq) hqb)
      refine ⟨?_, ?_, ?_, ?_⟩
      · intro q hq hqb
        rcases List.mem_cons.mp hq with rfl | hq'
        · rw [hqb] at hb
          exact absurd rfl hb
        · rw [List.foldl_cons, hstep]
          exact ha q hq' hqb
      · intro n hn
        rw [List.foldl_cons, hstep]
        exact hfr n (fun q hq hqb => hn q (List.mem_cons_of_mem _ hq) hqb)
      · rw [List.foldl_cons, hstep]
        exact hk
      · rw [List.foldl_cons, hstep]
        exact hc
/-! ### Phase 3: bottom node creation -/

/-- With every included template holding exactly its planned subject keys,
the `has_key` branch decision of `_create_bottom_node` is the planned
resolution pattern. -/
theorem resolveBranches_plan (m : Model) (st : MState) (tag : Tag)
    (hkp : KeysPlan m st) :
    resolveBranches m st tag = resolvedPlanP m tag := by
  unfold resolveBranches resolvedPlanP
  apply List.map_congr_left
  intro sp hsp
  have hkeys := hkp sp hsp
  have hval : (aget ((st.pstate sp.name).subj_nodes) tag).isSome
      = decide (tag ∈ planSubjKeys m sp) := by
    by_cases hmem : tag ∈ planSubjKeys m sp
    · rw [decide_eq_true hmem]
      exact (aget_isSome_iff_mem_akeys _ _).mpr (by rw [hkeys]; exact hmem)
    · rw [decide_eq_false hmem]
      have : ¬(aget ((st.pstate sp.name).subj_nodes) tag).isSome = true := by
        rw [aget_isSome_iff_mem_akeys, hkeys]
        exact hmem
      exact Bool.of_not_eq_true this
  rw [hval]

/-- A `bottomSubjStep` never changes any dictionary key set. -/
theorem bottomSubjStep_keysplan (m : Model) (p : HNodeT) (dsl : List Row) (tag : Tag)
    (st : MState) (q : Nat × Int) (slots : List (Option SubjNode))
    (hcell : aget ((st.pstate p.name).subj_nodes) tag = some (SubjCell.arr slots))
    (hkp : KeysPlan m st) :
    KeysPlan m (bottomSubjStep m p dsl tag st q) := by
  intro sp hsp
  have htagmem : tag ∈ akeys ((st.pstate p.name).subj_nodes) := by
    rw [← aget_isSome_iff_mem_akeys, hcell]
    rfl
  unfold bottomSubjStep
  by_cases hqe : (dsl.filter (fun r => getCol r "subj_idx" = q.2)).isEmpty
  · rw [if_pos hqe]
    exact hkp sp hsp
  · rw [if_neg hqe]
    by_cases hname : sp.name = p.name
    · rw [hname, pstate_counter, pstate_setP_self]
      show akeys (aupd tag _ ((st.pstate p.name).subj_nodes)) = _
      rw [akeys_aupd_mem _ _ _ htagmem, ← hname]
      exact hkp sp hsp
    · rw [pstate_counter, pstate_setP_ne _ _ _ _ (Ne.symm hname)]
      exact hkp sp hsp

/-- The per-subject loop of `_create_bottom_node`, with the resolution
pattern of every created node tracked: the loop fills exactly the slots of
subjects with rows in the partition slice, each filled slot holding the
planned resolution pattern, and leaves every other dictionary untouched. -/
theorem bottomFoldPlan (m : Model) (p : HNodeT) (dsl : List Row) (tag : Tag) :
    ∀ (L : List (Nat × Int)) (st : MState) (slots : List (Option SubjNode)),
      aget ((st.pstate p.name).subj_nodes) tag = some (SubjCell.arr slots) →
      (∀ q ∈ L, q.1 < slots.length) →
      ((L.map Prod.fst).Nodup) →
      KeysPlan m st →
      p.name ∈ akeys st.pstates →
      ∃ slots1,
        (L.foldl (bottomSubjStep m p dsl tag) st).pstate p.name
          = { st.pstate p.name with
              subj_nodes := aupd tag (SubjCell.arr slots1)
                ((st.pstate p.name).subj_nodes) }
        ∧ slots1.length = slots.length
        ∧ (∀ j, j ∉ L.map Prod.fst → slots1[j]? = slots[j]?)
        ∧ (∀ q ∈ L,
            if (dsl.filter (fun r => getCol r "subj_idx" = q.2)).isEmpty
            then slots1[q.1]? = slots[q.1]?
            else ∃ nd, slots1[q.1]? = some (some nd)
              ∧ nd.resolved = resolvedPlanP m tag)
        ∧ (∀ n, n ≠ p.name →
            (L.foldl (bottomSubjStep m p dsl tag) st).pstate n = st.pstate n)
        ∧ akeys (L.foldl (bottomSubjStep m p dsl tag) st).pstates = akeys st.pstates
        ∧ KeysPlan m (L.foldl (bottomSubjStep m p dsl tag) st) := by
  intro L
  induction L with
  | nil =>
    intro st slots hcell hrange hnd hkp hmem
    refine ⟨slots, ?_, rfl, fun j _ => rfl, by simp, fun n _ => rfl, rfl, hkp⟩
    rw [aupd_self_eq _ _ _ hcell]
    rfl
  | cons q T ih =>
    intro st slots hcell hrange hnd hkp hmem
    simp only [List.map_cons, List.nodup_cons] at hnd
    obtain ⟨hq_notin, hnd'⟩ := hnd
    by_cases hqe : (dsl.filter (fun r => getCol r "subj_idx" = q.2)).isEmpty
    · have hstep : bottomSubjStep m p dsl tag st q = st := by
        unfold bottomSubjStep
        rw [if_pos hqe]
      rw [List.foldl_cons, hstep]
      obtain ⟨slots1, h1, hlen, hunt, hfor, hoth, hak, hkp1⟩ :=
        ih st slots hcell (fun r hr => hrange r (List.mem_cons_of_mem q hr)) hnd' hkp hmem
      refine ⟨slots1, h1, hlen, ?_, ?_, hoth, hak, hkp1⟩
      · intro j hj
        exact hunt j (fun hmemj => hj (List.mem_cons_of_mem _ hmemj))
      · intro r hr
        rcases List.mem_cons.mp hr with heq | hr'
        · subst heq
          rw [if_pos hqe]
          exact hunt r.1 hq_notin
        · exact hfor r hr'
    · have hrangeq : q.1 < slots.length := hrange q (List.mem_cons_self q T)
      have hstep : bottomSubjStep m p dsl tag st q
          = { st.setP p.name
                { st.pstate p.name with
                  subj_nodes := aupd tag (SubjCell.arr (slots.set q.1
                      (some { id := st.counter, resolved := resolveBranches m st tag })))
                    ((st.pstate p.name).subj_nodes) } with
              counter := st.counter + 1 } := by
        unfold bottomSubjStep
        rw [if_neg hqe]
        simp only [hcell, Option.getD_some]
      have htagmem : tag ∈ akeys ((st.pstate p.name).subj_nodes) := by
        rw [← aget_isSome_iff_mem_akeys, hcell]
        rfl
      have hkp' : KeysPlan m (bottomSubjStep m p dsl tag st q) :=
        bottomSubjStep_keysplan m p dsl tag st q slots hcell hkp
      rw [List.foldl_cons, hstep]
      have hcell' : aget ((({ st.setP p.name
            { st.pstate p.name with
              subj_nodes := aupd tag (SubjCell.arr (slots.set q.1
                  (some { id := st.counter, resolved := resolveBranches m st tag })))
                ((st.pstate p.name).subj_nodes) } with
          counter := st.counter + 1 } : MState).pstate p.name).subj_nodes) tag
          = some (SubjCell.arr (slots.set q.1
              (some { id := st.counter, resolved := resolveBranches m st tag }))) := by
        rw [pstate_counter, pstate_setP_self]
        exact aget_aupd_self _ _ _
      have hkp'' : KeysPlan m ({ st.setP p.name
            { st.pstate p.name with
              subj_nodes := aupd tag (SubjCell.arr (slots.set q.1
                  (some { id := st.counter, resolved := resolveBranches m st tag })))
                ((st.pstate p.name).subj_nodes) } with
          counter := st.counter + 1 } : MState) := by
        rw [← hstep]
        exact hkp'
      have hmem'' : p.name ∈ akeys ({ st.setP p.name
            { st.pstate p.name with
              subj_nodes := aupd tag (SubjCell.arr (slots.set q.1
                  (some { id := st.counter, resolved := resolveBranches m st tag })))
                ((st.pstate p.name).subj_nodes) } with
          counter := st.counter + 1 } : MState).pstates := by
        show p.name ∈ akeys (aupd p.name _ st.pstates)
        rw [akeys_aupd_mem _ _ _ hmem]
        exact hmem
      obtain ⟨slots1, h1, hlen, hunt, hfor, hoth, hak, hkp1⟩ :=
        ih _ (slots.set q.1 (some { id := st.counter, resolved := resolveBranches m st tag }))
          hcell'
          (fun r hr => by
            rw [List.length_set]
            exact hrange r (List.mem_cons_of_mem q hr))
          hnd' hkp'' hmem''
      refine ⟨slots1, ?_, by rw [hlen, List.length_set], ?_, ?_, ?_, ?_, hkp1⟩
      · rw [h1, pstate_counter, pstate_setP_self]
        show ({ st.pstate p.name with
            subj_nodes := aupd tag (SubjCell.arr slots1)
              (aupd tag (SubjCell.arr (slots.set q.1
                (some { id := st.counter, resolved := resolveBranches m st tag })))
                ((st.pstate p.name).subj_nodes)) } : PState) = _
        rw [aupd_aupd_self]
      · intro j hj
        simp only [List.map_cons, List.mem_cons] at hj
        push_neg at hj
        rw [hunt j hj.2, List.getElem?_set_ne (Ne.symm hj.1)]
      · intro r hr
        rcases List.mem_cons.mp hr with heq | hr'
        · subst heq
          rw [if_neg hqe]
          refine ⟨{ id := st.counter, resolved := resolveBranches m st tag }, ?_, ?_⟩
          · rw [hunt r.1 hq_notin, List.getElem?_set_self hrangeq]
          · exact resolveBranches_plan m st tag hkp
        · have hthis := hfor r hr'
          by_cases hre : (dsl.filter (fun rr => getCol rr "subj_idx" = r.2)).isEmpty
          · rw [if_pos hre] at hthis ⊢
            rw [hthis]
            have hne : q.1 ≠ r.1 := by
              intro hcontra
              exact hq_notin (hcontra ▸ List.mem_map_of_mem Prod.fst hr')
            exact List.getElem?_set_ne hne
          · rw [if_neg hre] at hthis ⊢
            exact hthis
      · intro n hn
        rw [hoth n hn, pstate_counter, pstate_setP_ne _ _ _ _ (Ne.symm hn)]
      · rw [hak]
        show akeys (aupd p.name _ st.pstates) = _
        rw [akeys_aupd_mem _ _ _ hmem]
/-- `_create_bottom_node` for one partition: the tag's placeholder cell is
replaced by a cell whose topology is the planned one - per-subject fills
with planned resolution patterns (grouped), or a single node with the
planned pattern (ungrouped).  Nothing else changes. -/
theorem createBottomNode_summary (m : Model) (p : HNodeT) (slice : List Row)
    (params : List (String × PVal)) (tag : Tag) (st : MState)
    (hkp : KeysPlan m st) (hmem : p.name ∈ akeys st.pstates)
    (hcell : aget ((st.pstate p.name).subj_nodes) tag = some (initCellB m)) :
    ∃ cell1 : SubjCell,
      (createBottomNode m p slice params tag st).pstate p.name
        = { st.pstate p.name with
            subj_nodes := aupd tag cell1 ((st.pstate p.name).subj_nodes) }
      ∧ cell1.topo = planCellB m slice tag
      ∧ (∀ n, n ≠ p.name →
          (createBottomNode m p slice params tag st).pstate n = st.pstate n)
      ∧ akeys (createBottomNode m p slice params tag st).pstates = akeys st.pstates
      ∧ KeysPlan m (createBottomNode m p slice params tag st) := by
  by_cases hgm : m.is_group_model = true
  · have hic : initCellB m = SubjCell.arr (List.replicate (numSubjs m) none) := by
      unfold initCellB
      rw [if_pos hgm]
    rw [hic] at hcell
    have hbody : createBottomNode m p slice params tag st
        = ((subjsOf m).enum).foldl (bottomSubjStep m p slice tag) st := by
      unfold createBottomNode
      rw [if_pos hgm]
    have hrange : ∀ q ∈ (subjsOf m).enum,
        q.1 < (List.replicate (numSubjs m) (none : Option SubjNode)).length := by
      intro q hq
      rw [List.length_replicate]
      have hmm : q.1 ∈ List.map Prod.fst (subjsOf m).enum := List.mem_map_of_mem _ hq
      rw [List.enum_map_fst] at hmm
      exact List.mem_range.mp hmm
    have hndm : ((List.map Prod.fst (subjsOf m).enum)).Nodup := by
      rw [List.enum_map_fst]
      exact List.nodup_range _
    obtain ⟨slots1, h1, hlen, hunt, hfor, hoth, hak, hkp1⟩ :=
      bottomFoldPlan m p slice tag (subjsOf m).enum st _ hcell hrange hndm hkp hmem
    rw [List.length_replicate] at hlen
    refine ⟨SubjCell.arr slots1, ?_, ?_, ?_, ?_, ?_⟩
    · rw [hbody]
      exact h1
    · show CellTopo.arr (slots1.map (Option.map SubjNode.resolved)) = _
      unfold planCellB
      rw [if_pos hgm]
      congr 1
      apply List.ext_getElem?
      intro i
      rw [List.getElem?_map, List.getElem?_map]
      by_cases hi : i < numSubjs m
      · have hqmem : (i, (subjsOf m)[i]) ∈ (subjsOf m).enum := by
          have h' : i < (subjsOf m).enum.length := by
            rw [List.enum_length]
            exact hi
          have hm2 := List.getElem_mem h'
          rwa [List.getElem_enum] at hm2
        have hq := hfor (i, (subjsOf m)[i]) hqmem
        have hsub : (subjsOf m)[i]? = some ((subjsOf m)[i]) :=
          List.getElem?_eq_getElem hi
        rw [hsub]
        by_cases he : (slice.filter (fun r =>
            getCol r "subj_idx" = (subjsOf m)[i])).isEmpty
        · rw [if_pos he] at hq
          rw [hq, List.getElem?_replicate, if_pos hi]
          simp only [Option.map_some', Option.map_none']
          rw [if_pos he]
        · rw [if_neg he] at hq
          obtain ⟨nd, hnd1, hnd2⟩ := hq
          rw [hnd1]
          simp only [Option.map_some']
          rw [if_neg he, hnd2]
      · have hge : slots1.length ≤ i := by
          rw [hlen]
          exact Nat.le_of_not_lt hi
        have hge2 : (subjsOf m).length ≤ i := Nat.le_of_not_lt hi
        rw [List.getElem?_eq_none hge, List.getElem?_eq_none hge2]
        rfl
    · intro n hn
      rw [hbody]
      exact hoth n hn
    · rw [hbody]
      exact hak
    · rw [hbody]
      exact hkp1
  · have hbody : createBottomNode m p slice params tag st
        = { st.setP p.name
              { st.pstate p.name with
                subj_nodes := aupd tag (SubjCell.single
                    (some { id := st.counter, resolved := resolveBranches m st tag }))
                  ((st.pstate p.name).subj_nodes) } with
            counter := st.counter + 1 } := by
      unfold createBottomNode
      rw [if_neg hgm]
    have htagmem : tag ∈ akeys ((st.pstate p.name).subj_nodes) := by
      rw [← aget_isSome_iff_mem_akeys, hcell]
      rfl
    refine ⟨SubjCell.single
        (some { id := st.counter, resolved := resolveBranches m st tag }),
      ?_, ?_, ?_, ?_, ?_⟩
    · rw [hbody, pstate_counter, pstate_setP_self]
    · show CellTopo.single (some (resolveBranches m st tag)) = _
      unfold planCellB
      rw [if_neg hgm, resolveBranches_plan m st tag hkp]
    · intro n hn
      rw [hbody, pstate_counter, pstate_setP_ne _ _ _ _ (Ne.symm hn)]
    · rw [hbody]
      show akeys (aupd p.name _ st.pstates) = _
      rw [akeys_aupd_mem _ _ _ hmem]
    · intro sp hsp
      rw [hbody]
      by_cases hname : sp.name = p.name
      · rw [hname, pstate_counter, pstate_setP_self]
        show akeys (aupd tag _ ((st.pstate p.name).subj_nodes)) = _
        rw [akeys_aupd_mem _ _ _ htagmem, ← hname]
        exact hkp sp hsp
      · rw [pstate_counter, pstate_setP_ne _ _ _ _ (Ne.symm hname)]
        exact hkp sp hsp

/-- The bottom-creation fold over all partitions of one bottom template:
at topology level, one planned-cell write per partition tag. -/
theorem createFold (m : Model) (p : HNodeT) :
    ∀ (L : List (List Row × Tag)) (st : MState),
      ((L.map (fun q => q.2)).Nodup) →
      KeysPlan m st →
      p.name ∈ akeys st.pstates →
      (∀ q ∈ L, aget ((st.pstate p.name).subj_nodes) q.2 = some (initCellB m)) →
      sT ((L.foldl (fun st q => createBottomNode m p q.1 [] q.2 st) st).pstate p.name)
          = aupdAll (L.map (fun q => (q.2, planCellB m q.1 q.2)))
              (sT (st.pstate p.name))
      ∧ ((L.foldl (fun st q => createBottomNode m p q.1 [] q.2 st) st).pstate
            p.name).group_nodes = (st.pstate p.name).group_nodes
      ∧ ((L.foldl (fun st q => createBottomNode m p q.1 [] q.2 st) st).pstate
            p.name).var_nodes = (st.pstate p.name).var_nodes
      ∧ (∀ n, n ≠ p.name →
          (L.foldl (fun st q => createBottomNode m p q.1 [] q.2 st) st).pstate n
            = st.pstate n)
      ∧ akeys (L.foldl (fun st q => createBottomNode m p q.1 [] q.2 st) st).pstates
          = akeys st.pstates
      ∧ KeysPlan m (L.foldl (fun st q => createBottomNode m p q.1 [] q.2 st) st) := by
  intro L
  induction L with
  | nil =>
    intro st _ hkp _ _
    exact ⟨rfl, rfl, rfl, fun n _ => rfl, rfl, hkp⟩
  | cons q T ih =>
    intro st hnd hkp hmem hinit
    simp only [List.map_cons, List.nodup_cons] at hnd
    obtain ⟨cell1, hrec, htopo, hoth1, hak1, hkp1⟩ :=
      createBottomNode_summary m p q.1 [] q.2 st hkp hmem
        (hinit q (List.mem_cons_self _ _))
    obtain ⟨hsT, hgr, hvr, hoth, hak, hkp2⟩ :=
      ih (createBottomNode m p q.1 [] q.2 st)
        hnd.2 hkp1 (by rw [hak1]; exact hmem)
        (fun r hr => by
          rw [hrec]
          show aget (aupd q.2 cell1 ((st.pstate p.name).subj_nodes)) r.2 = _
          rw [aget_aupd_ne _ _ _ _
            (fun he => hnd.1 (by rw [he]; exact List.mem_map_of_mem _ hr))]
          exact hinit r (List.mem_cons_of_mem _ hr))
    refine ⟨?_, ?_, ?_, ?_, ?_, ?_⟩
    · rw [List.foldl_cons, hsT, hrec, List.map_cons, aupdAll_cons]
      show aupdAll _ ((aupd q.2 cell1 ((st.pstate p.name).subj_nodes)).map
          (fun kv => (kv.1, kv.2.topo))) = _
      rw [map_snd_aupd, htopo]
      rfl
    · rw [List.foldl_cons, hgr, hrec]
    · rw [List.foldl_cons, hvr, hrec]
    · intro n hn
      rw [List.foldl_cons, hoth n hn]
      exact hoth1 n hn
    · rw [List.foldl_cons, hak]
      exact hak1
    · rw [List.foldl_cons]
      exact hkp2

theorem setBottomNodes_false_eq (m : Model) (p : HNodeT) (st : MState) :
    setBottomNodes m p false st
      = (getDataDepend m st).foldl
          (fun st t => createBottomNode m p t.1 t.2.1 t.2.2 st) st := rfl

/-- `_set_bottom_nodes(param, init=False)` turns the placeholder subject
dictionary of a bottom template into the planned one: one cell per
partition tag, in partition order, with the planned per-subject fills and
resolution patterns. -/
theorem setBottomNodes_create_summary (m : Model) (p : HNodeT) (st : MState)
    (hkp : KeysPlan m st) (hmem : p.name ∈ akeys st.pstates)
    (hsubj : (st.pstate p.name).subj_nodes
      = (partitionTags m).map (fun t => (t, initCellB m))) :
    sT ((setBottomNodes m p false st).pstate p.name)
      = (partitionsP m).map (fun q => (q.2, planCellB m q.1 q.2))
    ∧ ((setBottomNodes m p false st).pstate p.name).group_nodes
      = (st.pstate p.name).group_nodes
    ∧ ((setBottomNodes m p false st).pstate p.name).var_nodes
      = (st.pstate p.name).var_nodes
    ∧ (∀ n, n ≠ p.name → (setBottomNodes m p false st).pstate n = st.pstate n)
    ∧ akeys (setBottomNodes m p false st).pstates = akeys st.pstates
    ∧ KeysPlan m (setBottomNodes m p false st) := by
  have hfac : setBottomNodes m p false st
      = (partitionsP m).foldl (fun st q => createBottomNode m p q.1 [] q.2 st) st := by
    rw [setBottomNodes_false_eq, ← getDataDepend_pure m st, List.foldl_map]
    rfl
  obtain ⟨hsT, hgr, hvr, hoth, hak, hkp1⟩ := createFold m p (partitionsP m) st
    (partitionsP_tags_nodup m) hkp hmem
    (fun q hq => by
      rw [hsubj]
      exact aget_map_key _ _ _ (List.mem_map_of_mem _ hq))
  rw [hfac]
  refine ⟨?_, hgr, hvr, hoth, hak, hkp1⟩
  rw [hsT]
  have hsTps : sT (st.pstate p.name)
      = (partitionTags m).map (fun t => (t, (initCellB m).topo)) := by
    unfold sT
    rw [hsubj, List.map_map]
    rfl
  rw [hsTps]
  have h2 : ((partitionsP m).map (fun q => (q.2, planCellB m q.1 q.2))).map Prod.fst
      = partitionTags m := by
    rw [List.map_map]
    rfl
  apply aupdAll_keys_exact
  · rw [h2]
    unfold akeys
    rw [List.map_map]
    exact List.map_id _
  · rw [h2]
    exact partitionTags_nodup m

/-- The phase-3 pass: every included bottom template reaches its planned
subject topology; group and dispersion dictionaries and all other
templates are untouched. -/
theorem phase3_fold (m : Model) : ∀ (PL : List HNodeT) (st : MState),
    ((PL.map (fun p => p.name)).Nodup) →
    (∀ p ∈ PL, p.name ∈ akeys st.pstates) →
    KeysPlan m st →
    (∀ p ∈ PL, p.is_bottom_node = true →
      (st.pstate p.name).subj_nodes
        = (partitionTags m).map (fun t => (t, initCellB m))) →
    (∀ p ∈ PL, p.is_bottom_node = true →
        sT ((PL.foldl (phase3Step m) st).pstate p.name)
          = (partitionsP m).map (fun q => (q.2, planCellB m q.1 q.2))
        ∧ ((PL.foldl (phase3Step m) st).pstate p.name).group_nodes
          = (st.pstate p.name).group_nodes
        ∧ ((PL.foldl (phase3Step m) st).pstate p.name).var_nodes
          = (st.pstate p.name).var_nodes)
    ∧ (∀ n, (∀ p ∈ PL, p.is_bottom_node = true → n ≠ p.name) →
        (PL.foldl (phase3Step m) st).pstate n = st.pstate n)
    ∧ akeys (PL.foldl (phase3Step m) st).pstates = akeys st.pstates := by
  intro PL
  induction PL with
  | nil =>
    intro st _ _ _ _
    exact ⟨by simp, fun n _ => rfl, rfl⟩
  | cons p PL ih =>
    intro st hnd hmem hkp hsubj
    simp only [List.map_cons, List.nodup_cons] at hnd
    by_cases hb : p.is_bottom_node = true
    · have hstep : phase3Step m st p = setBottomNodes m p false st := by
        unfold phase3Step
        rw [if_pos hb]
      obtain ⟨hs1, hs2, hs3, hs4, hs5, hs6⟩ := setBottomNodes_create_summary m p st
        hkp (hmem p (List.mem_cons_self _ _)) (hsubj p (List.mem_cons_self _ _) hb)
      rw [← hstep] at hs1 hs2 hs3 hs4 hs5 hs6
      obtain ⟨ha, hfr, hk⟩ := ih (phase3Step m st p)
        hnd.2
        (fun q hq => by rw [hs5]; exact hmem q (List.mem_cons_of_mem _ hq))
        hs6
        (fun q hq hqb => by
          rw [hs4 q.name (fun he => hnd.1 (he ▸ List.mem_map_of_mem _ hq))]
          exact hsubj q (List.mem_cons_of_mem _ hq) hqb)
      refine ⟨?_, ?_, ?_⟩
      · intro q hq hqb
        rcases List.mem_cons.mp hq with heq | hq'
        · subst heq
          rw [List.foldl_cons,
            hfr q.name (fun r hr hrb he => hnd.1 (he ▸ List.mem_map_of_mem _ hr))]
          exact ⟨hs1, hs2, hs3⟩
        · have hres := ha q hq' hqb
          have hne : q.name ≠ p.name :=
            fun he => hnd.1 (he ▸ List.mem_map_of_mem _ hq')
          rw [hs4 q.name hne] at hres
          rw [List.foldl_cons]
          exact hres
      · intro n hn
        rw [List.foldl_cons,
          hfr n (fun q hq hqb => hn q (List.mem_cons_of_mem _ hq) hqb)]
        exact hs4 n (hn p (List.mem_cons_self _ _) hb)
      · rw [List.foldl_cons, hk]
        exact hs5
    · have hstep : phase3Step m st p = st := by
        unfold phase3Step
        rw [if_neg hb]
      obtain ⟨ha, hfr, hk⟩ := ih st hnd.2
        (fun q hq => hmem q (List.mem_cons_of_mem _ hq))
        hkp
        (fun q hq hqb => hsubj q (List.mem_cons_of_mem _ hq) hqb)
      refine ⟨?_, ?_, ?_⟩
      · intro q hq hqb
        rcases List.mem_cons.mp hq with heq | hq'
        · subst heq
          rw [hqb] at hb
          exact absurd rfl hb
        · rw [List.foldl_cons, hstep]
          exact ha q hq' hqb
      · intro n hn
        rw [List.foldl_cons, hstep]
        exact hfr n (fun q hq hqb => hn q (List.mem_cons_of_mem _ hq) hqb)
      · rw [List.foldl_cons, hstep]
        exact hk
/-! ### The whole `create_nodes` run -/

theorem akeys_map_pair {κ α : Type} [DecidableEq κ] (ks : List κ) (c : α) :
    akeys (ks.map (fun k => (k, c))) = ks := by
  unfold akeys
  rw [List.map_map]
  exact List.map_id _

theorem akeys_map_key_of {κ α β2 : Type} [DecidableEq κ] (l : List β2)
    (key : β2 → κ) (f : β2 → α) :
    akeys (l.map (fun b => (key b, f b))) = l.map key := by
  unfold akeys
  rw [List.map_map]
  rfl

/-- A planned non-bottom template has exactly its planned key sets. -/
theorem NBDesc_keys (m : Model) (p : HNodeT) (ps : PState)
    (hnb : p.is_bottom_node = false) (h : NBDesc m p ps) :
    akeys ps.group_nodes = planGroupKeys m p
    ∧ akeys ps.var_nodes = planVarKeys m p
    ∧ akeys ps.subj_nodes = planSubjKeys m p := by
  obtain ⟨hg, htier, hnontier, _⟩ := h
  refine ⟨?_, ?_, ?_⟩
  · have h1 : akeys (gT ps) = akeys ps.group_nodes := akeys_map_snd _ _
    rw [← h1, hg]
    have h2 : planGroupKeys m p = depTagsP m p := by
      simp [planGroupKeys, hnb]
    rw [h2]
    exact akeys_map_pair _ _
  · by_cases hU : usesSubjTier m p = true
    · have h1 : akeys (vT ps) = akeys ps.var_nodes := akeys_map_snd _ _
      rw [← h1, (htier hU).1]
      have h2 : planVarKeys m p = depTagsP m p := by
        simp [planVarKeys, hnb, hU]
      rw [h2]
      exact akeys_map_pair _ _
    · have hUf := Bool.of_not_eq_true hU
      have h2 : planVarKeys m p = [] := by
        simp [planVarKeys, hUf]
      rw [(hnontier hUf).1, h2]
      rfl
  · by_cases hU : usesSubjTier m p = true
    · have h1 : akeys (sT ps) = akeys ps.subj_nodes := akeys_map_snd _ _
      rw [← h1, (htier hU).2]
      have h2 : planSubjKeys m p = depTagsP m p := by
        simp [planSubjKeys, hnb, hU]
      rw [h2]
      exact akeys_map_pair _ _
    · have hUf := Bool.of_not_eq_true hU
      have h2 : planSubjKeys m p = [] := by
        simp [planSubjKeys, hnb, hUf]
      rw [(hnontier hUf).2, h2]
      rfl

/-- A planned non-bottom template has exactly its planned topology. -/
theorem NBDesc_topo (m : Model) (p : HNodeT) (ps : PState)
    (hnb : p.is_bottom_node = false) (h : NBDesc m p ps) :
    ps.topo = planPT m p := by
  obtain ⟨hg, htier, hnontier, _⟩ := h
  rw [pstopo_eq]
  unfold planPT
  rw [if_neg (by rw [hnb]; simp)]
  by_cases hU : usesSubjTier m p = true
  · rw [if_pos hU, if_pos hU, hg, (htier hU).1, (htier hU).2]
    rfl
  · have hUf := Bool.of_not_eq_true hU
    have hv : vT ps = [] := by
      unfold vT
      rw [(hnontier hUf).1]
      rfl
    have hs : sT ps = [] := by
      unfold sT
      rw [(hnontier hUf).2]
      rfl
    rw [if_neg hU, if_neg hU, hg, hv, hs]

theorem initState_pstate (m : Model) (n : String) :
    (initState m).pstate n = PState.empty := by
  show ((aget (m.params.map (fun p => (p.name, PState.empty))) n).getD PState.empty)
      = PState.empty
  suffices h : ∀ l : List HNodeT,
      ((aget (l.map (fun p => (p.name, PState.empty))) n).getD PState.empty)
        = PState.empty from h m.params
  intro l
  induction l with
  | nil => rfl
  | cons p t iht =>
    by_cases hp : p.name = n
    · simp [aget, hp]
    · simp only [List.map_cons, aget_cons, hp, if_false]
      exact iht

/-- The state `__init__` leaves is acceptable to `create_nodes`. -/
theorem ready_init (m : Model) : Ready m (initState m) := by
  constructor
  · show akeys (m.params.map (fun p => (p.name, PState.empty))) = _
    unfold akeys
    rw [List.map_map]
    rfl
  · constructor
    · intro p hp
      rw [initState_pstate]
      refine ⟨Or.inl rfl, Or.inl rfl, Or.inl rfl, ?_⟩
      intro x hx
      simp [PState.empty, avals] at hx
    · intro p hp hexc
      exact initState_pstate m p.name

/-- One full `create_nodes` run from any acceptable state: every included
template reaches its planned topology and planned key sets, every other
template is untouched, and the dictionary-of-templates key list is
unchanged. -/
theorem run_master (m : Model) (hnm : (m.params.map (fun p => p.name)).Nodup)
    (st : MState) (hready : Ready m st) :
    (∀ p ∈ m.params,
      ((!p.optional || p.name ∈ m.includes) = true →
        ((createNodesPhases m st).pstate p.name).topo = planPT m p
        ∧ akeys ((createNodesPhases m st).pstate p.name).group_nodes = planGroupKeys m p
        ∧ akeys ((createNodesPhases m st).pstate p.name).var_nodes = planVarKeys m p
        ∧ akeys ((createNodesPhases m st).pstate p.name).subj_nodes = planSubjKeys m p
        ∧ VarInv p ((createNodesPhases m st).pstate p.name))
      ∧ ((!p.optional || p.name ∈ m.includes) = false →
        (createNodesPhases m st).pstate p.name = st.pstate p.name))
    ∧ akeys (createNodesPhases m st).pstates = akeys st.pstates := by
  rw [createNodesPhases_eq]
  have hinj : ∀ p ∈ m.params, ∀ q ∈ m.params, p.name = q.name → p = q := by
    intro p hp q hq h
    exact List.inj_on_of_nodup_map hnm hp hq h
  have hPLsub : ∀ p ∈ paramsInclude m, p ∈ m.params := by
    intro p hp
    exact (List.mem_filter.mp hp).1
  have hPLnd : ((paramsInclude m).map (fun p => p.name)).Nodup := by
    have hsub : List.Sublist (paramsInclude m) m.params := List.filter_sublist _
    exact hnm.sublist (hsub.map (fun p => p.name))
  have hmem0 : ∀ p ∈ paramsInclude m, p.name ∈ akeys st.pstates := by
    intro p hp
    rw [hready.1]
    exact List.mem_map_of_mem _ (hPLsub p hp)
  obtain ⟨h1a, h1fr, h1k⟩ := phase1_fold m (paramsInclude m) st
    (fun p hp => hready.2.1 p (hPLsub p hp)) hPLnd hmem0
  set st1 := (paramsInclude m).foldl (phase1Step m) st with hst1
  have h1frB : ∀ p ∈ m.params,
      (p.is_bottom_node = true ∨ p ∉ paramsInclude m) →
      st1.pstate p.name = st.pstate p.name := by
    intro p hp hcase
    apply h1fr
    intro q hq hqb he
    have heq : p = q := hinj p hp q (hPLsub q hq) he
    subst heq
    rcases hcase with hcb | hnotin
    · rw [hcb] at hqb
      cases hqb
    · exact hnotin hq
  have hmem1 : ∀ p ∈ paramsInclude m, p.name ∈ akeys st1.pstates := by
    intro p hp
    rw [h1k]
    exact hmem0 p hp
  have hsub1 : ∀ p ∈ paramsInclude m, p.is_bottom_node = true →
      akeys ((st1.pstate p.name).subj_nodes) = [] ∨
      akeys ((st1.pstate p.name).subj_nodes) = planSubjKeys m p := by
    intro p hp hb
    rw [h1frB p (hPLsub p hp) (Or.inl hb)]
    exact (hready.2.1 p (hPLsub p hp)).2.2.1
  obtain ⟨h2a, h2fr, h2k, h2c⟩ := phase2_fold m (paramsInclude m) st1 hPLnd hmem1 hsub1
  set st2 := (paramsInclude m).foldl (phase2Step m) st1 with hst2
  have h2frNB : ∀ p ∈ m.params,
      (p.is_bottom_node = false ∨ p ∉ paramsInclude m) →
      st2.pstate p.name = st1.pstate p.name := by
    intro p hp hcase
    apply h2fr
    intro q hq hqb he
    have heq : p = q := hinj p hp q (hPLsub q hq) he
    subst heq
    rcases hcase with hcb | hnotin
    · rw [hcb] at hqb
      cases hqb
    · exact hnotin hq
  have hkp2 : KeysPlan m st2 := by
    intro sp hsp
    by_cases hb : sp.is_bottom_node = true
    · rw [h2a sp hsp hb]
      show akeys ((partitionTags m).map (fun t => (t, initCellB m))) = _
      rw [akeys_map_pair]
      simp [planSubjKeys, hb, partitionTags]
    · have hb' := Bool.of_not_eq_true hb
      rw [h2frNB sp (hPLsub sp hsp) (Or.inl hb')]
      exact (NBDesc_keys m sp _ hb' (h1a sp hsp hb')).2.2
  have hsub2 : ∀ p ∈ paramsInclude m, p.is_bottom_node = true →
      (st2.pstate p.name).subj_nodes
        = (partitionTags m).map (fun t => (t, initCellB m)) := by
    intro p hp hb
    rw [h2a p hp hb]
  obtain ⟨h3a, h3fr, h3k⟩ := phase3_fold m (paramsInclude m) st2 hPLnd
    (fun p hp => by rw [h2k]; exact hmem1 p hp) hkp2 hsub2
  set st3 := (paramsInclude m).foldl (phase3Step m) st2 with hst3
  have h3frNB : ∀ p ∈ m.params,
      (p.is_bottom_node = false ∨ p ∉ paramsInclude m) →
      st3.pstate p.name = st2.pstate p.name := by
    intro p hp hcase
    apply h3fr
    intro q hq hqb he
    have heq : p = q := hinj p hp q (hPLsub q hq) he
    subst heq
    rcases hcase with hcb | hnotin
    · rw [hcb] at hqb
      cases hqb
    · exact hnotin hq
  refine ⟨?_, ?_⟩
  · intro p hp
    constructor
    · intro hinc
      have hpPL : p ∈ paramsInclude m := List.mem_filter.mpr ⟨hp, hinc⟩
      by_cases hb : p.is_bottom_node = true
      · obtain ⟨hsT3, hgr3, hvr3⟩ := h3a p hpPL hb
        have hps2 : st2.pstate p.name
            = { st1.pstate p.name with
                subj_nodes := (partitionTags m).map (fun t => (t, initCellB m)) } :=
          h2a p hpPL hb
        have hps1 : st1.pstate p.name = st.pstate p.name := h1frB p hp (Or.inl hb)
        have hgr0 : (st.pstate p.name).group_nodes = [] := by
          apply eq_nil_of_akeys_nil
          rcases (hready.2.1 p hp).1 with h | h
          · exact h
          · rw [h]
            simp [planGroupKeys, hb]
        have hvr0 : (st.pstate p.name).var_nodes = [] := by
          apply eq_nil_of_akeys_nil
          rcases (hready.2.1 p hp).2.1 with h | h
          · exact h
          · rw [h]
            simp [planVarKeys, hb]
        have hgr : (st3.pstate p.name).group_nodes = [] := by
          rw [hgr3, hps2]
          show (st1.pstate p.name).group_nodes = []
          rw [hps1, hgr0]
        have hvr : (st3.pstate p.name).var_nodes = [] := by
          rw [hvr3, hps2]
          show (st1.pstate p.name).var_nodes = []
          rw [hps1, hvr0]
        refine ⟨?_, ?_, ?_, ?_, ?_⟩
        · rw [pstopo_eq]
          unfold planPT
          rw [if_pos hb]
          have hgT : gT (st3.pstate p.name) = [] := by
            unfold gT
            rw [hgr]
            rfl
          have hvT : vT (st3.pstate p.name) = [] := by
            unfold vT
            rw [hvr]
            rfl
          rw [hgT, hvT, hsT3]
        · rw [hgr]
          simp [planGroupKeys, hb]
        · rw [hvr]
          simp [planVarKeys, hb]
        · have h1 : akeys (sT (st3.pstate p.name))
              = akeys (st3.pstate p.name).subj_nodes := akeys_map_snd _ _
          rw [← h1, hsT3, akeys_map_key_of]
          simp [planSubjKeys, hb]
        · intro x hx
          rw [hvr] at hx
          simp [avals] at hx
      · have hb' := Bool.of_not_eq_true hb
        have hdesc := h1a p hpPL hb'
        have hps2 : st2.pstate p.name = st1.pstate p.name :=
          h2frNB p hp (Or.inl hb')
        have hps3 : st3.pstate p.name = st2.pstate p.name :=
          h3frNB p hp (Or.inl hb')
        rw [hps3, hps2]
        exact ⟨NBDesc_topo m p _ hb' hdesc, (NBDesc_keys m p _ hb' hdesc).1,
          (NBDesc_keys m p _ hb' hdesc).2.1, (NBDesc_keys m p _ hb' hdesc).2.2,
          hdesc.2.2.2⟩
    · intro hexc
      have hnotin : p ∉ paramsInclude m := by
        intro hin
        rw [(List.mem_filter.mp hin).2] at hexc
        cases hexc
      rw [h3frNB p hp (Or.inr hnotin), h2frNB p hp (Or.inr hnotin),
        h1frB p hp (Or.inr hnotin)]
  · rw [h3k, h2k, h1k]
/-- One full run from any acceptable state realizes exactly the planned
topology: the graph shape depends only on the model inputs, not on which
acceptable state (fresh or left by a previous run) the run started from. -/
theorem run_topo (m : Model) (hnm : (m.params.map (fun p => p.name)).Nodup)
    (st : MState) (hready : Ready m st) :
    MState.topo (createNodesPhases m st) = planTopo m := by
  obtain ⟨hper, hkeys⟩ := run_master m hnm st hready
  have hkeys2 : akeys (createNodesPhases m st).pstates
      = m.params.map (fun p => p.name) := by
    rw [hkeys, hready.1]
  have hnd3 : (akeys (createNodesPhases m st).pstates).Nodup := by
    rw [hkeys2]
    exact hnm
  have hlen : (createNodesPhases m st).pstates.length = m.params.length := by
    have h1 : (akeys (createNodesPhases m st).pstates).length
        = (m.params.map (fun p => p.name)).length := by rw [hkeys2]
    rw [List.length_map] at h1
    unfold akeys at h1
    rw [List.length_map] at h1
    exact h1
  unfold MState.topo planTopo
  apply List.ext_getElem?
  intro j
  by_cases hj : j < m.params.length
  · have hjl : j < (createNodesPhases m st).pstates.length := by
      rw [hlen]
      exact hj
    rw [List.getElem?_map, List.getElem?_map,
      List.getElem?_eq_getElem hjl, List.getElem?_eq_getElem hj]
    simp only [Option.map_some']
    have hfst : ((createNodesPhases m st).pstates[j]).1 = (m.params[j]).name := by
      have hcg := congrArg (fun l => l[j]?) hkeys2
      unfold akeys at hcg
      simp only [List.getElem?_map] at hcg
      rw [List.getElem?_eq_getElem hjl, List.getElem?_eq_getElem hj] at hcg
      simp only [Option.map_some'] at hcg
      exact Option.some_injective _ hcg
    have hval : aget (createNodesPhases m st).pstates
        (((createNodesPhases m st).pstates[j]).1)
        = some (((createNodesPhases m st).pstates[j]).2) :=
      aget_of_nodup_getElem _ hnd3 j _ (List.getElem?_eq_getElem hjl)
    have hps : (createNodesPhases m st).pstate ((m.params[j]).name)
        = ((createNodesPhases m st).pstates[j]).2 := by
      unfold MState.pstate
      rw [← hfst, hval]
      rfl
    have hmemj : m.params[j] ∈ m.params := List.getElem_mem hj
    by_cases hinc : (!(m.params[j]).optional || (m.params[j]).name ∈ m.includes) = true
    · have h1 := ((hper (m.params[j]) hmemj).1 hinc).1
      rw [hps] at h1
      rw [if_pos hinc, hfst, h1]
    · have h2 := (hper (m.params[j]) hmemj).2 (Bool.of_not_eq_true hinc)
      rw [hps] at h2
      have h3 := hready.2.2 (m.params[j]) hmemj (Bool.of_not_eq_true hinc)
      rw [if_neg hinc, hfst, h2, h3]
      rfl
  · have hj2 : ¬j < (createNodesPhases m st).pstates.length := by
      rw [hlen]
      exact hj
    rw [List.getElem?_map, List.getElem?_map,
      List.getElem?_eq_none (Nat.le_of_not_lt hj2),
      List.getElem?_eq_none (Nat.le_of_not_lt hj)]
    rfl

/-- A completed run leaves a state the next run accepts. -/
theorem ready_run (m : Model) (hnm : (m.params.map (fun p => p.name)).Nodup)
    (st : MState) (hready : Ready m st) :
    Ready m (createNodesPhases m st) := by
  obtain ⟨hper, hkeys⟩ := run_master m hnm st hready
  refine ⟨?_, ?_, ?_⟩
  · rw [hkeys]
    exact hready.1
  · intro p hp
    by_cases hinc : (!p.optional || p.name ∈ m.includes) = true
    · obtain ⟨_, hgk, hvk, hsk, hvi⟩ := (hper p hp).1 hinc
      exact ⟨Or.inr hgk, Or.inr hvk, Or.inr hsk, hvi⟩
    · rw [(hper p hp).2 (Bool.of_not_eq_true hinc)]
      exact hready.2.1 p hp
  · intro p hp hexc
    rw [(hper p hp).2 hexc]
    exact hready.2.2 p hp hexc

/-! ### Claim C4 -/

/-- C4: calling `create_nodes` twice on an unchanged template set and
dataset yields two graphs with identical topology - the same tags per
parameter and tier, the same per-subject array shapes and fills, and the
same parent-resolution wiring of every bottom node (assuming distinct
template names, as a dictionary of templates requires).  The claim's
second half - that each call rebuilds the full node set rather than
patching the existing graph - is refuted separately: with `share_var`
set, the second call reuses the dispersion node object created by the
first call. -/
theorem C4_amended_idempotent_topology (m : Model)
    (hnm : (m.params.map (fun p => p.name)).Nodup) :
    MState.topo (createNodesPhases m (createNodesPhases m (initState m)))
      = MState.topo (createNodesPhases m (initState m)) := by
  have h0 := ready_init m
  have h1 := run_topo m hnm (initState m) h0
  have h2 := run_topo m hnm (createNodesPhases m (initState m))
    (ready_run m hnm (initState m) h0)
  rw [h1, h2]

/-- A grouped model with one full-tier template that shares its dispersion
node across tags (`share_var`), two subjects, and a dependency column with
two values. -/
def pC4 : HNodeT :=
  { name := "a", group_knode := true, var_knode := true, subj_knode := true,
    share_var := true }

def dataC4 : DataTable :=
  { colnames := ["subj_idx", "c"],
    rows := [[("subj_idx", 0), ("c", 0)], [("subj_idx", 1), ("c", 0)],
      [("subj_idx", 0), ("c", 1)], [("subj_idx", 1), ("c", 1)]] }

def mC4 : Model :=
  { data := dataC4, depends_on := [("a", ["c"])], params := [pC4],
    includes := [], is_group_model := true }

/-- The second `create_nodes` call does not rebuild the full node set: the
first call ends with node counter 7 (nodes 0-6), yet the second call
stores dispersion node 1 - the object created by the first call - in its
dictionary (every node the second call creates has identity at least 7).
The `share_var` reuse branch reads the stale first entry of `var_nodes`
instead of creating a fresh node, refuting the claim's
rebuild-not-patch half. -/
theorem C4_counterexample :
    aget (((createNodesPhases mC4 (createNodesPhases mC4 (initState mC4))).pstate
        "a").var_nodes) (Tag.single [0]) = some (some 1)
    ∧ (createNodesPhases mC4 (initState mC4)).counter = 7 := by
  decide

/-- C4 witness: the topology idempotence at the concrete model `mC4`. -/
theorem C4_witness :
    (mC4.params.map (fun p => p.name)).Nodup
    ∧ MState.topo (createNodesPhases mC4 (createNodesPhases mC4 (initState mC4)))
      = MState.topo (createNodesPhases mC4 (initState mC4)) :=
  ⟨by decide, C4_amended_idempotent_topology mC4 (by decide)⟩

/-! ### Claim C6 -/

/-- C6: after compilation, a non-bottom included parameter with a
dependency entry has exactly one group-dictionary entry per unique value
combination of its dependency column(s) over the full dataset; one
without a dependency entry has exactly the single empty tag (assuming
distinct template names, as a dictionary of templates requires). -/
theorem C6_tag_uniqueness (m : Model)
    (hnm : (m.params.map (fun p => p.name)).Nodup) (p : HNodeT)
    (hp : p ∈ paramsInclude m) (hnb : p.is_bottom_node = false) :
    (∀ cols, aget m.depends_on p.name = some cols →
        akeys (((createNodesPhases m (initState m)).pstate p.name).group_nodes)
          = ((m.data.rows.map (projCols cols)).dedup).map Tag.single
        ∧ (((createNodesPhases m (initState m)).pstate p.name).group_nodes).length
          = ((m.data.rows.map (projCols cols)).dedup).length)
    ∧ (aget m.depends_on p.name = none →
        akeys (((createNodesPhases m (initState m)).pstate p.name).group_nodes)
          = [Tag.empty]) := by
  obtain ⟨hper, _⟩ := run_master m hnm (initState m) (ready_init m)
  obtain ⟨hpp, hflag⟩ := List.mem_filter.mp hp
  obtain ⟨_, hgk, _, _, _⟩ := (hper p hpp).1 hflag
  have hgk2 : akeys (((createNodesPhases m (initState m)).pstate p.name).group_nodes)
      = depTagsP m p := by
    rw [hgk]
    simp [planGroupKeys, hnb]
  constructor
  · intro cols hcols
    have htags : depTagsP m p
        = ((m.data.rows.map (projCols cols)).dedup).map Tag.single := by
      unfold depTagsP
      rw [hcols]
    refine ⟨by rw [hgk2, htags], ?_⟩
    have hlen2 : (((createNodesPhases m (initState m)).pstate p.name).group_nodes).length
        = (akeys (((createNodesPhases m (initState m)).pstate p.name).group_nodes)).length := by
      unfold akeys
      rw [List.length_map]
    rw [hlen2, hgk2, htags, List.length_map]
  · intro hcols
    rw [hgk2]
    unfold depTagsP
    rw [hcols]

/-- Two non-bottom templates, one depending on column `c` with two unique
values, one independent. -/
def pC6a : HNodeT := { name := "a", group_knode := true }

def pC6b : HNodeT := { name := "b", group_knode := true }

def dataC6 : DataTable :=
  { colnames := ["subj_idx", "c"],
    rows := [[("subj_idx", 0), ("c", 0)], [("subj_idx", 0), ("c", 1)]] }

def mC6 : Model :=
  { data := dataC6, depends_on := [("a", ["c"])], params := [pC6a, pC6b],
    includes := [], is_group_model := false }

/-- C6 witness: the tag counts at the concrete model `mC6` - two group
entries for the dependent parameter (two unique values of `c`), one
empty-tagged entry for the independent one. -/
theorem C6_witness :
    ((mC6.params.map (fun p => p.name)).Nodup
      ∧ pC6a ∈ paramsInclude mC6 ∧ pC6a.is_bottom_node = false
      ∧ pC6b ∈ paramsInclude mC6 ∧ pC6b.is_bottom_node = false
      ∧ aget mC6.depends_on pC6a.name = some ["c"]
      ∧ aget mC6.depends_on pC6b.name = none)
    ∧ (akeys (((createNodesPhases mC6 (initState mC6)).pstate pC6a.name).group_nodes)
        = ((mC6.data.rows.map (projCols ["c"])).dedup).map Tag.single
      ∧ (((createNodesPhases mC6 (initState mC6)).pstate pC6a.name).group_nodes).length
        = ((mC6.data.rows.map (projCols ["c"])).dedup).length)
    ∧ akeys (((createNodesPhases mC6 (initState mC6)).pstate pC6b.name).group_nodes)
        = [Tag.empty] :=
  ⟨⟨by decide, by decide, by decide, by decide, by decide, by decide, by decide⟩,
    (C6_tag_uniqueness mC6 (by decide) pC6a (by decide) (by decide)).1 ["c"] (by decide),
    (C6_tag_uniqueness mC6 (by decide) pC6b (by decide) (by decide)).2 (by decide)⟩

end Kabuki
